import Mathlib

/-!
# Lua 5.3.5 `lobject.c` / `lobject.h`

A shallow embedding of the functions of `lobject.c`: the text-to-number functions
(`luaO_hexavalue`, `isneg`, `lua_strx2number`, `l_str2dloc`, `l_str2d`,
`l_str2int`, `luaO_str2num`), `luaO_tostring`, `luaO_ceillog2`, `luaO_int2fb`,
`luaO_fb2int`, `luaO_utf8esc`, the arithmetic of `luaO_arith` (`intarith`,
`numarith`), the formatting of `luaO_pushvfstring` and `luaO_chunkid`, with the
tags, the test macros and the `TValue` constructors of `lobject.h`.

Conventions.
* A C string is the list of its characters; the terminating `'\0'` is what is
  read at the end of the list (`peek`).  A `const char *` into a string is the
  remaining suffix of the list, and a pointer difference `e - s` is the
  difference of the lengths.
* `lua_Unsigned` is a natural number below `2^64`, every operation reduced
  modulo `2^64`; `lua_Integer` is an `Int` in the two's-complement range.
* `lua_Number`, its arithmetic, the C library `strtod` and the locale's decimal
  point belong to the platform: they are the fields of `Platform`.
* A buffer that a function fills is the list of the bytes written to it, in the
  order of the buffer, terminators included; `size_t` is a natural number below
  `2^64`.
-/

namespace LuaObject

/-! ## Characters and C strings -/

/-- The terminator of a C string. -/
def NUL : Char := Char.ofNat 0

/-- The character under a `const char *`: the head of the remaining text, or the
terminator at its end (`*s`). -/
def peek (s : List Char) : Char := s.headD NUL

/-- The C library `strlen`: the number of characters before the first terminator. -/
def strlen : List Char → Nat
  | [] => 0
  | c :: cs => if c = NUL then 0 else strlen cs + 1

/-- The pointer difference `e - s` of a pointer `e` into the string `s`. -/
def ptrdiff (s e : List Char) : Nat := s.length - e.length

/-- Modelled from the spec: `lisdigit` of lctype.h (not among the sources), the test
for a decimal digit `0`..`9`. -/
def lisdigit (c : Char) : Bool := decide (48 ≤ c.toNat) && decide (c.toNat ≤ 57)

/-- Modelled from the spec: `lisspace` of lctype.h (not among the sources), the test
for a whitespace character: space, `\t`, `\n`, `\v`, `\f`, `\r`. -/
def lisspace (c : Char) : Bool :=
  decide (c.toNat = 32) || (decide (9 ≤ c.toNat) && decide (c.toNat ≤ 13))

/-- Modelled from the spec: `lisxdigit` of lctype.h (not among the sources), the test
for a hexadecimal digit `0`..`9`, `a`..`f`, `A`..`F`. -/
def lisxdigit (c : Char) : Bool :=
  lisdigit c || (decide (97 ≤ c.toNat) && decide (c.toNat ≤ 102))
    || (decide (65 ≤ c.toNat) && decide (c.toNat ≤ 70))

/-- Modelled from the spec: `ltolower` of lctype.h (not among the sources),
`(c) | ('A' ^ 'a')`, which maps an ASCII letter to its lower-case form. -/
def ltolower (c : Nat) : Nat := c ||| 32

/-! ## Machine integers -/

/-- Conversion of a C integer to `lua_Unsigned` (reduction modulo `2^64`). -/
def castUnsigned (x : Int) : Nat := (x % 2 ^ 64).toNat

/-- The macro `l_castU2S`: a `lua_Unsigned` read as a two's-complement `lua_Integer`. -/
def l_castU2S (x : Nat) : Int := if x % 2 ^ 64 < 2 ^ 63 then (x % 2 ^ 64 : Nat) else (x % 2 ^ 64 : Nat) - 2 ^ 64

/-- Modelled from the spec: `LUA_MAXINTEGER` of luaconf.h (not among the sources), the
platform's maximum representable signed integer, `2^63 - 1` for the 64-bit `lua_Integer`. -/
def LUA_MAXINTEGER : Nat := 2 ^ 63 - 1

/-- Modelled from the spec: `LUA_MININTEGER` of luaconf.h (not among the sources),
the minimum 64-bit `lua_Integer`. -/
def LUA_MININTEGER : Int := -(2 ^ 63)

/-- The macro `MAXBY10`. -/
def MAXBY10 : Nat := LUA_MAXINTEGER / 10

/-- The macro `MAXLASTD`. -/
def MAXLASTD : Int := ((LUA_MAXINTEGER % 10 : Nat) : Int)

/-! ## `luaO_hexavalue`, `isneg` -/

/-- The function `luaO_hexavalue`. -/
def luaO_hexavalue (c : Char) : Int :=
  if lisdigit c then (c.toNat : Int) - 48
  else ((ltolower c.toNat : Nat) : Int) - 97 + 10

/-- The function `isneg`: the flag returned and the advanced pointer. -/
def isneg (s : List Char) : Bool × List Char :=
  if peek s = '-' then (true, s.tail)
  else if peek s = '+' then (false, s.tail)
  else (false, s)

/-- The loops `while (lisspace(cast_uchar(*s))) s++;`. -/
def skipSpaces : List Char → List Char
  | [] => []
  | c :: cs => if lisspace c then skipSpaces cs else c :: cs

/-! ## `l_str2int` -/

/-- The hexadecimal loop of `l_str2int`: the accumulator `a`, the flag `empty`
and the pointer when the loop ends. -/
def hexLoop : List Char → Nat → Bool → Nat × Bool × List Char
  | [], a, empty => (a, empty, [])
  | c :: cs, a, empty =>
    if lisxdigit c then hexLoop cs (castUnsigned ((a : Int) * 16 + luaO_hexavalue c)) false
    else (a, empty, c :: cs)

/-- The decimal loop of `l_str2int`; `none` is the `return NULL` on overflow. -/
def decLoop (neg : Bool) : List Char → Nat → Bool → Option (Nat × Bool × List Char)
  | [], a, empty => some (a, empty, [])
  | c :: cs, a, empty =>
    if lisdigit c then
      let d : Int := (c.toNat : Int) - 48
      if a ≥ MAXBY10 ∧ (a > MAXBY10 ∨ d > MAXLASTD + (if neg then 1 else 0)) then none
      else decLoop neg cs (castUnsigned ((a : Int) * 10 + d)) false
    else some (a, empty, c :: cs)

/-- The tail of `l_str2int` after the digit loops: skip the trailing spaces, fail when
no digit was read or the text does not end there, else the value and the pointer
to the terminator. -/
def l_str2int_finish (neg : Bool) (r : Nat × Bool × List Char) : Option (Int × List Char) :=
  let s := skipSpaces r.2.2
  if r.2.1 ∨ peek s ≠ NUL then none
  else some (l_castU2S (if neg then castUnsigned (0 - (r.1 : Int)) else r.1), s)

/-- The function `l_str2int`: `none` is `NULL`, else the integer stored in `*result`
and the returned pointer. -/
def l_str2int (s : List Char) : Option (Int × List Char) :=
  let s1 := skipSpaces s
  let ns := isneg s1
  let neg := ns.1
  let s2 := ns.2
  if peek s2 = '0' ∧ (peek s2.tail = 'x' ∨ peek s2.tail = 'X') then
    l_str2int_finish neg (hexLoop s2.tail.tail 0 true)
  else
    match decLoop neg s2 0 true with
    | none => none
    | some r => l_str2int_finish neg r

/-! ## Tagged values (`lobject.h`) -/

/-- Modelled from the spec: `LUA_TNUMBER` of lua.h (not among the sources), the base
kind of numbers. -/
def LUA_TNUMBER : Nat := 3

/-- The macro `LUA_TNUMFLT`: float numbers. -/
def LUA_TNUMFLT : Nat := LUA_TNUMBER ||| (0 <<< 4)

/-- The macro `LUA_TNUMINT`: integer numbers. -/
def LUA_TNUMINT : Nat := LUA_TNUMBER ||| (1 <<< 4)

/-- The union `Value`, one constructor for each member; `F` is `lua_Number`. -/
inductive Value (F : Type) where
  | gc (ref : Nat)
  | p (ptr : Nat)
  | b (flag : Int)
  | f (fn : Nat)
  | i (int : Int)
  | n (num : F)
  deriving DecidableEq, Repr

/-- The struct `TValue` (`TValuefields`): a value and its tag. -/
structure TValue (F : Type) where
  value_ : Value F
  tt_ : Nat
  deriving DecidableEq, Repr

/-- The macro `setfltvalue`. -/
def setfltvalue {F : Type} (_obj : TValue F) (x : F) : TValue F :=
  { value_ := Value.n x, tt_ := LUA_TNUMFLT }

/-- The macro `setivalue`. -/
def setivalue {F : Type} (_obj : TValue F) (x : Int) : TValue F :=
  { value_ := Value.i x, tt_ := LUA_TNUMINT }

/-- The macro `rttype`. -/
def rttype {F : Type} (o : TValue F) : Nat := o.tt_

/-- The macro `checktag`. -/
def checktag {F : Type} (o : TValue F) (t : Nat) : Bool := rttype o == t

/-- The macro `ttisfloat`. -/
def ttisfloat {F : Type} (o : TValue F) : Bool := checktag o LUA_TNUMFLT

/-- The macro `ttisinteger`. -/
def ttisinteger {F : Type} (o : TValue F) : Bool := checktag o LUA_TNUMINT

/-! ## The platform -/

/-- What `lobject.c` takes from the C library and from luaconf.h: the type
`lua_Number` (`F`) with the arithmetic used on it, `lua_str2number` (the C library
`strtod`: the value and how many characters `endptr` lies beyond `s`),
`lua_number2str` (the text `buff` receives) and `lua_getlocaledecpoint` (the decimal
point of the current locale). -/
structure Platform (F : Type) where
  decpoint : Char
  strtod : List Char → F × Nat
  number2str : F → List Char
  ofInt : Int → F
  add : F → F → F
  mul : F → F → F
  neg : F → F
  ldexp : F → Int → F

/-- The macro `MAXSIGDIG`. -/
def MAXSIGDIG : Int := 30

/-- The macro `L_MAXLENNUM`. -/
def L_MAXLENNUM : Nat := 200

/-! ## `lua_strx2number` -/

/-- The local variables of `lua_strx2number` that its numeral loop updates; the counters
are unbounded integers (they count characters of the text). -/
structure StrxState (F : Type) where
  r : F
  sigdig : Int
  nosigdig : Int
  e : Int
  hasdot : Bool

/-- The branch `else if (lisxdigit(cast_uchar(*s)))` of the numeral loop of
`lua_strx2number`: the variables after one hexadecimal digit `c`. -/
def strxDigit {F : Type} (P : Platform F) (st : StrxState F) (c : Char) : StrxState F :=
  let st1 : StrxState F :=
    if st.sigdig = 0 ∧ c = '0' then { st with nosigdig := st.nosigdig + 1 }
    else if st.sigdig + 1 ≤ MAXSIGDIG then
      { st with sigdig := st.sigdig + 1,
                r := P.add (P.mul st.r (P.ofInt 16)) (P.ofInt (luaO_hexavalue c)) }
    else { st with sigdig := st.sigdig + 1, e := st.e + 1 }
  if st1.hasdot then { st1 with e := st1.e - 1 } else st1

/-- The numeral loop `for (s += 2; ; s++)` of `lua_strx2number`: the variables and
the pointer at the `break`. -/
def strxLoop {F : Type} (P : Platform F) : List Char → StrxState F → StrxState F × List Char
  | [], st => (st, [])
  | c :: cs, st =>
    if c = P.decpoint then
      if st.hasdot then (st, c :: cs)
      else strxLoop P cs { st with hasdot := true }
    else if lisxdigit c then strxLoop P cs (strxDigit P st c)
    else (st, c :: cs)

/-- The loop `while (lisdigit(cast_uchar(*s))) exp1 = exp1 * 10 + *(s++) - '0';`.  The C
`int` `exp1` is an unbounded integer here: its overflow is undefined in C. -/
def expLoop : List Char → Int → Int × List Char
  | [], exp1 => (exp1, [])
  | c :: cs, exp1 =>
    if lisdigit c then expLoop cs (exp1 * 10 + (c.toNat : Int) - 48)
    else (exp1, c :: cs)

/-- The function `lua_strx2number`: the number returned and `*endptr - s`. -/
def lua_strx2number {F : Type} (P : Platform F) (s : List Char) : F × Nat :=
  let s1 := skipSpaces s
  let ns := isneg s1
  let neg := ns.1
  let s2 := ns.2
  if ¬ (peek s2 = '0' ∧ (peek s2.tail = 'x' ∨ peek s2.tail = 'X')) then (P.ofInt 0, 0)
  else
    let lp := strxLoop P s2.tail.tail
      { r := P.ofInt 0, sigdig := 0, nosigdig := 0, e := 0, hasdot := false }
    let st := lp.1
    let s3 := lp.2
    if st.nosigdig + st.sigdig = 0 then (P.ofInt 0, 0)
    else
      let e := st.e * 4
      if peek s3 = 'p' ∨ peek s3 = 'P' then
        let ns1 := isneg s3.tail
        let neg1 := ns1.1
        let s4 := ns1.2
        if ¬ lisdigit (peek s4) then (P.ofInt 0, ptrdiff s s3)
        else
          let ex := expLoop s4 0
          let exp1 := if neg1 then - ex.1 else ex.1
          let r := if neg then P.neg st.r else st.r
          (P.ldexp r (e + exp1), ptrdiff s ex.2)
      else
        let r := if neg then P.neg st.r else st.r
        (P.ldexp r e, ptrdiff s s3)

/-! ## `l_str2dloc`, `l_str2d`, `luaO_str2num` -/

/-- The function `l_str2dloc`: `none` is `NULL`, else the number stored in `*result`
and the returned pointer as its distance from `s`. -/
def l_str2dloc {F : Type} (P : Platform F) (s : List Char) (mode : Nat) : Option (F × Nat) :=
  let cv := if mode = 'x'.toNat then lua_strx2number P s else P.strtod s
  if cv.2 = 0 then none
  else
    let e := skipSpaces (s.drop cv.2)
    if peek e = NUL then some (cv.1, ptrdiff s e) else none

/-- The C library `strpbrk(s, ".xXnN")`: the first character of `s` that is one of
these, if any. -/
def strpbrk_mode : List Char → Option Char
  | [] => none
  | c :: cs =>
    if c = NUL then none
    else if c = '.' ∨ c = 'x' ∨ c = 'X' ∨ c = 'n' ∨ c = 'N' then some c
    else strpbrk_mode cs

/-- The C library `strchr(s, '.')`: the distance of the first `'.'` from `s`, if any. -/
def strchr_dot : List Char → Option Nat
  | [] => none
  | c :: cs =>
    if c = NUL then none
    else if c = '.' then some 0
    else (strchr_dot cs).map (· + 1)

/-- The function `l_str2d`: `none` is `NULL`, else the number stored in `*result` and
the returned pointer as its distance from `s`. -/
def l_str2d {F : Type} (P : Platform F) (s : List Char) : Option (F × Nat) :=
  let pmode := strpbrk_mode s
  let mode : Nat := match pmode with
    | some c => ltolower c.toNat
    | none => 0
  if mode = 'n'.toNat then none
  else
    match l_str2dloc P s mode with
    | some r => some r
    | none =>
      match strchr_dot s with
      | none => none
      | some pdot =>
        if strlen s > L_MAXLENNUM then none
        else
          let buff := (s.take (strlen s)).set pdot P.decpoint
          l_str2dloc P buff mode

/-- The function `luaO_str2num`: the size returned and the contents of `*o` after the
call, given its contents before. -/
def luaO_str2num {F : Type} (P : Platform F) (s : List Char) (o : TValue F) : Nat × TValue F :=
  match l_str2int s with
  | some (i, e) => (ptrdiff s e + 1, setivalue o i)
  | none =>
    match l_str2d P s with
    | some (n, e) => (e + 1, setfltvalue o n)
    | none => (0, o)

/-! ## `luaO_tostring` -/

/-- Modelled from the spec: `lua_integer2str` of luaconf.h (not among the sources):
the canonical minimal decimal form of an integer, `'-'` when negative, then the
digits without leading zeros. -/
def lua_integer2str (i : Int) : List Char :=
  if i < 0 then '-' :: Nat.toDigits 10 i.natAbs else Nat.toDigits 10 i.natAbs

/-- The macro `ivalue` (the member `i` of the union; `0` stands for reading it under
another tag, which `check_exp` excludes). -/
def ivalue {F : Type} (o : TValue F) : Int :=
  match o.value_ with
  | Value.i x => x
  | _ => 0

/-- The test `buff[strspn(buff, "-0123456789")] == '\0'` of `luaO_tostring`. -/
def looksLikeInt (buff : List Char) : Bool :=
  peek (buff.dropWhile (fun c => c = '-' || lisdigit c)) == NUL

/-- The function `luaO_tostring`: the text of the string object that replaces the
number `obj`. -/
def luaO_tostring {F : Type} (P : Platform F) (obj : TValue F) : List Char :=
  if ttisinteger obj then lua_integer2str (ivalue obj)
  else
    match obj.value_ with
    | Value.n x =>
      let buff := P.number2str x
      if looksLikeInt buff then buff ++ [P.decpoint, '0'] else buff
    | _ => []

/-! ## The mathematical value of a numeral -/

/-- The value of a string of decimal digits read as a base-ten numeral. -/
def decValue (ds : List Char) : Nat := ds.foldl (fun a c => a * 10 + (c.toNat - 48)) 0

/-- The value of a hexadecimal digit. -/
def hexDigitValue (c : Char) : Nat :=
  if c.toNat ≤ 57 then c.toNat - 48
  else if c.toNat ≤ 70 then c.toNat - 55
  else c.toNat - 87

/-- The value of a string of hexadecimal digits read as a base-sixteen numeral. -/
def hexValue (hs : List Char) : Nat := hs.foldl (fun a c => a * 16 + hexDigitValue c) 0

/-- The signed mathematical value of a decimal numeral: sign text `sg`, digits `ds`. -/
def numeralValue (sg ds : List Char) : Int :=
  if sg = ['-'] then -(decValue ds : Int) else (decValue ds : Int)

/-- A sign text is empty, `+` or `-`. -/
def IsSign (sg : List Char) : Prop := sg = [] ∨ sg = ['+'] ∨ sg = ['-']

/-! ## A sample platform: exact rational arithmetic, a `strtod` for digit strings -/

/-- A `strtod` that recognises `whitespace* [+-]? digit+` only. -/
def strtodDigits (s : List Char) : Rat × Nat :=
  let ns := isneg (skipSpaces s)
  let ds := ns.2.takeWhile (fun c => lisdigit c)
  if ds = [] then (0, 0)
  else ((if ns.1 then -(decValue ds : Rat) else (decValue ds : Rat)),
        ptrdiff s (ns.2.dropWhile (fun c => lisdigit c)))

/-- The sample platform: rationals for `lua_Number`, the C locale's decimal point. -/
def ratPlatform : Platform Rat where
  decpoint := '.'
  strtod := strtodDigits
  number2str := fun q =>
    if q.den = 1 then lua_integer2str q.num
    else lua_integer2str q.num ++ '/' :: Nat.toDigits 10 q.den
  ofInt := fun z => (z : Rat)
  add := fun x y => x + y
  mul := fun x y => x * y
  neg := fun x => -x
  ldexp := fun x e => x * (2 : Rat) ^ e

/-- The constant `luaO_nilobject_` (`NILCONSTANT`), used as the prior contents of `*o`. -/
def nilobject (F : Type) : TValue F := { value_ := Value.gc 0, tt_ := 0 }

/-! ## Specification-side definitions used by the theorems -/

/-- The fold of the decimal loop from an accumulator `a`. -/
def decFold (a : Nat) (ds : List Char) : Nat :=
  ds.foldl (fun a c => a * 10 + (c.toNat - 48)) a

/-- The largest magnitude the decimal loop lets through: `LUA_MAXINTEGER`, and one more
under a minus sign. -/
def decBound (neg : Bool) : Nat := LUA_MAXINTEGER + (if neg then 1 else 0)

/-- The fold of the hexadecimal loop from an accumulator `a`, without reduction. -/
def hexFold (a : Nat) (hs : List Char) : Nat :=
  hs.foldl (fun a c => a * 16 + hexDigitValue c) a

/-- Every character of the text is a whitespace character. -/
def AllSpace (ws : List Char) : Prop := ∀ c ∈ ws, lisspace c = true

/-- The body `0x` or `0X` followed by at least one hexadecimal digit. -/
def IsHexBody (body : List Char) : Prop :=
  ∃ x hs, body = '0' :: x :: hs ∧ (x = 'x' ∨ x = 'X') ∧ hs ≠ [] ∧ ∀ c ∈ hs, lisxdigit c = true

/-- The body of at least one decimal digit whose signed value is in the 64-bit range. -/
def IsDecBody (sg body : List Char) : Prop :=
  body ≠ [] ∧ (∀ c ∈ body, lisdigit c = true) ∧
    LUA_MININTEGER ≤ numeralValue sg body ∧ numeralValue sg body ≤ (LUA_MAXINTEGER : Int)

/-- The shape of an integer numeral: whitespace, an optional single sign, a hexadecimal
or an in-range decimal body, whitespace. -/
def IsIntNumeral (s : List Char) : Prop :=
  ∃ ws1 sg body ws2, s = ws1 ++ (sg ++ (body ++ ws2)) ∧ AllSpace ws1 ∧ IsSign sg ∧
    AllSpace ws2 ∧ (IsHexBody body ∨ IsDecBody sg body)

/-- The sign text of the canonical decimal form of `i`. -/
def signText (i : Int) : List Char := if i < 0 then ['-'] else []

/-- The characters an accepted integer numeral is made of. -/
def IsIntChar (c : Char) : Prop :=
  lisspace c = true ∨ c = '+' ∨ c = '-' ∨ lisxdigit c = true ∨ c = 'x' ∨ c = 'X'

/-- The exponent part of a hexadecimal float: nothing, or `p`/`P`, an optional sign and
at least one decimal digit. -/
def IsHexExponent (ex : List Char) : Prop :=
  ex = [] ∨ ∃ p sg1 ds, ex = p :: (sg1 ++ ds) ∧ (p = 'p' ∨ p = 'P') ∧ IsSign sg1 ∧ ds ≠ [] ∧
    ∀ c ∈ ds, lisdigit c = true

/-- The format `[+-]?0[xX][0-9a-fA-F]*\.?[0-9a-fA-F]*([pP][+-]?[0-9]+)?` of the spec. -/
def IsHexFloatText (s : List Char) : Prop :=
  ∃ sg x H dt Fr ex, s = sg ++ '0' :: x :: (H ++ dt ++ Fr ++ ex) ∧ IsSign sg ∧
    (x = 'x' ∨ x = 'X') ∧ (∀ c ∈ H, lisxdigit c = true) ∧ (dt = [] ∨ dt = ['.']) ∧
    (∀ c ∈ Fr, lisxdigit c = true) ∧ IsHexExponent ex

/-- The hypotheses on the locale's decimal point under which the numeral loop reads a
hexadecimal float: it is no hexadecimal digit, no exponent mark and not the terminator. -/
def DecpointOk (dp : Char) : Prop := lisxdigit dp = false ∧ dp ≠ 'p' ∧ dp ≠ 'P' ∧ dp ≠ NUL

/-! ## `luaO_ceillog2` -/

/-- The table `log_2` of `luaO_ceillog2`. -/
def log_2 : List Nat :=
  [
    0,1,2,2,3,3,3,3,4,4,4,4,4,4,4,4,5,5,5,5,5,5,5,5,5,5,5,5,5,5,5,5,
    6,6,6,6,6,6,6,6,6,6,6,6,6,6,6,6,6,6,6,6,6,6,6,6,6,6,6,6,6,6,6,6,
    7,7,7,7,7,7,7,7,7,7,7,7,7,7,7,7,7,7,7,7,7,7,7,7,7,7,7,7,7,7,7,7,
    7,7,7,7,7,7,7,7,7,7,7,7,7,7,7,7,7,7,7,7,7,7,7,7,7,7,7,7,7,7,7,7,
    8,8,8,8,8,8,8,8,8,8,8,8,8,8,8,8,8,8,8,8,8,8,8,8,8,8,8,8,8,8,8,8,
    8,8,8,8,8,8,8,8,8,8,8,8,8,8,8,8,8,8,8,8,8,8,8,8,8,8,8,8,8,8,8,8,
    8,8,8,8,8,8,8,8,8,8,8,8,8,8,8,8,8,8,8,8,8,8,8,8,8,8,8,8,8,8,8,8,
    8,8,8,8,8,8,8,8,8,8,8,8,8,8,8,8,8,8,8,8,8,8,8,8,8,8,8,8,8,8,8,8
  ]

/-- The loop `while (x >= 256) { l += 8; x >>= 8; }` of `luaO_ceillog2` followed by its
`return l + log_2[x]`. -/
def ceillog2Loop (l x : Nat) : Nat :=
  if _h : x ≥ 256 then ceillog2Loop (l + 8) (x >>> 8) else l + log_2.getD x 0
termination_by x
decreasing_by
  rw [Nat.shiftRight_eq_div_pow]
  exact Nat.div_lt_self (by omega) (by norm_num)

/-- The function `luaO_ceillog2` on an `unsigned int` (`x--` is taken modulo `2^32`). -/
def luaO_ceillog2 (x : Nat) : Nat := ceillog2Loop 0 ((x + 2 ^ 32 - 1) % 2 ^ 32)

/-! ## `luaO_int2fb`, `luaO_fb2int` -/

/-- The loop `while (x >= (8 << 4))` (coarse steps) of `luaO_int2fb`: `x` and `e` when it
ends; `x` is an `unsigned int`, so `x + 0xf` is taken modulo `2^32`. -/
def int2fbCoarse (x e : Nat) : Nat × Nat :=
  if _h : x ≥ 8 <<< 4 then int2fbCoarse (((x + 0xf) % 2 ^ 32) >>> 4) (e + 4) else (x, e)
termination_by x
decreasing_by
  have h1 : 8 <<< 4 = 128 := by decide
  rw [h1] at _h
  rw [Nat.shiftRight_eq_div_pow]
  have : (x + 15) % 2 ^ 32 ≤ x + 15 := Nat.mod_le _ _
  have h2 : 2 ^ 4 = 16 := by norm_num
  rw [h2]
  omega

/-- The loop `while (x >= (8 << 1))` (fine steps) of `luaO_int2fb`: `x` and `e` when it
ends. -/
def int2fbFine (x e : Nat) : Nat × Nat :=
  if _h : x ≥ 8 <<< 1 then int2fbFine (((x + 1) % 2 ^ 32) >>> 1) (e + 1) else (x, e)
termination_by x
decreasing_by
  have h1 : 8 <<< 1 = 16 := by decide
  rw [h1] at _h
  rw [Nat.shiftRight_eq_div_pow]
  have : (x + 1) % 2 ^ 32 ≤ x + 1 := Nat.mod_le _ _
  have h2 : 2 ^ 1 = 2 := by norm_num
  rw [h2]
  omega

/-- The function `luaO_int2fb` on an `unsigned int` `x`. -/
def luaO_int2fb (x : Nat) : Int :=
  if x < 8 then (x : Int)
  else
    let c := int2fbCoarse x 0
    let f := int2fbFine c.1 c.2
    Int.lor (((f.2 + 1) <<< 3 : Nat) : Int) ((f.1 : Int) - 8)

/-- The function `luaO_fb2int`.  The left shift is the mathematical one: the C `int`
overflows (undefined) when the exponent field `x >> 3` is above 28. -/
def luaO_fb2int (x : Int) : Int :=
  if x < 8 then x
  else ((((x.toNat &&& 7) + 8) <<< ((x.toNat >>> 3) - 1) : Nat) : Int)

/-! ## Specification-side definitions for the size encodings -/

/-- The quotient `x / 2^k` rounded up. -/
def ceilDivPow (x k : Nat) : Nat := (x + 2 ^ k - 1) / 2 ^ k

/-- The values `luaO_fb2int` produces on the bytes whose decoded value fits in an `int`
(`0 .. 231`, exponent field at most 28). -/
def IsFbValue (v : Int) : Prop := ∃ b : Nat, b ≤ 231 ∧ luaO_fb2int (b : Int) = v

/-- The loop invariant of `luaO_int2fb` for the argument `x0`: `x` is `x0 / 2^e` rounded
up, it is at least 8, and one step less would not have fitted the 4-bit mantissa. -/
def FbInv (x0 x e : Nat) : Prop :=
  x = ceilDivPow x0 e ∧ 8 ≤ x ∧ (e = 0 ∨ 16 ≤ ceilDivPow x0 (e - 1))

/-! ## `luaO_utf8esc` -/

/-- The macro `UTF8BUFFSZ`. -/
def UTF8BUFFSZ : Nat := 8

/-- The `do ... while (x > mfb)` loop of `luaO_utf8esc`: the buffer, `x`, `mfb` and `n`
when it ends.  A `char` stored in the buffer is the unsigned value of its byte. -/
def utf8escLoop (buff : List Nat) (x mfb n : Nat) : List Nat × Nat × Nat × Nat :=
  if _h : x >>> 6 > mfb >>> 1 then
    utf8escLoop (buff.set (UTF8BUFFSZ - n) ((0x80 ||| (x &&& 0x3f)) % 256)) (x >>> 6)
      (mfb >>> 1) (n + 1)
  else (buff.set (UTF8BUFFSZ - n) ((0x80 ||| (x &&& 0x3f)) % 256), x >>> 6, mfb >>> 1, n + 1)
termination_by x
decreasing_by
  rw [Nat.shiftRight_eq_div_pow] at _h ⊢
  have h2 : 2 ^ 6 = 64 := by norm_num
  rw [h2] at _h ⊢
  omega

/-- The first byte `cast(char, (~mfb << 1) | x)` of `luaO_utf8esc`; `~mfb << 1` is
computed on a 32-bit `unsigned int`. -/
def utf8FirstByte (mfb x : Nat) : Nat :=
  ((((2 ^ 32 - 1 - mfb) <<< 1) % 2 ^ 32) ||| x) % 256

/-- The function `luaO_utf8esc`: the number of bytes returned and the buffer after the
call. -/
def luaO_utf8esc (buff : List Nat) (x : Nat) : Nat × List Nat :=
  if x < 0x80 then (1, buff.set (UTF8BUFFSZ - 1) (x % 256))
  else
    let r := utf8escLoop buff x 0x3f 1
    (r.2.2.2, r.1.set (UTF8BUFFSZ - r.2.2.2) (utf8FirstByte r.2.2.1 r.2.1))

/-! ## The standard UTF-8 encoding -/

/-- The standard UTF-8 encoding of a code point up to `0x10FFFF`: one byte `0xxxxxxx`, or
a leading byte `110xxxxx`, `1110xxxx`, `11110xxx` followed by bytes `10xxxxxx` of 6 bits
each. -/
def utf8Encode (x : Nat) : List Nat :=
  if x < 0x80 then [x]
  else if x < 0x800 then [0xC0 + x / 64, 0x80 + x % 64]
  else if x < 0x10000 then [0xE0 + x / 4096, 0x80 + x / 64 % 64, 0x80 + x % 64]
  else [0xF0 + x / 262144, 0x80 + x / 4096 % 64, 0x80 + x / 64 % 64, 0x80 + x % 64]

/-- A continuation byte `10xxxxxx`. -/
def isUtf8Cont (b : Nat) : Bool := decide (0x80 ≤ b) && decide (b < 0xC0)

/-- The standard UTF-8 decoding of one sequence of up to four bytes. -/
def utf8Decode : List Nat → Option Nat
  | [b0] => if b0 < 0x80 then some b0 else none
  | [b0, b1] =>
    if 0xC0 ≤ b0 ∧ b0 < 0xE0 ∧ isUtf8Cont b1 then some ((b0 - 0xC0) * 64 + (b1 - 0x80))
    else none
  | [b0, b1, b2] =>
    if 0xE0 ≤ b0 ∧ b0 < 0xF0 ∧ isUtf8Cont b1 ∧ isUtf8Cont b2 then
      some ((b0 - 0xE0) * 4096 + (b1 - 0x80) * 64 + (b2 - 0x80))
    else none
  | [b0, b1, b2, b3] =>
    if 0xF0 ≤ b0 ∧ b0 < 0xF8 ∧ isUtf8Cont b1 ∧ isUtf8Cont b2 ∧ isUtf8Cont b3 then
      some ((b0 - 0xF0) * 262144 + (b1 - 0x80) * 4096 + (b2 - 0x80) * 64 + (b3 - 0x80))
    else none
  | _ => none

/-! ## Specification-side definitions for `luaO_tostring` -/

/-- The locale's decimal point is a mark of its own: not the terminator and none of the
characters an integer numeral is made of. -/
def DecpointMark (dp : Char) : Prop := dp ≠ NUL ∧ ¬ IsIntChar dp

/-- What is assumed of the text `lua_number2str` writes (`"%.14g"`): it is a C string
without whitespace, without the hexadecimal mark `x`/`X` and without a leading `+`. -/
def Number2StrPlain (buff : List Char) : Prop :=
  NUL ∉ buff ∧ (∀ c ∈ buff, lisspace c = false ∧ c ≠ 'x' ∧ c ≠ 'X') ∧ peek buff ≠ '+'

/-! ## Arithmetic: `intarith`, `numarith`, `luaO_arith` -/

/-- Modelled from the spec: the operator code `LUA_OPADD` of lua.h (not among the
sources); the codes count from 0 (add) to 13 (bitwise-not). -/
def LUA_OPADD : Nat := 0

/-- Modelled from the spec: the operator code `LUA_OPSUB` of lua.h. -/
def LUA_OPSUB : Nat := 1

/-- Modelled from the spec: the operator code `LUA_OPMUL` of lua.h. -/
def LUA_OPMUL : Nat := 2

/-- Modelled from the spec: the operator code `LUA_OPMOD` of lua.h. -/
def LUA_OPMOD : Nat := 3

/-- Modelled from the spec: the operator code `LUA_OPPOW` of lua.h. -/
def LUA_OPPOW : Nat := 4

/-- Modelled from the spec: the operator code `LUA_OPDIV` of lua.h. -/
def LUA_OPDIV : Nat := 5

/-- Modelled from the spec: the operator code `LUA_OPIDIV` (floor division) of lua.h. -/
def LUA_OPIDIV : Nat := 6

/-- Modelled from the spec: the operator code `LUA_OPBAND` of lua.h. -/
def LUA_OPBAND : Nat := 7

/-- Modelled from the spec: the operator code `LUA_OPBOR` of lua.h. -/
def LUA_OPBOR : Nat := 8

/-- Modelled from the spec: the operator code `LUA_OPBXOR` of lua.h. -/
def LUA_OPBXOR : Nat := 9

/-- Modelled from the spec: the operator code `LUA_OPSHL` of lua.h. -/
def LUA_OPSHL : Nat := 10

/-- Modelled from the spec: the operator code `LUA_OPSHR` of lua.h. -/
def LUA_OPSHR : Nat := 11

/-- Modelled from the spec: the operator code `LUA_OPUNM` (unary minus) of lua.h. -/
def LUA_OPUNM : Nat := 12

/-- Modelled from the spec: the operator code `LUA_OPBNOT` of lua.h. -/
def LUA_OPBNOT : Nat := 13

/-- Modelled from the spec: the macro `intop(+, v1, v2)` of lvm.h (not among the
sources): the operation on the operands converted to `lua_Unsigned`, with wraparound
(two's complement). -/
def intop_add (v1 v2 : Int) : Int := l_castU2S (castUnsigned v1 + castUnsigned v2)

/-- Modelled from the spec: the macro `intop(-, v1, v2)` of lvm.h, with wraparound. -/
def intop_sub (v1 v2 : Int) : Int := l_castU2S (castUnsigned v1 + (2 ^ 64 - castUnsigned v2))

/-- Modelled from the spec: the macro `intop(*, v1, v2)` of lvm.h, with wraparound. -/
def intop_mul (v1 v2 : Int) : Int := l_castU2S (castUnsigned v1 * castUnsigned v2)

/-- Modelled from the spec: the macro `intop(&, v1, v2)` of lvm.h. -/
def intop_and (v1 v2 : Int) : Int := l_castU2S (castUnsigned v1 &&& castUnsigned v2)

/-- Modelled from the spec: the macro `intop(|, v1, v2)` of lvm.h. -/
def intop_or (v1 v2 : Int) : Int := l_castU2S (castUnsigned v1 ||| castUnsigned v2)

/-- Modelled from the spec: the macro `intop(^, v1, v2)` of lvm.h. -/
def intop_xor (v1 v2 : Int) : Int := l_castU2S (castUnsigned v1 ^^^ castUnsigned v2)

/-- Modelled from the spec: the macro `NBITS` of lvm.c (not among the sources), the width
of `lua_Integer` in bits. -/
def NBITS : Int := 64

/-- Modelled from the spec: the function `luaV_shiftl` of lvm.c (not among the sources):
a shift left by `y`, a logical shift right by `-y` when `y` is negative, and 0 when the
magnitude of `y` is at least the operand width. -/
def luaV_shiftl (x y : Int) : Int :=
  if y < 0 then
    if y ≤ -NBITS then 0
    else l_castU2S (castUnsigned x >>> (-y).toNat)
  else
    if y ≥ NBITS then 0
    else l_castU2S (castUnsigned x <<< y.toNat)

/-- The C expression `-v2` on a `lua_Integer`, taken modulo `2^64` (negating the minimum
integer overflows, which is undefined in C). -/
def cneg (v : Int) : Int := l_castU2S (castUnsigned (-v))

/-- What `lobject.c` takes from lvm.h, lvm.c, llimits.h and ltm.h (not among the
sources): the conversions `tointeger` and `tonumber` (`none` when they return 0),
`luaV_mod` and `luaV_div` (`none` when they raise an error), the `luai_num*` operations
on `lua_Number`, the number `0`, and the tag-method event `TM_ADD`. -/
structure ArithEnv (F : Type) where
  tointeger : TValue F → Option Int
  tonumber : TValue F → Option F
  luaV_mod : Int → Int → Option Int
  luaV_div : Int → Int → Option Int
  numadd : F → F → F
  numsub : F → F → F
  nummul : F → F → F
  numdiv : F → F → F
  numpow : F → F → F
  numidiv : F → F → F
  numunm : F → F
  nummod : F → F → F
  zero : F
  TM_ADD : Nat

/-- The function `intarith`; `none` when `luaV_mod` or `luaV_div` raises an error. -/
def intarith {F : Type} (E : ArithEnv F) (op : Nat) (v1 v2 : Int) : Option Int :=
  if op = LUA_OPADD then some (intop_add v1 v2)
  else if op = LUA_OPSUB then some (intop_sub v1 v2)
  else if op = LUA_OPMUL then some (intop_mul v1 v2)
  else if op = LUA_OPMOD then E.luaV_mod v1 v2
  else if op = LUA_OPIDIV then E.luaV_div v1 v2
  else if op = LUA_OPBAND then some (intop_and v1 v2)
  else if op = LUA_OPBOR then some (intop_or v1 v2)
  else if op = LUA_OPBXOR then some (intop_xor v1 v2)
  else if op = LUA_OPSHL then some (luaV_shiftl v1 v2)
  else if op = LUA_OPSHR then some (luaV_shiftl v1 (cneg v2))
  else if op = LUA_OPUNM then some (intop_sub 0 v1)
  else if op = LUA_OPBNOT then some (intop_xor ((2 ^ 64 - 1 : Nat) : Int) v1)
  else some 0

/-- The function `numarith`. -/
def numarith {F : Type} (E : ArithEnv F) (op : Nat) (v1 v2 : F) : F :=
  if op = LUA_OPADD then E.numadd v1 v2
  else if op = LUA_OPSUB then E.numsub v1 v2
  else if op = LUA_OPMUL then E.nummul v1 v2
  else if op = LUA_OPDIV then E.numdiv v1 v2
  else if op = LUA_OPPOW then E.numpow v1 v2
  else if op = LUA_OPIDIV then E.numidiv v1 v2
  else if op = LUA_OPUNM then E.numunm v1
  else if op = LUA_OPMOD then E.nummod v1 v2
  else E.zero

/-- How a call of `luaO_arith` ends: the raw operation stored its result in `*res`, the
raw operation raised an error, or the call went on to
`luaT_trybinTM(L, p1, p2, res, event)`. -/
inductive ArithOutcome (F : Type) where
  | done (res : TValue F)
  | error
  | trybinTM (p1 p2 : TValue F) (event : Nat)
  deriving DecidableEq

/-- The bitwise operators, the first `case` group of `luaO_arith`. -/
def isBitwiseOp (op : Nat) : Bool :=
  op == LUA_OPBAND || op == LUA_OPBOR || op == LUA_OPBXOR || op == LUA_OPSHL ||
    op == LUA_OPSHR || op == LUA_OPBNOT

/-- The operators of the second `case` group of `luaO_arith`. -/
def isFloatOp (op : Nat) : Bool := op == LUA_OPDIV || op == LUA_OPPOW

/-- The function `luaO_arith`. -/
def luaO_arith {F : Type} (E : ArithEnv F) (op : Nat) (p1 p2 res : TValue F) :
    ArithOutcome F :=
  let fallback := ArithOutcome.trybinTM p1 p2 ((op - LUA_OPADD) + E.TM_ADD)
  if isBitwiseOp op then
    match E.tointeger p1 with
    | none => fallback
    | some i1 =>
      match E.tointeger p2 with
      | none => fallback
      | some i2 =>
        match intarith E op i1 i2 with
        | some v => ArithOutcome.done (setivalue res v)
        | none => ArithOutcome.error
  else if isFloatOp op then
    match E.tonumber p1 with
    | none => fallback
    | some n1 =>
      match E.tonumber p2 with
      | none => fallback
      | some n2 => ArithOutcome.done (setfltvalue res (numarith E op n1 n2))
  else
    if ttisinteger p1 && ttisinteger p2 then
      match intarith E op (ivalue p1) (ivalue p2) with
      | some v => ArithOutcome.done (setivalue res v)
      | none => ArithOutcome.error
    else
      match E.tonumber p1 with
      | none => fallback
      | some n1 =>
        match E.tonumber p2 with
        | none => fallback
        | some n2 => ArithOutcome.done (setfltvalue res (numarith E op n1 n2))

/-! ## A sample arithmetic environment over the rationals -/

/-- The sample `tointeger`: an integer value as it is, a float value when it is
integral and in the 64-bit range. -/
def ratTointeger (o : TValue Rat) : Option Int :=
  if ttisinteger o then some (ivalue o)
  else if ttisfloat o then
    match o.value_ with
    | Value.n q =>
      if q.den = 1 ∧ LUA_MININTEGER ≤ q.num ∧ q.num ≤ (LUA_MAXINTEGER : Int) then some q.num
      else none
    | _ => none
  else none

/-- The sample `tonumber`: a float value as it is, an integer value converted. -/
def ratTonumber (o : TValue Rat) : Option Rat :=
  if ttisfloat o then
    match o.value_ with
    | Value.n q => some q
    | _ => none
  else if ttisinteger o then some ((ivalue o : Int) : Rat)
  else none

/-- The sample environment: exact rational operations, floor division and modulo that
raise an error on a zero divisor; the power is taken by the integral part of the
exponent (the rationals have no general power). -/
def ratArithEnv : ArithEnv Rat where
  tointeger := ratTointeger
  tonumber := ratTonumber
  luaV_mod := fun a b => if b = 0 then none else some (l_castU2S (castUnsigned (Int.fmod a b)))
  luaV_div := fun a b => if b = 0 then none else some (l_castU2S (castUnsigned (Int.fdiv a b)))
  numadd := fun x y => x + y
  numsub := fun x y => x - y
  nummul := fun x y => x * y
  numdiv := fun x y => x / y
  numpow := fun x y => x ^ Rat.floor y
  numidiv := fun x y => ((Rat.floor (x / y) : Int) : Rat)
  numunm := fun x => -x
  nummod := fun x y => x - y * ((Rat.floor (x / y) : Int) : Rat)
  zero := 0
  TM_ADD := 6

/-! ## Specification-side definitions for the arithmetic -/

/-- The integer of the 64-bit two's-complement range congruent to `z` modulo `2^64`. -/
def wrapInt64 (z : Int) : Int := l_castU2S (castUnsigned z)

/-- The value lies in the range of `lua_Integer`. -/
def IsInt64 (z : Int) : Prop := -(2 : Int) ^ 63 ≤ z ∧ z ≤ 2 ^ 63 - 1

/-- The operands are coercible to the kind the operator requires: both convertible to
integers for a bitwise operator, both convertible to floats for div and pow, both
integers or both convertible to floats otherwise. -/
def ArithCoercible {F : Type} (E : ArithEnv F) (op : Nat) (p1 p2 : TValue F) : Prop :=
  if isBitwiseOp op = true then (E.tointeger p1).isSome = true ∧ (E.tointeger p2).isSome = true
  else if isFloatOp op = true then (E.tonumber p1).isSome = true ∧ (E.tonumber p2).isSome = true
  else (ttisinteger p1 = true ∧ ttisinteger p2 = true) ∨
    ((E.tonumber p1).isSome = true ∧ (E.tonumber p2).isSome = true)

/-- The raw operation was performed: it stored a result or raised its own error. -/
def ArithRaw {F : Type} (out : ArithOutcome F) : Prop :=
  (∃ r, out = ArithOutcome.done r) ∨ out = ArithOutcome.error

/-! ## `luaO_pushvfstring` -/

/-- The C library `strchr(s, '%')`: the pointer to the first `'%'` of the string `s`,
`none` for `NULL`. -/
def strchr_percent : List Char → Option (List Char)
  | [] => none
  | c :: cs =>
    if c = '%' then some (c :: cs)
    else if c = NUL then none
    else strchr_percent cs

/-- Modelled from the spec: `lisprint` of lctype.h (not among the sources), the test for
a printable character, the space included: the codes `0x20`..`0x7E`. -/
def lisprint (c : Nat) : Bool := decide (32 ≤ c) && decide (c ≤ 126)

/-- An argument of the variable argument list `argp`, with the C type it was passed
as: `char *` (`none` is `NULL`), `int`, `l_uacInt`, `l_uacNumber`, `void *`, `long`. -/
inductive VArg (F : Type) where
  | str (s : Option (List Char))
  | int (i : Int)
  | integer (i : Int)
  | number (x : F)
  | pointer (p : Nat)
  | long (x : Int)

/-- The ways a call of `luaO_pushvfstring` ends: it returns the text of the string it
left on the top of the stack, it raises the error `invalid option` for the character
that follows a `'%'`, or `va_arg` finds no next argument of the type it reads (which C
leaves undefined). -/
inductive PushOutcome where
  | pushed (s : List Char)
  | runerror (c : Char)
  | undefined
  deriving DecidableEq, Repr

/-- The ways one `switch (*(e+1))` of `luaO_pushvfstring` ends: with the stack and the
argument list to go on with, or as the call ends. -/
inductive SwitchOutcome (F : Type) where
  | next (stack : List (List Char)) (argp : List (VArg F))
  | runerror (c : Char)
  | undefined

/-- The function `pushstr`: pushes the string of the first `l` characters of `str`.  The
stack is the list of the texts of the strings pushed since the call began, the top
last. -/
def pushstr (stack : List (List Char)) (str : List Char) (l : Nat) : List (List Char) :=
  stack ++ [str.take l]

/-- Modelled from the spec: `luaV_concat` of lvm.c (not among the sources), which
replaces the `total` values on the top of the stack by their concatenation. -/
def luaV_concat (stack : List (List Char)) (total : Nat) : List (List Char) :=
  stack.take (stack.length - total) ++ [(stack.drop (stack.length - total)).flatten]

/-- The macro `svalue(L->top - 1)`: the text of the string on the top of the stack. -/
def svalueTop (stack : List (List Char)) : List Char := stack.getLastD []

/-- The format `"<\\%d>"` of the nested call in the case `'c'`. -/
def escapeFormat : List Char := ['<', Char.ofNat 92, '%', 'd', '>']

/-- The text `"(null)"` that stands for a `NULL` string. -/
def nullText : List Char := ['(', 'n', 'u', 'l', 'l', ')']

/-- The `switch (*(e+1))` of `luaO_pushvfstring` on the character `c` after the `'%'`.
The conversion `lua_pointer2str` (luaconf.h, the C library `%p`) is a parameter, and so
is the function `luaO_pushfstring` called for a character that is not printable. -/
def pushvfstringSwitch {F : Type} (P : Platform F) (lua_pointer2str : Nat → List Char)
    (luaO_pushfstring : List Char → List (VArg F) → PushOutcome)
    (c : Char) (argp : List (VArg F)) (stack : List (List Char)) : SwitchOutcome F :=
  if c = 's' then
    match argp with
    | VArg.str s :: argp1 =>
      let s1 := match s with
        | none => nullText
        | some t => t
      SwitchOutcome.next (pushstr stack s1 (strlen s1)) argp1
    | _ => SwitchOutcome.undefined
  else if c = 'c' then
    match argp with
    | VArg.int i :: argp1 =>
      let buff : Nat := (i % 256).toNat
      if lisprint buff then SwitchOutcome.next (pushstr stack [Char.ofNat buff] 1) argp1
      else
        match luaO_pushfstring escapeFormat [VArg.int (buff : Int)] with
        | PushOutcome.pushed t => SwitchOutcome.next (stack ++ [t]) argp1
        | PushOutcome.runerror c1 => SwitchOutcome.runerror c1
        | PushOutcome.undefined => SwitchOutcome.undefined
    | _ => SwitchOutcome.undefined
  else if c = 'd' then
    match argp with
    | VArg.int i :: argp1 =>
      SwitchOutcome.next (stack ++ [luaO_tostring P (setivalue (nilobject F) i)]) argp1
    | _ => SwitchOutcome.undefined
  else if c = 'I' then
    match argp with
    | VArg.integer i :: argp1 =>
      SwitchOutcome.next (stack ++ [luaO_tostring P (setivalue (nilobject F) i)]) argp1
    | _ => SwitchOutcome.undefined
  else if c = 'f' then
    match argp with
    | VArg.number x :: argp1 =>
      SwitchOutcome.next (stack ++ [luaO_tostring P (setfltvalue (nilobject F) x)]) argp1
    | _ => SwitchOutcome.undefined
  else if c = 'p' then
    match argp with
    | VArg.pointer p :: argp1 =>
      let buff := lua_pointer2str p
      SwitchOutcome.next (pushstr stack buff buff.length) argp1
    | _ => SwitchOutcome.undefined
  else if c = 'U' then
    match argp with
    | VArg.long x :: argp1 =>
      let r := luaO_utf8esc (List.replicate UTF8BUFFSZ 0) (castUnsigned x)
      SwitchOutcome.next
        (pushstr stack ((r.2.drop (UTF8BUFFSZ - r.1)).map Char.ofNat) r.1) argp1
    | _ => SwitchOutcome.undefined
  else if c = '%' then SwitchOutcome.next (pushstr stack ['%'] 1) argp
  else SwitchOutcome.runerror c

/-- The loop `for (;;)` of `luaO_pushvfstring` and the statements after it, from the
format pointer `fmt`, the argument list, the stack and the counter `n`. -/
def pushvfstringLoop {F : Type} (P : Platform F) (lua_pointer2str : Nat → List Char)
    (luaO_pushfstring : List Char → List (VArg F) → PushOutcome)
    (fmt : List Char) (argp : List (VArg F)) (stack : List (List Char)) (n : Nat) :
    PushOutcome :=
  match h : strchr_percent fmt with
  | none =>
    let stack1 := pushstr stack fmt (strlen fmt)
    let stack2 := if n > 0 then luaV_concat stack1 (n + 1) else stack1
    PushOutcome.pushed (svalueTop stack2)
  | some e =>
    match pushvfstringSwitch P lua_pointer2str luaO_pushfstring (peek e.tail) argp
        (pushstr stack fmt (ptrdiff fmt e)) with
    | SwitchOutcome.next stack1 argp1 =>
      pushvfstringLoop P lua_pointer2str luaO_pushfstring (e.drop 2) argp1 stack1 (n + 2)
    | SwitchOutcome.runerror c => PushOutcome.runerror c
    | SwitchOutcome.undefined => PushOutcome.undefined
termination_by fmt.length
decreasing_by
  have key : ∀ (s r : List Char), strchr_percent s = some r →
      r.length ≤ s.length ∧ 0 < r.length := by
    intro s
    induction s with
    | nil => intro r hr; simp [strchr_percent] at hr
    | cons c cs ih =>
      intro r hr
      unfold strchr_percent at hr
      split at hr
      · cases hr; simp
      · split at hr
        · cases hr
        · have := ih r hr
          simp only [List.length_cons]
          omega
  have := key fmt e h
  simp only [List.length_drop]
  omega

/-- The function `luaO_pushvfstring` (and `luaO_pushfstring`, which passes its arguments
on to it).  The nested call of the case `'c'` is the same function on the format
`"<\\%d>"`, whose only directive is `%d`: that call makes no nested call of its own. -/
def luaO_pushvfstring {F : Type} (P : Platform F) (lua_pointer2str : Nat → List Char)
    (fmt : List Char) (argp : List (VArg F)) : PushOutcome :=
  pushvfstringLoop P lua_pointer2str
    (fun fmt1 argp1 =>
      pushvfstringLoop P lua_pointer2str (fun _ _ => PushOutcome.undefined) fmt1 argp1 [] 0)
    fmt argp [] 0

/-- The outcome with the text `pre` put before the text returned. -/
def PushOutcome.prepend (pre : List Char) : PushOutcome → PushOutcome
  | PushOutcome.pushed s => PushOutcome.pushed (pre ++ s)
  | PushOutcome.runerror c => PushOutcome.runerror c
  | PushOutcome.undefined => PushOutcome.undefined

/-- The rendering of the directive `%c` with the argument `a`, as the specification of
the format language gives it; `none` when `c` is no directive that takes an argument or
`a` is no argument of its type. -/
def renderDirective {F : Type} (P : Platform F) (lua_pointer2str : Nat → List Char)
    (c : Char) (a : VArg F) : Option (List Char) :=
  match a with
  | VArg.str none => if c = 's' then some nullText else none
  | VArg.str (some s) => if c = 's' then some (s.takeWhile (fun x => x ≠ NUL)) else none
  | VArg.int i =>
    if c = 'd' then some (lua_integer2str i)
    else if c = 'c' then
      some (if lisprint (i % 256).toNat then [Char.ofNat (i % 256).toNat]
        else ['<', Char.ofNat 92] ++ Nat.toDigits 10 (i % 256).toNat ++ ['>'])
    else none
  | VArg.integer i => if c = 'I' then some (lua_integer2str i) else none
  | VArg.number x =>
    if c = 'f' then some (luaO_tostring P (setfltvalue (nilobject F) x)) else none
  | VArg.pointer p => if c = 'p' then some (lua_pointer2str p) else none
  | VArg.long x =>
    if c = 'U' ∧ 0 ≤ x ∧ x ≤ 0x10FFFF then some ((utf8Encode x.toNat).map Char.ofNat)
    else none

/-- The format language read character by character, from left to right: a character
other than `'%'` is emitted as it is, `%%` emits one `'%'`, a directive emits its
rendering of the next argument, and a `'%'` followed by anything else is the error. -/
def formatSpec {F : Type} (P : Platform F) (lua_pointer2str : Nat → List Char) :
    List Char → List (VArg F) → PushOutcome
  | [], _ => PushOutcome.pushed []
  | [c], _ => if c = '%' then PushOutcome.runerror NUL else PushOutcome.pushed [c]
  | c :: d :: rest, args =>
    if c = '%' then
      if d = '%' then (formatSpec P lua_pointer2str rest args).prepend ['%']
      else if d = 's' ∨ d = 'c' ∨ d = 'd' ∨ d = 'I' ∨ d = 'f' ∨ d = 'p' ∨ d = 'U' then
        match args with
        | [] => PushOutcome.undefined
        | a :: args1 =>
          match renderDirective P lua_pointer2str d a with
          | none => PushOutcome.undefined
          | some r => (formatSpec P lua_pointer2str rest args1).prepend r
      else PushOutcome.runerror d
    else (formatSpec P lua_pointer2str (d :: rest) args).prepend [c]

/-! ## `luaO_chunkid` -/

/-- The newline character `'\n'`. -/
def NL : Char := Char.ofNat 10

/-- The width of `size_t` in bits. -/
def SIZE_BITS : Nat := 64

/-- Subtraction of `size_t` values (`bufflen - 1`, `bufflen -= ...`): modulo
`2^SIZE_BITS`. -/
def sizeSub (a b : Nat) : Nat := (a + (2 ^ SIZE_BITS - b % 2 ^ SIZE_BITS)) % 2 ^ SIZE_BITS

/-- The `n` bytes that `memcpy(out, src + off, n)` writes: the bytes at `src + off` of
the array that holds the text `src` and its terminator.  A byte beyond the terminator
(outside the array) is read as `'\0'`. -/
def memBytes (src : List Char) (off n : Nat) : List Char :=
  (List.range n).map (fun i => (src ++ [NUL]).getD (off + i) NUL)

/-- The macro `LL`: the number of characters of a literal string. -/
def LL (x : List Char) : Nat := x.length

/-- The macro `RETS`, `"..."`. -/
def RETS : List Char := ['.', '.', '.']

/-- The macro `PRE`, the nine characters of `[string "`. -/
def PRE : List Char := ['[', 's', 't', 'r', 'i', 'n', 'g', ' ', Char.ofNat 34]

/-- The macro `POS`, the double quote and `]`. -/
def POS : List Char := [Char.ofNat 34, ']']

/-- The C library `strchr(s, '\n')`: the distance of the first newline from `s`, if
any. -/
def strchr_nl : List Char → Option Nat
  | [] => none
  | c :: cs =>
    if c = NL then some 0
    else if c = NUL then none
    else (strchr_nl cs).map (· + 1)

/-- The function `luaO_chunkid`: the bytes it writes to `out`, from `out[0]` on, in
the order of the buffer (every `memcpy` and `addstr` writes where the one before
ended).  The pointer `source + 1 + l - bufflen` is given by its distance from `source`
(it lies inside the text when `bufflen` is at least 3). -/
def luaO_chunkid (source : List Char) (bufflen : Nat) : List Char :=
  let l := strlen source
  if peek source = '=' then
    if l ≤ bufflen then memBytes source 1 l
    else memBytes source 1 (sizeSub bufflen 1) ++ [NUL]
  else if peek source = '@' then
    if l ≤ bufflen then memBytes source 1 l
    else
      let bufflen1 := sizeSub bufflen (LL RETS)
      memBytes RETS 0 (LL RETS) ++ memBytes source (1 + l - bufflen1) bufflen1
  else
    let nl := strchr_nl source
    let bufflen1 := sizeSub bufflen (LL (PRE ++ RETS ++ POS) + 1)
    let body :=
      if l < bufflen1 ∧ nl = none then memBytes source 0 l
      else
        let l1 := match nl with
          | some k => k
          | none => l
        let l2 := if l1 > bufflen1 then bufflen1 else l1
        memBytes source 0 l2 ++ memBytes RETS 0 (LL RETS)
    memBytes PRE 0 (LL PRE) ++ body ++ memBytes POS 0 (LL POS + 1)

/-- The text a buffer holds as a C string: its bytes before the first terminator. -/
def cText (bytes : List Char) : List Char := bytes.takeWhile (fun c => c ≠ NUL)

/-! ## Tags (`lobject.h`) -/

/-- Modelled from the spec: `LUA_TNIL` of lua.h (not among the sources). -/
def LUA_TNIL : Nat := 0

/-- Modelled from the spec: `LUA_TBOOLEAN` of lua.h (not among the sources). -/
def LUA_TBOOLEAN : Nat := 1

/-- Modelled from the spec: `LUA_TLIGHTUSERDATA` of lua.h (not among the sources). -/
def LUA_TLIGHTUSERDATA : Nat := 2

/-- Modelled from the spec: `LUA_TSTRING` of lua.h (not among the sources). -/
def LUA_TSTRING : Nat := 4

/-- Modelled from the spec: `LUA_TTABLE` of lua.h (not among the sources). -/
def LUA_TTABLE : Nat := 5

/-- Modelled from the spec: `LUA_TFUNCTION` of lua.h (not among the sources). -/
def LUA_TFUNCTION : Nat := 6

/-- Modelled from the spec: `LUA_TUSERDATA` of lua.h (not among the sources). -/
def LUA_TUSERDATA : Nat := 7

/-- Modelled from the spec: `LUA_TTHREAD` of lua.h (not among the sources). -/
def LUA_TTHREAD : Nat := 8

/-- Modelled from the spec: `LUA_NUMTAGS` of lua.h (not among the sources), the number
of base kinds. -/
def LUA_NUMTAGS : Nat := 9

/-- The macro `LUA_TPROTO`: function prototypes. -/
def LUA_TPROTO : Nat := LUA_NUMTAGS

/-- The macro `LUA_TDEADKEY`: removed keys in tables. -/
def LUA_TDEADKEY : Nat := LUA_NUMTAGS + 1

/-- The macro `LUA_TOTALTAGS`. -/
def LUA_TOTALTAGS : Nat := LUA_TPROTO + 2

/-- The macro `LUA_TLCL`: Lua closure. -/
def LUA_TLCL : Nat := LUA_TFUNCTION ||| (0 <<< 4)

/-- The macro `LUA_TLCF`: light C function. -/
def LUA_TLCF : Nat := LUA_TFUNCTION ||| (1 <<< 4)

/-- The macro `LUA_TCCL`: C closure. -/
def LUA_TCCL : Nat := LUA_TFUNCTION ||| (2 <<< 4)

/-- The macro `LUA_TSHRSTR`: short strings. -/
def LUA_TSHRSTR : Nat := LUA_TSTRING ||| (0 <<< 4)

/-- The macro `LUA_TLNGSTR`: long strings. -/
def LUA_TLNGSTR : Nat := LUA_TSTRING ||| (1 <<< 4)

/-- The macro `BIT_ISCOLLECTABLE`. -/
def BIT_ISCOLLECTABLE : Nat := 1 <<< 6

/-- The macro `ctb`: mark a tag as collectable. -/
def ctb (t : Nat) : Nat := t ||| BIT_ISCOLLECTABLE

/-- The macro `novariant`: the tag with no variants (bits 0-3). -/
def novariant (x : Nat) : Nat := x &&& 0x0F

/-- The macro `ttype`: tag and variant bits of a `TValue` (bits 0-5). -/
def ttype {F : Type} (o : TValue F) : Nat := rttype o &&& 0x3F

/-- The macro `ttnov`. -/
def ttnov {F : Type} (o : TValue F) : Nat := novariant (rttype o)

/-- The macro `checktype`. -/
def checktype {F : Type} (o : TValue F) (t : Nat) : Bool := ttnov o == t

/-- The macro `ttisnumber`. -/
def ttisnumber {F : Type} (o : TValue F) : Bool := checktype o LUA_TNUMBER

/-- The macro `ttisnil`. -/
def ttisnil {F : Type} (o : TValue F) : Bool := checktag o LUA_TNIL

/-- The macro `ttisboolean`. -/
def ttisboolean {F : Type} (o : TValue F) : Bool := checktag o LUA_TBOOLEAN

/-- The macro `ttislightuserdata`. -/
def ttislightuserdata {F : Type} (o : TValue F) : Bool := checktag o LUA_TLIGHTUSERDATA

/-- The macro `ttisstring`. -/
def ttisstring {F : Type} (o : TValue F) : Bool := checktype o LUA_TSTRING

/-- The macro `ttisshrstring`. -/
def ttisshrstring {F : Type} (o : TValue F) : Bool := checktag o (ctb LUA_TSHRSTR)

/-- The macro `ttislngstring`. -/
def ttislngstring {F : Type} (o : TValue F) : Bool := checktag o (ctb LUA_TLNGSTR)

/-- The macro `ttistable`. -/
def ttistable {F : Type} (o : TValue F) : Bool := checktag o (ctb LUA_TTABLE)

/-- The macro `ttisfunction`. -/
def ttisfunction {F : Type} (o : TValue F) : Bool := checktype o LUA_TFUNCTION

/-- The macro `ttisclosure`. -/
def ttisclosure {F : Type} (o : TValue F) : Bool := (rttype o &&& 0x1F) == LUA_TFUNCTION

/-- The macro `ttisCclosure`. -/
def ttisCclosure {F : Type} (o : TValue F) : Bool := checktag o (ctb LUA_TCCL)

/-- The macro `ttisLclosure`. -/
def ttisLclosure {F : Type} (o : TValue F) : Bool := checktag o (ctb LUA_TLCL)

/-- The macro `ttislcf`. -/
def ttislcf {F : Type} (o : TValue F) : Bool := checktag o LUA_TLCF

/-- The macro `ttisfulluserdata`. -/
def ttisfulluserdata {F : Type} (o : TValue F) : Bool := checktag o (ctb LUA_TUSERDATA)

/-- The macro `ttisthread`. -/
def ttisthread {F : Type} (o : TValue F) : Bool := checktag o (ctb LUA_TTHREAD)

/-- The macro `ttisdeadkey`. -/
def ttisdeadkey {F : Type} (o : TValue F) : Bool := checktag o LUA_TDEADKEY

/-- The macro `iscollectable` (a C truth value: nonzero). -/
def iscollectable {F : Type} (o : TValue F) : Bool := (rttype o &&& BIT_ISCOLLECTABLE) != 0

/-- The macro `settt_`. -/
def settt_ {F : Type} (o : TValue F) (t : Nat) : TValue F := { o with tt_ := t }

/-- The macro `setnilvalue`. -/
def setnilvalue {F : Type} (obj : TValue F) : TValue F := settt_ obj LUA_TNIL

/-- The macro `setfvalue`. -/
def setfvalue {F : Type} (_obj : TValue F) (x : Nat) : TValue F :=
  { value_ := Value.f x, tt_ := LUA_TLCF }

/-- The macro `setpvalue`. -/
def setpvalue {F : Type} (_obj : TValue F) (x : Nat) : TValue F :=
  { value_ := Value.p x, tt_ := LUA_TLIGHTUSERDATA }

/-- The macro `setbvalue`. -/
def setbvalue {F : Type} (_obj : TValue F) (x : Int) : TValue F :=
  { value_ := Value.b x, tt_ := LUA_TBOOLEAN }

/-- The macro `setsvalue`; `tt` is the tag `x_->tt` of the string object. -/
def setsvalue {F : Type} (_obj : TValue F) (x : Nat) (tt : Nat) : TValue F :=
  { value_ := Value.gc x, tt_ := ctb tt }

/-- The macro `setuvalue`. -/
def setuvalue {F : Type} (_obj : TValue F) (x : Nat) : TValue F :=
  { value_ := Value.gc x, tt_ := ctb LUA_TUSERDATA }

/-- The macro `setthvalue`. -/
def setthvalue {F : Type} (_obj : TValue F) (x : Nat) : TValue F :=
  { value_ := Value.gc x, tt_ := ctb LUA_TTHREAD }

/-- The macro `setclLvalue`. -/
def setclLvalue {F : Type} (_obj : TValue F) (x : Nat) : TValue F :=
  { value_ := Value.gc x, tt_ := ctb LUA_TLCL }

/-- The macro `setclCvalue`. -/
def setclCvalue {F : Type} (_obj : TValue F) (x : Nat) : TValue F :=
  { value_ := Value.gc x, tt_ := ctb LUA_TCCL }

/-- The macro `sethvalue`. -/
def sethvalue {F : Type} (_obj : TValue F) (x : Nat) : TValue F :=
  { value_ := Value.gc x, tt_ := ctb LUA_TTABLE }

/-- The macro `setdeadvalue`. -/
def setdeadvalue {F : Type} (obj : TValue F) : TValue F := settt_ obj LUA_TDEADKEY

/-- The predicates of the concrete kinds on a value, in the order nil, boolean, light
userdata, float, integer, short string, long string, table, Lua closure, light C
function, C closure, full userdata, thread, dead key. -/
def concreteKinds {F : Type} (o : TValue F) : List Bool :=
  [ttisnil o, ttisboolean o, ttislightuserdata o, ttisfloat o, ttisinteger o,
    ttisshrstring o, ttislngstring o, ttistable o, ttisLclosure o, ttislcf o,
    ttisCclosure o, ttisfulluserdata o, ttisthread o, ttisdeadkey o]

/-- The raw tags of the concrete kinds, in the same order. -/
def concreteTags : List Nat :=
  [LUA_TNIL, LUA_TBOOLEAN, LUA_TLIGHTUSERDATA, LUA_TNUMFLT, LUA_TNUMINT,
    ctb LUA_TSHRSTR, ctb LUA_TLNGSTR, ctb LUA_TTABLE, ctb LUA_TLCL, LUA_TLCF,
    ctb LUA_TCCL, ctb LUA_TUSERDATA, ctb LUA_TTHREAD, LUA_TDEADKEY]

/-- The list that is `true` at the position `k` only, of length 14. -/
def onlyAt (k : Nat) : List Bool := (List.range 14).map (fun i => i == k)

/-! ## Specification-side definitions for the errors of the format language -/

/-- The format scanned from left to right, two characters for a directive: the
character after the first `'%'` that is followed by none of `s`, `c`, `d`, `I`, `f`,
`p`, `U`, `%` (the terminator, when that `'%'` is the last character), if there is
one. -/
def badDirective : List Char → Option Char
  | [] => none
  | [c] => if c = '%' then some NUL else none
  | c :: d :: rest =>
    if c = '%' then
      if d = 's' ∨ d = 'c' ∨ d = 'd' ∨ d = 'I' ∨ d = 'f' ∨ d = 'p' ∨ d = 'U' ∨ d = '%' then
        badDirective rest
      else some d
    else badDirective (d :: rest)

/-! ## Hexadecimal floats: the value -/

theorem lisdigit_iff (c : Char) : lisdigit c = true ↔ 48 ≤ c.toNat ∧ c.toNat ≤ 57 := by
  simp [lisdigit]

theorem lisspace_iff (c : Char) :
    lisspace c = true ↔ c.toNat = 32 ∨ (9 ≤ c.toNat ∧ c.toNat ≤ 13) := by
  simp [lisspace]

theorem lisxdigit_iff (c : Char) :
    lisxdigit c = true ↔
      (48 ≤ c.toNat ∧ c.toNat ≤ 57) ∨ (97 ≤ c.toNat ∧ c.toNat ≤ 102) ∨
        (65 ≤ c.toNat ∧ c.toNat ≤ 70) := by
  simp [lisxdigit, lisdigit, or_assoc]

theorem NUL_toNat : NUL.toNat = 0 := by decide

theorem peek_nil : peek [] = NUL := rfl

theorem peek_cons (c : Char) (cs : List Char) : peek (c :: cs) = c := rfl

/-! ## Whitespace and sign -/

theorem skipSpaces_append_of_spaces (ws t : List Char) (h : ∀ c ∈ ws, lisspace c = true) :
    skipSpaces (ws ++ t) = skipSpaces t := by
  induction ws with
  | nil => rfl
  | cons c cs ih =>
    have hc : lisspace c = true := h c (List.mem_cons_self _ _)
    simp only [List.cons_append, skipSpaces, hc, if_true]
    exact ih (fun d hd => h d (List.mem_cons_of_mem _ hd))

theorem skipSpaces_of_not_space (t : List Char) (h : lisspace (peek t) = false) :
    skipSpaces t = t := by
  cases t with
  | nil => rfl
  | cons c cs =>
    simp only [peek_cons] at h
    simp [skipSpaces, h]

theorem skipSpaces_of_spaces (ws : List Char) (h : ∀ c ∈ ws, lisspace c = true) :
    skipSpaces ws = [] := by
  have := skipSpaces_append_of_spaces ws [] h
  simpa [skipSpaces] using this

theorem skipSpaces_decomp (s : List Char) :
    ∃ ws, s = ws ++ skipSpaces s ∧ (∀ c ∈ ws, lisspace c = true) ∧
      lisspace (peek (skipSpaces s)) = false := by
  induction s with
  | nil => exact ⟨[], rfl, by simp, by decide⟩
  | cons c cs ih =>
    by_cases hc : lisspace c = true
    · obtain ⟨ws, h1, h2, h3⟩ := ih
      refine ⟨c :: ws, ?_, ?_, ?_⟩
      · simp only [skipSpaces, hc, if_true, List.cons_append]
        exact congrArg _ h1
      · intro d hd
        rcases List.mem_cons.mp hd with rfl | hd
        · exact hc
        · exact h2 d hd
      · simpa only [skipSpaces, hc, if_true] using h3
    · refine ⟨[], ?_, by simp, ?_⟩
      · simp [skipSpaces, hc]
      · simp only [skipSpaces, hc]
        simpa [peek_cons] using hc

theorem peek_eq_NUL_not_space (t : List Char) (h : peek t = NUL) : lisspace (peek t) = false := by
  rw [h]; decide

theorem isneg_decomp (s : List Char) :
    ∃ sg, s = sg ++ (isneg s).2 ∧ IsSign sg ∧ ((isneg s).1 = true ↔ sg = ['-']) ∧
      (sg = [] → peek s ≠ '-' ∧ peek s ≠ '+') := by
  cases s with
  | nil => exact ⟨[], by simp [isneg, peek, NUL], Or.inl rfl, by simp [isneg, peek, NUL], by decide⟩
  | cons c cs =>
    by_cases h1 : c = '-'
    · exact ⟨['-'], by simp [isneg, peek_cons, h1], Or.inr (Or.inr rfl),
        by simp [isneg, peek_cons, h1], by simp⟩
    · by_cases h2 : c = '+'
      · exact ⟨['+'], by simp [isneg, peek_cons, h2], Or.inr (Or.inl rfl),
          by simp [isneg, peek_cons, h2], by simp⟩
      · exact ⟨[], by simp [isneg, peek_cons, h1, h2], Or.inl rfl,
          by simp [isneg, peek_cons, h1, h2], by simp [peek_cons, h1, h2]⟩

theorem isneg_sign_append (sg t : List Char) (hs : IsSign sg)
    (ht : peek t ≠ '-' ∧ peek t ≠ '+') :
    isneg (sg ++ t) = (decide (sg = ['-']), t) := by
  rcases hs with rfl | rfl | rfl
  · simp [isneg, ht.1, ht.2]
  · simp [isneg, peek]
  · simp [isneg, peek]

/-! ## The decimal loop -/

theorem MAXBY10_eq : MAXBY10 = 922337203685477580 := by decide

theorem MAXLASTD_eq : MAXLASTD = 7 := by decide

theorem LUA_MAXINTEGER_eq : LUA_MAXINTEGER = 9223372036854775807 := by decide

theorem decFold_ge (ds : List Char) (a : Nat) : a ≤ decFold a ds := by
  induction ds generalizing a with
  | nil => exact Nat.le_refl _
  | cons c cs ih =>
    have := ih (a * 10 + (c.toNat - 48))
    simp only [decFold, List.foldl_cons] at this ⊢
    omega

theorem castUnsigned_of_lt (n : Nat) (h : n < 2 ^ 64) : castUnsigned (n : Int) = n := by
  unfold castUnsigned
  have : ((n : Int) % 2 ^ 64) = (n : Int) := Int.emod_eq_of_lt (by omega) (by exact_mod_cast h)
  rw [this]; simp

theorem decLoop_digits (neg : Bool) (rest : List Char) (hr : lisdigit (peek rest) = false) :
    ∀ (ds : List Char) (a : Nat) (e : Bool), (∀ c ∈ ds, lisdigit c = true) → a ≤ decBound neg →
      decLoop neg (ds ++ rest) a e =
        if decFold a ds ≤ decBound neg then some (decFold a ds, (e && ds.isEmpty), rest)
        else none := by
  intro ds
  induction ds with
  | nil =>
    intro a e _ ha
    cases rest with
    | nil => simp [decLoop, decFold, ha]
    | cons c cs =>
      have hc : lisdigit c = false := by simpa [peek_cons] using hr
      simp [decLoop, decFold, ha, hc]
  | cons c cs ih =>
    intro a e hds ha
    have hc : lisdigit c = true := hds c (List.mem_cons_self _ _)
    have hcs : ∀ d ∈ cs, lisdigit d = true := fun d hd => hds d (List.mem_cons_of_mem _ hd)
    have hcr := (lisdigit_iff c).mp hc
    have hB : decBound neg = 9223372036854775807 + (if neg then 1 else 0) := by
      simp [decBound, LUA_MAXINTEGER_eq]
    have hfold : decFold a (c :: cs) = decFold (a * 10 + (c.toNat - 48)) cs := rfl
    have hd : ((c.toNat : Int) - 48) = ((c.toNat - 48 : Nat) : Int) := by omega
    simp only [List.cons_append, decLoop, hc, if_true, hfold, MAXBY10_eq, MAXLASTD_eq]
    by_cases hov : a ≥ 922337203685477580 ∧
        (a > 922337203685477580 ∨ ((c.toNat : Int) - 48) > 7 + (if neg then 1 else 0))
    · rw [if_pos hov]
      have hge := decFold_ge cs (a * 10 + (c.toNat - 48))
      have hbig : decBound neg < a * 10 + (c.toNat - 48) := by
        rw [hB]; cases neg <;> simp at hov ⊢ <;> omega
      rw [if_neg (by omega)]
    · rw [if_neg hov]
      have hsmall : a * 10 + (c.toNat - 48) ≤ decBound neg := by
        rw [hB]; cases neg <;> simp at hov ⊢ <;> omega
      have hlt : a * 10 + (c.toNat - 48) < 2 ^ 64 := by
        have : decBound neg ≤ 9223372036854775808 := by rw [hB]; cases neg <;> simp
        have h64 : (2 : Nat) ^ 64 = 18446744073709551616 := by norm_num
        omega
      have hcast : castUnsigned ((a : Int) * 10 + ((c.toNat : Int) - 48)) =
          a * 10 + (c.toNat - 48) := by
        rw [hd]
        have := castUnsigned_of_lt _ hlt
        simpa using this
      rw [hcast]
      have := ih _ false hcs hsmall
      simpa [List.append_eq] using this

/-! ## Decimal numerals through `l_str2int` -/

theorem peek_append (xs ys : List Char) :
    peek (xs ++ ys) = if xs = [] then peek ys else peek xs := by
  cases xs <;> simp [peek]

theorem tail_append_of_ne_nil (xs ys : List Char) (h : xs ≠ []) :
    (xs ++ ys).tail = xs.tail ++ ys := by
  cases xs with
  | nil => exact absurd rfl h
  | cons c cs => rfl

theorem peek_mem (xs : List Char) (h : xs ≠ []) : peek xs ∈ xs := by
  cases xs with
  | nil => exact absurd rfl h
  | cons c cs => simp [peek]

/-- What follows a run of digits and spaces before the terminator is a digit, a space
or the terminator. -/
theorem peek_digits_spaces (ds ws rest : List Char) (hd : ∀ c ∈ ds, lisdigit c = true)
    (hw : ∀ c ∈ ws, lisspace c = true) (hr : peek rest = NUL) :
    lisdigit (peek (ds ++ (ws ++ rest))) = true ∨ lisspace (peek (ds ++ (ws ++ rest))) = true ∨
      peek (ds ++ (ws ++ rest)) = NUL := by
  rw [peek_append]
  split
  · rw [peek_append]
    split
    · exact Or.inr (Or.inr hr)
    · rename_i h; exact Or.inr (Or.inl (hw _ (peek_mem ws h)))
  · rename_i h; exact Or.inl (hd _ (peek_mem ds h))

theorem not_x_of_digit_space_NUL (c : Char)
    (h : lisdigit c = true ∨ lisspace c = true ∨ c = NUL) :
    c ≠ 'x' ∧ c ≠ 'X' ∧ c ≠ '-' ∧ c ≠ '+' := by
  have hx : ('x' : Char).toNat = 120 := by decide
  have hX : ('X' : Char).toNat = 88 := by decide
  have hm : ('-' : Char).toNat = 45 := by decide
  have hp : ('+' : Char).toNat = 43 := by decide
  rcases h with h | h | h
  · have := (lisdigit_iff c).mp h
    refine ⟨?_, ?_, ?_, ?_⟩ <;> intro hc <;> rw [hc] at this <;> omega
  · have := (lisspace_iff c).mp h
    refine ⟨?_, ?_, ?_, ?_⟩ <;> intro hc <;> rw [hc] at this <;> omega
  · rw [h]; decide

theorem l_castU2S_of_le (n : Nat) (h : n ≤ LUA_MAXINTEGER) : l_castU2S n = (n : Int) := by
  rw [LUA_MAXINTEGER_eq] at h
  unfold l_castU2S
  have h1 : n % 2 ^ 64 = n := Nat.mod_eq_of_lt (by norm_num; omega)
  rw [h1, if_pos (by norm_num; omega)]

theorem l_castU2S_neg (n : Nat) (h : n ≤ LUA_MAXINTEGER + 1) :
    l_castU2S (castUnsigned (0 - (n : Int))) = -(n : Int) := by
  rw [LUA_MAXINTEGER_eq] at h
  unfold l_castU2S castUnsigned
  have h64 : ((2 : Int) ^ 64) = 18446744073709551616 := by norm_num
  have h64n : ((2 : Nat) ^ 64) = 18446744073709551616 := by norm_num
  have h63n : ((2 : Nat) ^ 63) = 9223372036854775808 := by norm_num
  rw [h64, h64n, h63n]
  omega

theorem l_str2int_finish_ok (neg : Bool) (a : Nat) (ws2 rest : List Char)
    (h2 : ∀ c ∈ ws2, lisspace c = true) (hr : peek rest = NUL) :
    l_str2int_finish neg (a, false, ws2 ++ rest) =
      some (l_castU2S (if neg then castUnsigned (0 - (a : Int)) else a), rest) := by
  have hfin : skipSpaces (ws2 ++ rest) = rest := by
    rw [skipSpaces_append_of_spaces _ _ h2]
    exact skipSpaces_of_not_space _ (peek_eq_NUL_not_space _ hr)
  simp [l_str2int_finish, hfin, hr]

theorem l_str2int_decimal (ws1 sg ds ws2 rest : List Char)
    (h1 : ∀ c ∈ ws1, lisspace c = true) (hs : IsSign sg) (hne : ds ≠ [])
    (hd : ∀ c ∈ ds, lisdigit c = true) (h2 : ∀ c ∈ ws2, lisspace c = true)
    (hr : peek rest = NUL) :
    l_str2int (ws1 ++ (sg ++ (ds ++ (ws2 ++ rest)))) =
      if LUA_MININTEGER ≤ numeralValue sg ds ∧ numeralValue sg ds ≤ (LUA_MAXINTEGER : Int) then
        some (numeralValue sg ds, rest)
      else none := by
  have hpk : peek (ds ++ (ws2 ++ rest)) = peek ds := by rw [peek_append, if_neg hne]
  have hdig : lisdigit (peek ds) = true := hd _ (peek_mem ds hne)
  have hnx := not_x_of_digit_space_NUL (peek ds) (Or.inl hdig)
  have hnsp : lisspace (peek ds) = false := by
    have := (lisdigit_iff _).mp hdig
    cases hsp : lisspace (peek ds) with
    | false => rfl
    | true => have := (lisspace_iff _).mp hsp; omega
  -- leading spaces
  have hskip : skipSpaces (ws1 ++ (sg ++ (ds ++ (ws2 ++ rest)))) = sg ++ (ds ++ (ws2 ++ rest)) := by
    rw [skipSpaces_append_of_spaces _ _ h1]
    apply skipSpaces_of_not_space
    rcases hs with rfl | rfl | rfl
    · simpa [hpk] using hnsp
    · show lisspace '+' = false
      decide
    · show lisspace '-' = false
      decide
  -- sign
  have hneg : isneg (sg ++ (ds ++ (ws2 ++ rest))) = (decide (sg = ['-']), ds ++ (ws2 ++ rest)) :=
    isneg_sign_append _ _ hs (by rw [hpk]; exact ⟨hnx.2.2.1, hnx.2.2.2⟩)
  -- no hexadecimal prefix
  have hnohex : ¬ (peek (ds ++ (ws2 ++ rest)) = '0' ∧
      (peek (ds ++ (ws2 ++ rest)).tail = 'x' ∨ peek (ds ++ (ws2 ++ rest)).tail = 'X')) := by
    rw [tail_append_of_ne_nil _ _ hne]
    have := not_x_of_digit_space_NUL _ (peek_digits_spaces ds.tail ws2 rest
      (fun c hc => hd c (List.mem_of_mem_tail hc)) h2 hr)
    intro h
    rcases h.2 with h | h
    · exact this.1 h
    · exact this.2.1 h
  -- the digits
  have hrest : lisdigit (peek (ws2 ++ rest)) = false := by
    have := peek_digits_spaces [] ws2 rest (by simp) h2 hr
    simp only [List.nil_append] at this
    rcases this with h | h | h
    · exfalso
      rw [peek_append] at h
      split at h
      · rw [hr] at h; exact absurd h (by decide)
      · rename_i hw
        have a := (lisspace_iff _).mp (h2 _ (peek_mem ws2 hw))
        have b := (lisdigit_iff _).mp h
        omega
    · cases hdg : lisdigit (peek (ws2 ++ rest)) with
      | false => rfl
      | true =>
        have a := (lisspace_iff _).mp h
        have b := (lisdigit_iff _).mp hdg
        omega
    · rw [h]; decide
  have hloop := decLoop_digits (decide (sg = ['-'])) (ws2 ++ rest) hrest ds 0 true hd (Nat.zero_le _)
  have hfin : skipSpaces (ws2 ++ rest) = rest := by
    rw [skipSpaces_append_of_spaces _ _ h2]
    exact skipSpaces_of_not_space _ (peek_eq_NUL_not_space _ hr)
  have hval : decFold 0 ds = decValue ds := rfl
  have hemp : ds.isEmpty = false := by cases ds <;> simp at hne ⊢
  unfold l_str2int
  simp only [hskip, hneg, if_neg hnohex, hloop, hval, hemp, Bool.and_false]
  have hB : decBound (decide (sg = ['-'])) =
      9223372036854775807 + (if sg = ['-'] then 1 else 0) := by
    simp [decBound, LUA_MAXINTEGER_eq]
  have hmin : LUA_MININTEGER = -9223372036854775808 := by decide
  have hnv : numeralValue sg ds = if sg = ['-'] then -(decValue ds : Int) else (decValue ds : Int) :=
    rfl
  by_cases hle : decValue ds ≤ decBound (decide (sg = ['-']))
  · have hin : LUA_MININTEGER ≤ numeralValue sg ds ∧
        numeralValue sg ds ≤ (LUA_MAXINTEGER : Int) := by
      rw [hnv, hmin, LUA_MAXINTEGER_eq]
      rw [hB] at hle
      split <;> rename_i hsg <;> simp only [hsg, if_true, if_false] at hle <;>
        constructor <;> omega
    rw [if_pos hle, if_pos hin]
    simp only []
    rw [l_str2int_finish_ok _ _ _ _ h2 hr]
    congr 2
    rw [hnv]
    rw [hB] at hle
    by_cases hsg : sg = ['-']
    · simp only [hsg, if_true, decide_True] at hle ⊢
      exact l_castU2S_neg _ (by rw [LUA_MAXINTEGER_eq]; exact hle)
    · simp only [hsg, if_false, decide_False] at hle ⊢
      exact l_castU2S_of_le _ (by rw [LUA_MAXINTEGER_eq]; simpa using hle)
  · have hin : ¬ (LUA_MININTEGER ≤ numeralValue sg ds ∧
        numeralValue sg ds ≤ (LUA_MAXINTEGER : Int)) := by
      rw [hnv, hmin, LUA_MAXINTEGER_eq]
      rw [hB] at hle
      split <;> rename_i hsg <;> simp only [hsg, if_true, if_false] at hle <;> omega
    rw [if_neg hle, if_neg hin]

/-! ## Hexadecimal numerals through `l_str2int` -/

theorem lor_32_lower (n : Nat) (h : 97 ≤ n ∧ n ≤ 102) : n ||| 32 = n := by
  obtain ⟨h1, h2⟩ := h
  interval_cases n <;> rfl

theorem lor_32_upper (n : Nat) (h : 65 ≤ n ∧ n ≤ 70) : n ||| 32 = n + 32 := by
  obtain ⟨h1, h2⟩ := h
  interval_cases n <;> rfl

theorem luaO_hexavalue_eq (c : Char) (h : lisxdigit c = true) :
    luaO_hexavalue c = (hexDigitValue c : Int) ∧ hexDigitValue c < 16 := by
  rcases (lisxdigit_iff c).mp h with hd | hl | hu
  · have hdig : lisdigit c = true := (lisdigit_iff c).mpr hd
    simp only [luaO_hexavalue, hdig, if_true, hexDigitValue, if_pos hd.2]
    omega
  · have hdig : lisdigit c = false := by
      cases hx : lisdigit c with
      | false => rfl
      | true => have := (lisdigit_iff c).mp hx; omega
    have h1 : ¬ c.toNat ≤ 57 := by omega
    have h2 : ¬ c.toNat ≤ 70 := by omega
    simp only [luaO_hexavalue, hdig, hexDigitValue, if_neg h1, if_neg h2, ltolower,
      lor_32_lower _ hl]
    constructor
    · simp only [Bool.false_eq_true, if_false]; omega
    · omega
  · have hdig : lisdigit c = false := by
      cases hx : lisdigit c with
      | false => rfl
      | true => have := (lisdigit_iff c).mp hx; omega
    have h1 : ¬ c.toNat ≤ 57 := by omega
    simp only [luaO_hexavalue, hdig, hexDigitValue, if_neg h1, if_pos hu.2, ltolower,
      lor_32_upper _ hu]
    constructor
    · simp only [Bool.false_eq_true, if_false]; push_cast; omega
    · omega

theorem castUnsigned_natCast (n : Nat) : castUnsigned (n : Int) = n % 2 ^ 64 := by
  unfold castUnsigned
  have : ((n : Int) % 2 ^ 64) = ((n % 2 ^ 64 : Nat) : Int) := by push_cast; rfl
  rw [this]
  exact Int.toNat_natCast _

theorem hexLoop_digits (rest : List Char) (hr : lisxdigit (peek rest) = false) :
    ∀ (hs : List Char) (a b : Nat) (e : Bool), (∀ c ∈ hs, lisxdigit c = true) →
      a = b % 2 ^ 64 →
      hexLoop (hs ++ rest) a e = (hexFold b hs % 2 ^ 64, (e && hs.isEmpty), rest) := by
  intro hs
  induction hs with
  | nil =>
    intro a b e _ hab
    cases rest with
    | nil => simp [hexLoop, hexFold, hab]
    | cons c cs =>
      have hc : lisxdigit c = false := by simpa [peek_cons] using hr
      simp [hexLoop, hexFold, hab, hc]
  | cons c cs ih =>
    intro a b e hhs hab
    have hc : lisxdigit c = true := hhs c (List.mem_cons_self _ _)
    have hcs : ∀ d ∈ cs, lisxdigit d = true := fun d hd => hhs d (List.mem_cons_of_mem _ hd)
    obtain ⟨hv, _⟩ := luaO_hexavalue_eq c hc
    have hfold : hexFold b (c :: cs) = hexFold (b * 16 + hexDigitValue c) cs := rfl
    have hcast : castUnsigned ((a : Int) * 16 + luaO_hexavalue c) =
        (b * 16 + hexDigitValue c) % 2 ^ 64 := by
      rw [hv]
      have : ((a : Int) * 16 + (hexDigitValue c : Int)) = ((a * 16 + hexDigitValue c : Nat) : Int) := by
        push_cast; rfl
      rw [this, castUnsigned_natCast, hab]
      have h64 : (2 : Nat) ^ 64 = 18446744073709551616 := by norm_num
      rw [h64]
      omega
    simp only [List.cons_append, hexLoop, hc, if_true, hfold]
    have := ih _ (b * 16 + hexDigitValue c) false hcs hcast
    simpa [List.append_eq] using this

theorem l_str2int_hex (ws1 sg hs ws2 rest : List Char) (x : Char)
    (h1 : ∀ c ∈ ws1, lisspace c = true) (hs1 : IsSign sg) (hx : x = 'x' ∨ x = 'X')
    (hne : hs ≠ []) (hh : ∀ c ∈ hs, lisxdigit c = true) (h2 : ∀ c ∈ ws2, lisspace c = true)
    (hr : peek rest = NUL) :
    l_str2int (ws1 ++ (sg ++ ('0' :: x :: (hs ++ (ws2 ++ rest))))) =
      some (l_castU2S (if sg = ['-'] then castUnsigned (0 - ((hexValue hs % 2 ^ 64 : Nat) : Int))
              else hexValue hs % 2 ^ 64), rest) := by
  have hskip : skipSpaces (ws1 ++ (sg ++ ('0' :: x :: (hs ++ (ws2 ++ rest))))) =
      sg ++ ('0' :: x :: (hs ++ (ws2 ++ rest))) := by
    rw [skipSpaces_append_of_spaces _ _ h1]
    apply skipSpaces_of_not_space
    rcases hs1 with rfl | rfl | rfl
    · show lisspace '0' = false
      decide
    · show lisspace '+' = false
      decide
    · show lisspace '-' = false
      decide
  have hneg : isneg (sg ++ ('0' :: x :: (hs ++ (ws2 ++ rest)))) =
      (decide (sg = ['-']), '0' :: x :: (hs ++ (ws2 ++ rest))) :=
    isneg_sign_append _ _ hs1 (by simp only [peek_cons]; decide)
  have hhex : peek ('0' :: x :: (hs ++ (ws2 ++ rest))) = '0' ∧
      (peek ('0' :: x :: (hs ++ (ws2 ++ rest))).tail = 'x' ∨
        peek ('0' :: x :: (hs ++ (ws2 ++ rest))).tail = 'X') := ⟨rfl, hx⟩
  have hrest : lisxdigit (peek (ws2 ++ rest)) = false := by
    rw [peek_append]
    split
    · rw [hr]; decide
    · rename_i hw
      have a := (lisspace_iff _).mp (h2 _ (peek_mem ws2 hw))
      cases hxd : lisxdigit (peek ws2) with
      | false => rfl
      | true => have b := (lisxdigit_iff _).mp hxd; omega
  have hloop := hexLoop_digits (ws2 ++ rest) hrest hs 0 0 true hh (by norm_num)
  have hemp : hs.isEmpty = false := by cases hs <;> simp at hne ⊢
  have hval : hexFold 0 hs = hexValue hs := rfl
  unfold l_str2int
  simp only [hskip, hneg]
  rw [if_pos hhex]
  simp only [List.tail_cons, hloop, hemp, Bool.and_false, hval]
  rw [l_str2int_finish_ok _ _ _ _ h2 hr]
  by_cases hsg : sg = ['-'] <;> simp [hsg]

/-! ## The shape of the texts `l_str2int` accepts -/

theorem peek_dropWhile (p : Char → Bool) (hp : p NUL = false) (l : List Char) :
    p (peek (l.dropWhile p)) = false := by
  induction l with
  | nil => simpa [peek] using hp
  | cons c cs ih =>
    by_cases hc : p c = true
    · simpa [List.dropWhile, hc] using ih
    · simp only [Bool.not_eq_true] at hc
      simp [List.dropWhile, hc, peek_cons]

theorem l_str2int_finish_some (neg : Bool) (a : Nat) (flag : Bool) (r : List Char) (v : Int)
    (e : List Char) (h : l_str2int_finish neg (a, flag, r) = some (v, e)) :
    flag = false ∧ e = skipSpaces r ∧ peek e = NUL := by
  unfold l_str2int_finish at h
  simp only at h
  split at h
  · exact absurd h (by simp)
  · rename_i hc
    simp only [not_or, not_not, Bool.not_eq_true] at hc
    simp only [Option.some.injEq, Prod.mk.injEq] at h
    exact ⟨hc.1, h.2.symm, h.2 ▸ hc.2⟩

theorem cons_cons_of_peek (t : List Char) (c : Char) (hc : c ≠ NUL) (h : peek t = c)
    (x : Char) (hxn : x ≠ NUL) (hx : peek t.tail = x) : t = c :: x :: t.tail.tail := by
  cases t with
  | nil => exact absurd h.symm hc
  | cons a as =>
    cases as with
    | nil => exact absurd hx.symm hxn
    | cons b bs =>
      simp only [peek_cons, List.tail_cons] at h hx
      rw [h, hx]
      rfl

theorem l_str2int_some_decomp (s : List Char) (v : Int) (e : List Char)
    (h : l_str2int s = some (v, e)) :
    ∃ ws1 sg body ws2, s = ws1 ++ (sg ++ (body ++ (ws2 ++ e))) ∧ peek e = NUL ∧
      AllSpace ws1 ∧ IsSign sg ∧ AllSpace ws2 ∧ (IsHexBody body ∨ IsDecBody sg body) := by
  obtain ⟨ws1, hs1, hws1, _⟩ := skipSpaces_decomp s
  obtain ⟨sg, hsg, hsign, _, _⟩ := isneg_decomp (skipSpaces s)
  have hh := h
  unfold l_str2int at hh
  simp only at hh
  split at hh
  · -- hexadecimal
    rename_i hc
    have hx : ∃ x, peek (isneg (skipSpaces s)).2.tail = x ∧ (x = 'x' ∨ x = 'X') := by
      rcases hc.2 with hx | hx
      · exact ⟨'x', hx, Or.inl rfl⟩
      · exact ⟨'X', hx, Or.inr rfl⟩
    obtain ⟨x, hpx, hxx⟩ := hx
    have hxn : x ≠ NUL := by rcases hxx with rfl | rfl <;> decide
    have ht := cons_cons_of_peek _ '0' (by decide) hc.1 x hxn hpx
    have hu := (List.takeWhile_append_dropWhile (fun c => lisxdigit c)
      (isneg (skipSpaces s)).2.tail.tail).symm
    have hall : ∀ c ∈ (isneg (skipSpaces s)).2.tail.tail.takeWhile (fun c => lisxdigit c),
        lisxdigit c = true := fun c hc => List.mem_takeWhile_imp hc
    have hrest := peek_dropWhile (fun c => lisxdigit c) (by decide)
      (isneg (skipSpaces s)).2.tail.tail
    have hloop := hexLoop_digits _ hrest _ 0 0 true hall (by norm_num)
    rw [← hu] at hloop
    rw [hloop] at hh
    obtain ⟨hflag, he, hpe⟩ := l_str2int_finish_some _ _ _ _ _ _ hh
    obtain ⟨ws2, hw2, hws2, _⟩ := skipSpaces_decomp
      ((isneg (skipSpaces s)).2.tail.tail.dropWhile (fun c => lisxdigit c))
    refine ⟨ws1, sg, '0' :: x ::
      (isneg (skipSpaces s)).2.tail.tail.takeWhile (fun c => lisxdigit c), ws2, ?_, hpe, hws1,
      hsign, hws2, Or.inl ⟨x, _, rfl, hxx, ?_, hall⟩⟩
    · rw [he, ← hw2]
      simp only [List.cons_append]
      rw [← hu, ← ht, ← hsg, ← hs1]
    · intro hnil
      rw [hnil] at hflag
      simp at hflag
  · -- decimal
    have hu := (List.takeWhile_append_dropWhile (fun c => lisdigit c)
      (isneg (skipSpaces s)).2).symm
    have hall : ∀ c ∈ (isneg (skipSpaces s)).2.takeWhile (fun c => lisdigit c),
        lisdigit c = true := fun c hc => List.mem_takeWhile_imp hc
    have hrest := peek_dropWhile (fun c => lisdigit c) (by decide) (isneg (skipSpaces s)).2
    have hloop := decLoop_digits (isneg (skipSpaces s)).1 _ hrest _ 0 true hall (Nat.zero_le _)
    rw [← hu] at hloop
    rw [hloop] at hh
    split at hh
    · exact absurd hh (by simp)
    · rename_i r hr
      split at hr
      · simp only [Option.some.injEq] at hr
        rw [← hr] at hh
        obtain ⟨hflag, he, hpe⟩ := l_str2int_finish_some _ _ _ _ _ _ hh
        obtain ⟨ws2, hw2, hws2, _⟩ := skipSpaces_decomp
          ((isneg (skipSpaces s)).2.dropWhile (fun c => lisdigit c))
        have hne : (isneg (skipSpaces s)).2.takeWhile (fun c => lisdigit c) ≠ [] := by
          intro hnil
          rw [hnil] at hflag
          simp at hflag
        have hs : s = ws1 ++ (sg ++ ((isneg (skipSpaces s)).2.takeWhile (fun c => lisdigit c) ++
            (ws2 ++ e))) := by
          rw [he, ← hw2, ← hu, ← hsg, ← hs1]
        have hdec := l_str2int_decimal ws1 sg _ ws2 e hws1 hsign hne hall hws2 hpe
        rw [← hs, h] at hdec
        refine ⟨ws1, sg, _, ws2, hs, hpe, hws1, hsign, hws2, Or.inr ⟨hne, hall, ?_⟩⟩
        by_contra hcon
        rw [if_neg hcon] at hdec
        exact absurd hdec (by simp)
      · exact absurd hr (by simp)

/-! ## The canonical decimal text of an integer -/

theorem digitChar_toNat (k : Nat) (h : k < 10) : (Nat.digitChar k).toNat = 48 + k := by
  interval_cases k <;> rfl

theorem decValue_append_singleton (pre : List Char) (c : Char) :
    decValue (pre ++ [c]) = decValue pre * 10 + (c.toNat - 48) := by
  simp [decValue, List.foldl_append]

theorem toDigitsCore_spec : ∀ (fuel n : Nat) (acc : List Char), n < fuel →
    ∃ pre, Nat.toDigitsCore 10 fuel n acc = pre ++ acc ∧ pre ≠ [] ∧
      (∀ c ∈ pre, lisdigit c = true) ∧ decValue pre = n := by
  intro fuel
  induction fuel with
  | zero => intro n acc h; exact absurd h (Nat.not_lt_zero _)
  | succ f ih =>
    intro n acc h
    have hd : (Nat.digitChar (n % 10)).toNat = 48 + n % 10 :=
      digitChar_toNat _ (Nat.mod_lt _ (by decide))
    have hdig : lisdigit (Nat.digitChar (n % 10)) = true := by
      rw [lisdigit_iff, hd]
      have := Nat.mod_lt n (show 0 < 10 by decide)
      omega
    unfold Nat.toDigitsCore
    simp only
    split
    · rename_i h0
      refine ⟨[Nat.digitChar (n % 10)], rfl, by simp, ?_, ?_⟩
      · intro c hc
        rw [List.mem_singleton] at hc
        rw [hc]; exact hdig
      · simp only [decValue, List.foldl_cons, List.foldl_nil, hd]
        omega
    · rename_i h0
      have hlt : n / 10 < f := by omega
      obtain ⟨pre, h1, _, h3, h4⟩ := ih (n / 10) (Nat.digitChar (n % 10) :: acc) hlt
      refine ⟨pre ++ [Nat.digitChar (n % 10)], ?_, by simp, ?_, ?_⟩
      · rw [h1]; simp
      · intro c hc
        rcases List.mem_append.mp hc with hc | hc
        · exact h3 c hc
        · rw [List.mem_singleton] at hc
          rw [hc]; exact hdig
      · rw [decValue_append_singleton, h4, hd]
        omega

theorem toDigits_spec (n : Nat) :
    Nat.toDigits 10 n ≠ [] ∧ (∀ c ∈ Nat.toDigits 10 n, lisdigit c = true) ∧
      decValue (Nat.toDigits 10 n) = n := by
  obtain ⟨pre, h1, h2, h3, h4⟩ := toDigitsCore_spec (n + 1) n [] (Nat.lt_succ_self n)
  have : Nat.toDigits 10 n = pre := by
    unfold Nat.toDigits
    rw [h1]; simp
  rw [this]
  exact ⟨h2, h3, h4⟩

theorem lua_integer2str_eq (i : Int) :
    lua_integer2str i = signText i ++ Nat.toDigits 10 i.natAbs := by
  unfold lua_integer2str signText
  split <;> rfl

theorem numeralValue_canonical (i : Int) :
    numeralValue (signText i) (Nat.toDigits 10 i.natAbs) = i := by
  have h := (toDigits_spec i.natAbs).2.2
  unfold numeralValue signText
  rw [h]
  by_cases hi : i < 0
  · simp only [hi, if_true]
    omega
  · have : ¬ (([] : List Char) = ['-']) := by simp
    simp only [hi, if_false, this]
    omega

theorem isSign_signText (i : Int) : IsSign (signText i) := by
  unfold signText IsSign
  split
  · exact Or.inr (Or.inr rfl)
  · exact Or.inl rfl

theorem ptrdiff_nil (s : List Char) : ptrdiff s [] = s.length := by
  simp [ptrdiff]

/-! ## Integer numerals: the claims -/

theorem mem_NUL_of_peek (e : List Char) (h : peek e = NUL) (hn : NUL ∉ e) : e = [] := by
  cases e with
  | nil => rfl
  | cons c cs =>
    simp only [peek_cons] at h
    exact absurd (h ▸ List.mem_cons_self c cs) hn

/-- C1: on whitespace, an optional sign, one or more decimal digits and whitespace,
`l_str2int` accepts exactly when the signed value of the numeral lies in
`-2^63 .. 2^63-1`, and the integer it stores is that value, never a wrapped one;
`-9223372036854775808` is accepted as the minimum integer, `9223372036854775808` is
rejected. -/
theorem l_str2int_decimal_exact (ws1 sg ds ws2 : List Char) (h1 : AllSpace ws1)
    (hs : IsSign sg) (hne : ds ≠ []) (hd : ∀ c ∈ ds, lisdigit c = true) (h2 : AllSpace ws2) :
    ((l_str2int (ws1 ++ sg ++ ds ++ ws2)).isSome = true ↔
        (-(2 : Int) ^ 63 ≤ numeralValue sg ds ∧ numeralValue sg ds ≤ 2 ^ 63 - 1)) ∧
      (∀ v e, l_str2int (ws1 ++ sg ++ ds ++ ws2) = some (v, e) → v = numeralValue sg ds) ∧
      l_str2int "-9223372036854775808".toList = some (-(2 : Int) ^ 63, []) ∧
      l_str2int "9223372036854775808".toList = none := by
  have hmin : LUA_MININTEGER = -(2 : Int) ^ 63 := by decide
  have hmax : (LUA_MAXINTEGER : Int) = 2 ^ 63 - 1 := by decide
  have key := l_str2int_decimal ws1 sg ds ws2 [] h1 hs hne hd h2 rfl
  simp only [List.append_nil, ← List.append_assoc, hmin, hmax] at key
  refine ⟨?_, ?_, ?_, ?_⟩
  · rw [key]
    split <;> simp_all
  · intro v e hv
    rw [key] at hv
    split at hv
    · simp only [Option.some.injEq, Prod.mk.injEq] at hv
      exact hv.1.symm
    · exact absurd hv (by simp)
  · have k := l_str2int_decimal [] ['-'] "9223372036854775808".toList [] [] (by simp)
      (Or.inr (Or.inr rfl)) (by decide) (by decide) (by simp) rfl
    have hv : numeralValue ['-'] "9223372036854775808".toList = -(2 : Int) ^ 63 := by decide
    rw [hv, hmin, hmax] at k
    rw [if_pos (by norm_num)] at k
    exact k
  · have k := l_str2int_decimal [] [] "9223372036854775808".toList [] [] (by simp)
      (Or.inl rfl) (by decide) (by decide) (by simp) rfl
    have hv : numeralValue [] "9223372036854775808".toList = (2 : Int) ^ 63 := by decide
    rw [hv, hmin, hmax] at k
    rw [if_neg (by norm_num)] at k
    exact k

theorem l_str2int_decimal_exact_witness :
    ((l_str2int ("  ".toList ++ ['-'] ++ "42".toList ++ "  ".toList)).isSome = true ↔
        (-(2 : Int) ^ 63 ≤ numeralValue ['-'] "42".toList ∧
          numeralValue ['-'] "42".toList ≤ 2 ^ 63 - 1)) :=
  (l_str2int_decimal_exact "  ".toList ['-'] "42".toList "  ".toList
    (by unfold AllSpace; decide) (Or.inr (Or.inr rfl)) (by decide) (by decide)
    (by unfold AllSpace; decide)).1

theorem luaO_str2num_of_int {F : Type} (P : Platform F) (s : List Char) (o : TValue F)
    (v : Int) (e : List Char) (h : l_str2int s = some (v, e)) :
    luaO_str2num P s o = (ptrdiff s e + 1, setivalue o v) := by
  unfold luaO_str2num
  rw [h]

/-- C2: integer text round trip.  For every 64-bit integer `i`, `luaO_str2num` on the
canonical minimal decimal text of `i` succeeds, returns the size of the text and sets
an integer-tagged value holding `i`; rendering that value with `luaO_tostring` gives
the same text back, and parsing `10` then rendering yields `10`. -/
theorem luaO_str2num_integer2str_round_trip {F : Type} (P : Platform F) (i : Int)
    (o : TValue F) (hlo : -(2 : Int) ^ 63 ≤ i) (hhi : i ≤ 2 ^ 63 - 1) :
    luaO_str2num P (lua_integer2str i) o = ((lua_integer2str i).length + 1, setivalue o i) ∧
      ttisinteger (luaO_str2num P (lua_integer2str i) o).2 = true ∧
      ivalue (luaO_str2num P (lua_integer2str i) o).2 = i ∧
      luaO_tostring P (luaO_str2num P (lua_integer2str i) o).2 = lua_integer2str i ∧
      luaO_tostring P (luaO_str2num P "10".toList o).2 = "10".toList := by
  have hmin : LUA_MININTEGER = -(2 : Int) ^ 63 := by decide
  have hmax : (LUA_MAXINTEGER : Int) = 2 ^ 63 - 1 := by decide
  have main : ∀ j : Int, -(2 : Int) ^ 63 ≤ j → j ≤ 2 ^ 63 - 1 →
      luaO_str2num P (lua_integer2str j) o =
        ((lua_integer2str j).length + 1, setivalue o j) := by
    intro j h1 h2
    obtain ⟨hne, hdig, _⟩ := toDigits_spec j.natAbs
    have key := l_str2int_decimal [] (signText j) (Nat.toDigits 10 j.natAbs) [] []
      (by simp) (isSign_signText j) hne hdig (by simp) rfl
    rw [numeralValue_canonical, hmin, hmax, if_pos ⟨h1, h2⟩] at key
    simp only [List.append_nil, List.nil_append] at key
    rw [← lua_integer2str_eq] at key
    rw [luaO_str2num_of_int P _ o _ _ key, ptrdiff_nil]
  have hten : lua_integer2str 10 = "10".toList := by decide
  have m10 := main 10 (by norm_num) (by norm_num)
  rw [hten] at m10
  rw [main i hlo hhi, m10]
  refine ⟨rfl, rfl, rfl, ?_, ?_⟩
  · simp [luaO_tostring, setivalue, ttisinteger, checktag, rttype, ivalue]
  · simp [luaO_tostring, setivalue, ttisinteger, checktag, rttype, ivalue, hten]

theorem luaO_str2num_integer2str_round_trip_witness :
    luaO_str2num ratPlatform (lua_integer2str (-42)) (nilobject Rat) =
      ((lua_integer2str (-42)).length + 1, setivalue (nilobject Rat) (-42)) :=
  (luaO_str2num_integer2str_round_trip ratPlatform (-42) (nilobject Rat)
    (by norm_num) (by norm_num)).1

theorem l_castU2S_range (x : Nat) :
    -(2 : Int) ^ 63 ≤ l_castU2S x ∧ l_castU2S x ≤ 2 ^ 63 - 1 ∧
      l_castU2S x % 2 ^ 64 = (x : Int) % 2 ^ 64 := by
  unfold l_castU2S
  have h64n : ((2 : Nat) ^ 64) = 18446744073709551616 := by norm_num
  have h63n : ((2 : Nat) ^ 63) = 9223372036854775808 := by norm_num
  have h64 : ((2 : Int) ^ 64) = 18446744073709551616 := by norm_num
  have h63 : ((2 : Int) ^ 63) = 9223372036854775808 := by norm_num
  rw [h64n, h63n, h64, h63]
  split <;> omega

theorem castUnsigned_neg_emod (a : Nat) :
    ((castUnsigned (0 - (a : Int)) : Nat) : Int) % 2 ^ 64 = (-(a : Int)) % 2 ^ 64 := by
  unfold castUnsigned
  have h64 : ((2 : Int) ^ 64) = 18446744073709551616 := by norm_num
  rw [h64]
  omega

/-- C4: on an optional sign, `0x` or `0X` and one or more hexadecimal digits (any number
of them), `luaO_str2num` succeeds with an integer-tagged value: the digits are folded as
`acc*16+digit` modulo `2^64`, the stored integer is the two's-complement reading of the
hexadecimal value (negated under `-`) modulo `2^64`, it is never rejected for overflow
and never a float; `0xffffffffffffffff` yields `-1`. -/
theorem luaO_str2num_hex_integer {F : Type} (P : Platform F) (sg hs : List Char) (x : Char)
    (o : TValue F) (hs1 : IsSign sg) (hx : x = 'x' ∨ x = 'X') (hne : hs ≠ [])
    (hh : ∀ c ∈ hs, lisxdigit c = true) :
    (∃ v : Int,
        luaO_str2num P (sg ++ '0' :: x :: hs) o =
          ((sg ++ '0' :: x :: hs).length + 1, setivalue o v) ∧
        ttisinteger (luaO_str2num P (sg ++ '0' :: x :: hs) o).2 = true ∧
        -(2 : Int) ^ 63 ≤ v ∧ v ≤ 2 ^ 63 - 1 ∧
        v % 2 ^ 64 = (if sg = ['-'] then -(hexValue hs : Int) else (hexValue hs : Int)) % 2 ^ 64) ∧
      (hexLoop hs 0 true).1 = hexValue hs % 2 ^ 64 ∧
      luaO_str2num P "0xffffffffffffffff".toList o = (19, setivalue o (-1)) := by
  have key := l_str2int_hex [] sg hs [] [] x (by simp) hs1 hx hne hh (by simp) rfl
  simp only [List.append_nil, List.nil_append] at key
  refine ⟨⟨l_castU2S (if sg = ['-'] then castUnsigned (0 - ((hexValue hs % 2 ^ 64 : Nat) : Int))
        else hexValue hs % 2 ^ 64), ?_, ?_, ?_⟩, ?_, ?_⟩
  · rw [luaO_str2num_of_int P _ o _ _ key, ptrdiff_nil]
  · rw [luaO_str2num_of_int P _ o _ _ key]
    rfl
  · obtain ⟨r1, r2, r3⟩ := l_castU2S_range
      (if sg = ['-'] then castUnsigned (0 - ((hexValue hs % 2 ^ 64 : Nat) : Int))
        else hexValue hs % 2 ^ 64)
    refine ⟨r1, r2, ?_⟩
    rw [r3]
    by_cases hsg : sg = ['-']
    · simp only [hsg, if_true]
      rw [castUnsigned_neg_emod]
      have h64 : ((2 : Int) ^ 64) = 18446744073709551616 := by norm_num
      have h64n : ((2 : Nat) ^ 64) = 18446744073709551616 := by norm_num
      rw [h64, h64n]
      omega
    · simp only [hsg, if_false]
      have h64 : ((2 : Int) ^ 64) = 18446744073709551616 := by norm_num
      have h64n : ((2 : Nat) ^ 64) = 18446744073709551616 := by norm_num
      rw [h64, h64n]
      omega
  · have := hexLoop_digits [] (by decide) hs 0 0 true hh (by norm_num)
    simp only [List.append_nil] at this
    rw [this]
    rfl
  · have k := l_str2int_hex [] [] "ffffffffffffffff".toList [] [] 'x' (by simp) (Or.inl rfl)
      (Or.inl rfl) (by decide) (by decide) (by simp) rfl
    have hv : l_castU2S (if ([] : List Char) = ['-'] then
        castUnsigned (0 - ((hexValue "ffffffffffffffff".toList % 2 ^ 64 : Nat) : Int))
        else hexValue "ffffffffffffffff".toList % 2 ^ 64) = -1 := by decide
    rw [hv] at k
    exact luaO_str2num_of_int P _ o _ _ k

theorem luaO_str2num_hex_integer_witness :
    ∃ v : Int,
      luaO_str2num ratPlatform (['-'] ++ '0' :: 'X' :: "1F".toList) (nilobject Rat) =
          ((['-'] ++ '0' :: 'X' :: "1F".toList).length + 1, setivalue (nilobject Rat) v) ∧
        ttisinteger (luaO_str2num ratPlatform (['-'] ++ '0' :: 'X' :: "1F".toList)
          (nilobject Rat)).2 = true ∧
        -(2 : Int) ^ 63 ≤ v ∧ v ≤ 2 ^ 63 - 1 ∧
        v % 2 ^ 64 = (if ['-'] = ['-'] then -(hexValue "1F".toList : Int)
          else (hexValue "1F".toList : Int)) % 2 ^ 64 :=
  (luaO_str2num_hex_integer ratPlatform ['-'] "1F".toList 'X' (nilobject Rat)
    (Or.inr (Or.inr rfl)) (Or.inr rfl) (by decide) (by decide)).1

theorem l_str2int_of_body (sg body : List Char) (hs : IsSign sg)
    (hb : IsHexBody body ∨ IsDecBody sg body) :
    ∃ v : Int, ∀ ws1 ws2 rest : List Char, AllSpace ws1 → AllSpace ws2 → peek rest = NUL →
      l_str2int (ws1 ++ (sg ++ (body ++ (ws2 ++ rest)))) = some (v, rest) := by
  rcases hb with ⟨x, hs', rfl, hx, hne, hh⟩ | ⟨hne, hd, hlo, hhi⟩
  · exact ⟨_, fun ws1 ws2 rest h1 h2 hr => by
      have := l_str2int_hex ws1 sg hs' ws2 rest x h1 hs hx hne hh h2 hr
      simpa using this⟩
  · exact ⟨numeralValue sg body, fun ws1 ws2 rest h1 h2 hr => by
      have := l_str2int_decimal ws1 sg body ws2 rest h1 hs hne hd h2 hr
      rw [if_pos ⟨hlo, hhi⟩] at this
      exact this⟩

/-- C5: `l_str2int` accepts a text exactly when it has the shape whitespace, optional
single sign, then `0x`/`0X` with at least one hexadecimal digit or at least one decimal
digit in range, then whitespace up to the end; the whitespace around a sign and body
does not change the value (`"  -42  "` gives `-42`); texts without digits and texts
with another character after the digits are rejected. -/
theorem l_str2int_accepts_iff_shape :
    (∀ s : List Char, NUL ∉ s → ((l_str2int s).isSome = true ↔ IsIntNumeral s)) ∧
      (∀ sg body : List Char, IsSign sg → (IsHexBody body ∨ IsDecBody sg body) →
        ∃ v : Int, ∀ ws1 ws2 : List Char, AllSpace ws1 → AllSpace ws2 →
          (l_str2int (ws1 ++ sg ++ body ++ ws2)).map Prod.fst = some v) ∧
      (l_str2int "  -42  ".toList).map Prod.fst = some (-42) ∧
      l_str2int "".toList = none ∧ l_str2int "-".toList = none ∧
      l_str2int "0x".toList = none ∧ l_str2int "12a".toList = none ∧
      l_str2int "0x1g".toList = none ∧ l_str2int "+-1".toList = none ∧
      l_str2int "1 2".toList = none := by
  refine ⟨?_, ?_, by decide, by decide, by decide, by decide, by decide, by decide, by decide,
    by decide⟩
  · intro s hs
    constructor
    · intro h
      cases hl : l_str2int s with
      | none => rw [hl] at h; exact absurd h (by simp)
      | some r =>
        obtain ⟨v, e⟩ := r
        obtain ⟨ws1, sg, body, ws2, hs', hpe, h1, hsg, h2, hb⟩ := l_str2int_some_decomp s v e hl
        have he : e = [] := by
          apply mem_NUL_of_peek e hpe
          intro hmem
          apply hs
          rw [hs']
          simp [hmem]
        rw [he, List.append_nil] at hs'
        exact ⟨ws1, sg, body, ws2, hs', h1, hsg, h2, hb⟩
    · rintro ⟨ws1, sg, body, ws2, hs', h1, hsg, h2, hb⟩
      obtain ⟨v, hv⟩ := l_str2int_of_body sg body hsg hb
      have := hv ws1 ws2 [] h1 h2 rfl
      rw [List.append_nil, ← hs'] at this
      rw [this]
      rfl
  · intro sg body hsg hb
    obtain ⟨v, hv⟩ := l_str2int_of_body sg body hsg hb
    refine ⟨v, fun ws1 ws2 h1 h2 => ?_⟩
    have := hv ws1 ws2 [] h1 h2 rfl
    simp only [List.append_nil, ← List.append_assoc] at this
    rw [this]
    rfl

theorem l_str2int_accepts_iff_shape_witness :
    (l_str2int "  -42  ".toList).isSome = true ↔ IsIntNumeral "  -42  ".toList :=
  l_str2int_accepts_iff_shape.1 "  -42  ".toList (by decide)

/-! ## `inf` and `nan`, failure, and the size returned -/

theorem lisdigit_lisxdigit (c : Char) (h : lisdigit c = true) : lisxdigit c = true := by
  simp [lisxdigit, h]

theorem isIntChar_not_n (c : Char) (h : IsIntChar c) : c ≠ 'n' ∧ c ≠ 'N' ∧ c ≠ NUL := by
  have hn : ('n' : Char).toNat = 110 := by decide
  have hN : ('N' : Char).toNat = 78 := by decide
  rcases h with h | h | h | h | h | h
  · have := (lisspace_iff c).mp h
    refine ⟨?_, ?_, ?_⟩ <;> intro hc <;> rw [hc] at this <;>
      simp only [hn, hN, NUL_toNat] at this <;> omega
  · rw [h]; decide
  · rw [h]; decide
  · have := (lisxdigit_iff c).mp h
    refine ⟨?_, ?_, ?_⟩ <;> intro hc <;> rw [hc] at this <;>
      simp only [hn, hN, NUL_toNat] at this <;> omega
  · rw [h]; decide
  · rw [h]; decide

theorem l_str2int_some_chars (s : List Char) (v : Int) (e : List Char)
    (h : l_str2int s = some (v, e)) :
    ∃ pre, s = pre ++ e ∧ peek e = NUL ∧ ∀ c ∈ pre, IsIntChar c := by
  obtain ⟨ws1, sg, body, ws2, hs, hpe, h1, hsg, h2, hb⟩ := l_str2int_some_decomp s v e h
  refine ⟨ws1 ++ (sg ++ (body ++ ws2)), by rw [hs]; simp, hpe, ?_⟩
  intro c hc
  simp only [List.mem_append] at hc
  rcases hc with hc | hc | hc | hc
  · exact Or.inl (h1 c hc)
  · rcases hsg with rfl | rfl | rfl
    · simp at hc
    · simp only [List.mem_singleton] at hc; exact Or.inr (Or.inl hc)
    · simp only [List.mem_singleton] at hc; exact Or.inr (Or.inr (Or.inl hc))
  · rcases hb with ⟨x, hs', rfl, hx, _, hh⟩ | ⟨_, hd, _⟩
    · simp only [List.mem_cons] at hc
      rcases hc with hc | hc | hc
      · rw [hc]; exact Or.inr (Or.inr (Or.inr (Or.inl (by decide))))
      · rw [hc]
        rcases hx with rfl | rfl
        · exact Or.inr (Or.inr (Or.inr (Or.inr (Or.inl rfl))))
        · exact Or.inr (Or.inr (Or.inr (Or.inr (Or.inr rfl))))
      · exact Or.inr (Or.inr (Or.inr (Or.inl (hh c hc))))
    · exact Or.inr (Or.inr (Or.inr (Or.inl (lisdigit_lisxdigit c (hd c hc)))))
  · exact Or.inl (h2 c hc)

theorem strpbrk_mode_of_peek_NUL (e : List Char) (h : peek e = NUL) : strpbrk_mode e = none := by
  cases e with
  | nil => rfl
  | cons c cs =>
    simp only [peek_cons] at h
    simp [strpbrk_mode, h]

theorem strpbrk_mode_append (e : List Char) (he : peek e = NUL) :
    ∀ pre : List Char, strpbrk_mode (pre ++ e) = none ∨
      ∃ c ∈ pre, strpbrk_mode (pre ++ e) = some c := by
  intro pre
  induction pre with
  | nil => exact Or.inl (strpbrk_mode_of_peek_NUL e he)
  | cons a as ih =>
    simp only [List.cons_append, strpbrk_mode]
    split
    · exact Or.inl rfl
    · split
      · exact Or.inr ⟨a, List.mem_cons_self _ _, rfl⟩
      · rcases ih with h | ⟨c, hc, h⟩
        · exact Or.inl h
        · exact Or.inr ⟨c, List.mem_cons_of_mem _ hc, h⟩

theorem l_str2int_none_of_mode_n (s : List Char) (c : Char) (hc : c = 'n' ∨ c = 'N')
    (h : strpbrk_mode s = some c) : l_str2int s = none := by
  cases hl : l_str2int s with
  | none => rfl
  | some r =>
    exfalso
    obtain ⟨v, e⟩ := r
    obtain ⟨pre, hs, hpe, hpre⟩ := l_str2int_some_chars s v e hl
    rw [hs] at h
    rcases strpbrk_mode_append e hpe pre with h0 | ⟨d, hd, h1⟩
    · rw [h0] at h; exact absurd h (by simp)
    · rw [h1] at h
      simp only [Option.some.injEq] at h
      have := isIntChar_not_n d (hpre d hd)
      rcases hc with hc | hc
      · exact this.1 (h.trans hc)
      · exact this.2.1 (h.trans hc)

theorem l_str2d_none_of_mode_n {F : Type} (P : Platform F) (s : List Char) (c : Char)
    (hc : c = 'n' ∨ c = 'N') (h : strpbrk_mode s = some c) : l_str2d P s = none := by
  have hm : ltolower c.toNat = 'n'.toNat := by
    rcases hc with rfl | rfl <;> decide
  unfold l_str2d
  simp only [h, hm, if_true]

/-- C7: `inf` and `nan` forms are rejected.  When the first character of the text among
`.`, `x`, `X`, `n`, `N` is `n` or `N`, `luaO_str2num` returns 0 and leaves `*o` as it was;
this covers `nan`, `inf`, `-inf`, `Infinity` and ` NaN `. -/
theorem luaO_str2num_rejects_inf_nan {F : Type} (P : Platform F) (s : List Char)
    (o : TValue F) (h : strpbrk_mode s = some 'n' ∨ strpbrk_mode s = some 'N') :
    luaO_str2num P s o = (0, o) ∧
      luaO_str2num P "nan".toList o = (0, o) ∧ luaO_str2num P "inf".toList o = (0, o) ∧
      luaO_str2num P "-inf".toList o = (0, o) ∧ luaO_str2num P "Infinity".toList o = (0, o) ∧
      luaO_str2num P " NaN ".toList o = (0, o) ∧ luaO_str2num P "INF".toList o = (0, o) := by
  have main : ∀ (t : List Char) (c : Char), (c = 'n' ∨ c = 'N') → strpbrk_mode t = some c →
      luaO_str2num P t o = (0, o) := by
    intro t c hc ht
    unfold luaO_str2num
    rw [l_str2int_none_of_mode_n t c hc ht, l_str2d_none_of_mode_n P t c hc ht]
  refine ⟨?_, main _ 'n' (Or.inl rfl) (by decide), main _ 'n' (Or.inl rfl) (by decide),
    main _ 'n' (Or.inl rfl) (by decide), main _ 'n' (Or.inl rfl) (by decide),
    main _ 'N' (Or.inr rfl) (by decide), main _ 'N' (Or.inr rfl) (by decide)⟩
  rcases h with h | h
  · exact main s 'n' (Or.inl rfl) h
  · exact main s 'N' (Or.inr rfl) h

theorem luaO_str2num_rejects_inf_nan_witness :
    luaO_str2num ratPlatform "1e5nan".toList (nilobject Rat) = (0, nilobject Rat) :=
  (luaO_str2num_rejects_inf_nan ratPlatform "1e5nan".toList (nilobject Rat)
    (Or.inl (by decide))).1

/-- C8: failure of `luaO_str2num` is total.  When neither `l_str2int` nor `l_str2d`
succeeds the function returns 0 and `*o` is exactly what it was before the call, tag
and payload; it returns 0 in no other case, and the function is total (it raises
nothing). -/
theorem luaO_str2num_failure_total {F : Type} (P : Platform F) (s : List Char)
    (o : TValue F) :
    (l_str2int s = none → l_str2d P s = none → luaO_str2num P s o = (0, o)) ∧
      ((luaO_str2num P s o).1 = 0 ↔ (l_str2int s = none ∧ l_str2d P s = none)) ∧
      ((luaO_str2num P s o).1 = 0 →
        (luaO_str2num P s o).2 = o ∧ (luaO_str2num P s o).2.tt_ = o.tt_ ∧
          (luaO_str2num P s o).2.value_ = o.value_) := by
  unfold luaO_str2num
  cases hi : l_str2int s with
  | some r => obtain ⟨v, e⟩ := r; simp
  | none =>
    cases hd : l_str2d P s with
    | some r => obtain ⟨n, e⟩ := r; simp
    | none => simp

theorem luaO_str2num_failure_total_witness :
    luaO_str2num ratPlatform "0x".toList (nilobject Rat) = (0, nilobject Rat) :=
  (luaO_str2num_failure_total ratPlatform "0x".toList (nilobject Rat)).1 (by decide) (by rfl)

theorem strlen_eq_length (s : List Char) (h : NUL ∉ s) : strlen s = s.length := by
  induction s with
  | nil => rfl
  | cons c cs ih =>
    have hc : c ≠ NUL := fun hc => h (hc ▸ List.mem_cons_self c cs)
    have hcs : NUL ∉ cs := fun hm => h (List.mem_cons_of_mem _ hm)
    simp [strlen, hc, ih hcs]

theorem skipSpaces_mem (t : List Char) (c : Char) (h : c ∈ skipSpaces t) : c ∈ t := by
  obtain ⟨ws, hs, _, _⟩ := skipSpaces_decomp t
  rw [hs]
  exact List.mem_append_right _ h

theorem l_str2dloc_some_off {F : Type} (P : Platform F) (t : List Char) (mode : Nat) (n : F)
    (off : Nat) (hn : NUL ∉ t) (h : l_str2dloc P t mode = some (n, off)) : off = t.length := by
  unfold l_str2dloc at h
  generalize (if mode = 'x'.toNat then lua_strx2number P t else P.strtod t) = cv at h
  simp only at h
  by_cases h0 : cv.2 = 0
  · rw [if_pos h0] at h
    exact absurd h (by simp)
  · rw [if_neg h0] at h
    by_cases hp : peek (skipSpaces (List.drop cv.2 t)) = NUL
    · rw [if_pos hp] at h
      simp only [Option.some.injEq, Prod.mk.injEq] at h
      have he : skipSpaces (List.drop cv.2 t) = [] := by
        apply mem_NUL_of_peek _ hp
        intro hm
        exact hn (List.mem_of_mem_drop (skipSpaces_mem _ _ hm))
      rw [he, ptrdiff_nil] at h
      exact h.2.symm
    · rw [if_neg hp] at h
      exact absurd h (by simp)

theorem l_str2d_some_off {F : Type} (P : Platform F) (s : List Char) (n : F) (off : Nat)
    (hn : NUL ∉ s) (hdot : P.decpoint ≠ NUL) (h : l_str2d P s = some (n, off)) :
    off = s.length := by
  unfold l_str2d at h
  simp only at h
  split at h
  · exact absurd h (by simp)
  · split at h
    · rename_i r hr
      simp only [Option.some.injEq] at h
      rw [h] at hr
      exact l_str2dloc_some_off P s _ n off hn hr
    · split at h
      · exact absurd h (by simp)
      · split at h
        · exact absurd h (by simp)
        · rename_i pdot _ _
          have hlen : strlen s = s.length := strlen_eq_length s hn
          rw [hlen, List.take_length] at h
          have hb : NUL ∉ s.set pdot P.decpoint := by
            intro hm
            rcases List.mem_or_eq_of_mem_set hm with hm | hm
            · exact hn hm
            · exact hdot hm.symm
          have := l_str2dloc_some_off P _ _ n off hb h
          rw [this, List.length_set]

theorem setivalue_ne_nil {F : Type} (i : Int) : nilobject F ≠ setivalue (nilobject F) i := by
  intro h
  have := congrArg TValue.tt_ h
  simp [nilobject, setivalue, LUA_TNUMINT, LUA_TNUMBER] at this

theorem setfltvalue_ne_nil {F : Type} (n : F) : nilobject F ≠ setfltvalue (nilobject F) n := by
  intro h
  have := congrArg TValue.tt_ h
  simp [nilobject, setfltvalue, LUA_TNUMFLT, LUA_TNUMBER] at this

/-- C9: the value `luaO_str2num` returns is 0 or `strlen(s)+1`, the size of the whole
text with its terminator, and it is nonzero exactly when `*o` was set, whatever it
held, to an integer or to a float. -/
theorem luaO_str2num_returns_size {F : Type} (P : Platform F) (s : List Char) (o : TValue F)
    (hn : NUL ∉ s) (hdot : P.decpoint ≠ NUL) :
    ((luaO_str2num P s o).1 = 0 ∨ (luaO_str2num P s o).1 = strlen s + 1) ∧
      ((luaO_str2num P s o).1 ≠ 0 ↔
        ((∃ i : Int, ∀ o1 : TValue F, (luaO_str2num P s o1).2 = setivalue o1 i) ∨
          (∃ n : F, ∀ o1 : TValue F, (luaO_str2num P s o1).2 = setfltvalue o1 n))) := by
  have hlen : strlen s = s.length := strlen_eq_length s hn
  unfold luaO_str2num
  cases hi : l_str2int s with
  | some r =>
    obtain ⟨v, e⟩ := r
    obtain ⟨pre, hs, hpe, _⟩ := l_str2int_some_chars s v e hi
    have he : e = [] := by
      apply mem_NUL_of_peek e hpe
      intro hm
      exact hn (hs ▸ List.mem_append_right _ hm)
    simp only [he, ptrdiff_nil, hlen, ne_eq, Nat.add_one_ne_zero, not_false_eq_true, true_iff,
      or_true, true_and]
    exact Or.inl ⟨v, fun _ => rfl⟩
  | none =>
    cases hd : l_str2d P s with
    | some r =>
      obtain ⟨n, off⟩ := r
      have := l_str2d_some_off P s n off hn hdot hd
      simp only [this, hlen, ne_eq, Nat.add_one_ne_zero, not_false_eq_true, true_iff,
        or_true, true_and]
      exact Or.inr ⟨n, fun _ => rfl⟩
    | none =>
      simp only [true_or, ne_eq, not_true_eq_false, false_iff, not_or, not_exists, not_forall,
        true_and]
      exact ⟨fun i => ⟨nilobject F, setivalue_ne_nil i⟩,
        fun n => ⟨nilobject F, setfltvalue_ne_nil n⟩⟩

theorem luaO_str2num_returns_size_witness :
    ((luaO_str2num ratPlatform " 0x1.8p1 ".toList (nilobject Rat)).1 = 0 ∨
        (luaO_str2num ratPlatform " 0x1.8p1 ".toList (nilobject Rat)).1 =
          strlen " 0x1.8p1 ".toList + 1) ∧
      ((luaO_str2num ratPlatform " 0x1.8p1 ".toList (nilobject Rat)).1 ≠ 0 ↔
        ((∃ i : Int, ∀ o1 : TValue Rat,
            (luaO_str2num ratPlatform " 0x1.8p1 ".toList o1).2 = setivalue o1 i) ∨
          (∃ n : Rat, ∀ o1 : TValue Rat,
            (luaO_str2num ratPlatform " 0x1.8p1 ".toList o1).2 = setfltvalue o1 n))) :=
  luaO_str2num_returns_size ratPlatform " 0x1.8p1 ".toList (nilobject Rat) (by decide)
    (by decide)

/-! ## Decimal numerals out of the integer range -/

theorem strpbrk_mode_none (s : List Char)
    (h : ∀ c ∈ s, c ≠ '.' ∧ c ≠ 'x' ∧ c ≠ 'X' ∧ c ≠ 'n' ∧ c ≠ 'N') : strpbrk_mode s = none := by
  induction s with
  | nil => rfl
  | cons c cs ih =>
    have hc := h c (List.mem_cons_self _ _)
    simp only [strpbrk_mode, hc.1, hc.2.1, hc.2.2.1, hc.2.2.2.1, hc.2.2.2.2, or_self, if_false]
    split
    · rfl
    · exact ih (fun d hd => h d (List.mem_cons_of_mem _ hd))

theorem not_mode_char_of_space (c : Char) (h : lisspace c = true) :
    c ≠ '.' ∧ c ≠ 'x' ∧ c ≠ 'X' ∧ c ≠ 'n' ∧ c ≠ 'N' := by
  have := (lisspace_iff c).mp h
  refine ⟨?_, ?_, ?_, ?_, ?_⟩ <;> intro hc <;> rw [hc] at this <;> revert this <;> decide

theorem not_mode_char_of_digit (c : Char) (h : lisdigit c = true) :
    c ≠ '.' ∧ c ≠ 'x' ∧ c ≠ 'X' ∧ c ≠ 'n' ∧ c ≠ 'N' := by
  have := (lisdigit_iff c).mp h
  refine ⟨?_, ?_, ?_, ?_, ?_⟩ <;> intro hc <;> rw [hc] at this <;> revert this <;> decide

theorem not_mode_char_of_sign (sg : List Char) (hs : IsSign sg) (c : Char) (h : c ∈ sg) :
    c ≠ '.' ∧ c ≠ 'x' ∧ c ≠ 'X' ∧ c ≠ 'n' ∧ c ≠ 'N' := by
  rcases hs with rfl | rfl | rfl
  · simp at h
  · simp only [List.mem_singleton] at h; rw [h]; decide
  · simp only [List.mem_singleton] at h; rw [h]; decide

/-- C6: a decimal numeral (optional sign, surrounding whitespace) whose value is outside
the 64-bit range is not an error and not an integer: `l_str2int` rejects it, the float
parse is attempted, and, `strtod` converting the numeral up to its last digit,
`luaO_str2num` returns the nonzero size and sets a float-tagged value holding the
conversion `strtod` made; `99999999999999999999` is rejected as an integer. -/
theorem luaO_str2num_decimal_overflow_float {F : Type} (P : Platform F)
    (ws1 sg ds ws2 : List Char) (o : TValue F) (h1 : AllSpace ws1) (hs : IsSign sg)
    (hne : ds ≠ []) (hd : ∀ c ∈ ds, lisdigit c = true) (h2 : AllSpace ws2)
    (hout : numeralValue sg ds < -(2 : Int) ^ 63 ∨ 2 ^ 63 - 1 < numeralValue sg ds)
    (hstrtod : (P.strtod (ws1 ++ sg ++ ds ++ ws2)).2 = (ws1 ++ sg ++ ds).length) :
    l_str2int (ws1 ++ sg ++ ds ++ ws2) = none ∧
      luaO_str2num P (ws1 ++ sg ++ ds ++ ws2) o =
        ((ws1 ++ sg ++ ds ++ ws2).length + 1,
          setfltvalue o (P.strtod (ws1 ++ sg ++ ds ++ ws2)).1) ∧
      (luaO_str2num P (ws1 ++ sg ++ ds ++ ws2) o).1 ≠ 0 ∧
      ttisfloat (luaO_str2num P (ws1 ++ sg ++ ds ++ ws2) o).2 = true ∧
      ttisinteger (luaO_str2num P (ws1 ++ sg ++ ds ++ ws2) o).2 = false ∧
      l_str2int "99999999999999999999".toList = none := by
  have hmin : LUA_MININTEGER = -(2 : Int) ^ 63 := by decide
  have hmax : (LUA_MAXINTEGER : Int) = 2 ^ 63 - 1 := by decide
  have hint : l_str2int (ws1 ++ sg ++ ds ++ ws2) = none := by
    have key := l_str2int_decimal ws1 sg ds ws2 [] h1 hs hne hd h2 rfl
    simp only [List.append_nil, ← List.append_assoc, hmin, hmax] at key
    rw [key, if_neg (by omega)]
  have hmode : strpbrk_mode (ws1 ++ sg ++ ds ++ ws2) = none := by
    apply strpbrk_mode_none
    intro c hc
    simp only [List.mem_append] at hc
    rcases hc with ((hc | hc) | hc) | hc
    · exact not_mode_char_of_space c (h1 c hc)
    · exact not_mode_char_of_sign sg hs c hc
    · exact not_mode_char_of_digit c (hd c hc)
    · exact not_mode_char_of_space c (h2 c hc)
  have hlen : (ws1 ++ sg ++ ds).length ≠ 0 := by
    cases ds with
    | nil => exact absurd rfl hne
    | cons c cs => simp
  have hloc : l_str2dloc P (ws1 ++ sg ++ ds ++ ws2) 0 =
      some ((P.strtod (ws1 ++ sg ++ ds ++ ws2)).1, (ws1 ++ sg ++ ds ++ ws2).length) := by
    unfold l_str2dloc
    have hx : ¬ (0 = 'x'.toNat) := by decide
    simp only [if_neg hx, hstrtod, if_neg hlen, List.drop_left, skipSpaces_of_spaces ws2 h2,
      peek_nil, if_true, ptrdiff_nil]
  have hd2 : l_str2d P (ws1 ++ sg ++ ds ++ ws2) =
      some ((P.strtod (ws1 ++ sg ++ ds ++ ws2)).1, (ws1 ++ sg ++ ds ++ ws2).length) := by
    unfold l_str2d
    have hn : ¬ (0 = 'n'.toNat) := by decide
    simp only [hmode, if_neg hn, hloc]
  have hres : luaO_str2num P (ws1 ++ sg ++ ds ++ ws2) o =
      ((ws1 ++ sg ++ ds ++ ws2).length + 1,
        setfltvalue o (P.strtod (ws1 ++ sg ++ ds ++ ws2)).1) := by
    unfold luaO_str2num
    rw [hint, hd2]
  refine ⟨hint, hres, ?_, ?_, ?_, ?_⟩
  · rw [hres]; exact Nat.succ_ne_zero _
  · rw [hres]; rfl
  · rw [hres]; rfl
  · have k := l_str2int_decimal [] [] "99999999999999999999".toList [] [] (by simp)
      (Or.inl rfl) (by decide) (by decide) (by simp) rfl
    have hv : numeralValue [] "99999999999999999999".toList = 99999999999999999999 := by decide
    rw [hv, hmin, hmax, if_neg (by norm_num)] at k
    exact k

theorem luaO_str2num_decimal_overflow_float_witness :
    luaO_str2num ratPlatform ([] ++ [] ++ "99999999999999999999".toList ++ []) (nilobject Rat) =
      (([] ++ [] ++ "99999999999999999999".toList ++ []).length + 1,
        setfltvalue (nilobject Rat)
          (ratPlatform.strtod ([] ++ [] ++ "99999999999999999999".toList ++ [])).1) :=
  (luaO_str2num_decimal_overflow_float ratPlatform [] [] "99999999999999999999".toList []
    (nilobject Rat) (by unfold AllSpace; decide) (Or.inl rfl) (by decide) (by decide)
    (by unfold AllSpace; decide) (Or.inr (by decide)) (by decide)).2.1

/-! ## Hexadecimal floats: what `lua_strx2number` recognises -/

theorem strxDigit_spec {F : Type} (P : Platform F) (st : StrxState F) (c : Char) :
    (strxDigit P st c).hasdot = st.hasdot ∧
      (strxDigit P st c).nosigdig + (strxDigit P st c).sigdig =
        st.nosigdig + st.sigdig + 1 := by
  unfold strxDigit
  simp only
  constructor
  · split <;> split <;> (try split) <;> rfl
  · split <;> split <;> (try split) <;> simp only [] <;> omega

theorem strxLoop_hex {F : Type} (P : Platform F) (hdp : lisxdigit P.decpoint = false)
    (rest : List Char) :
    ∀ (hs : List Char) (st : StrxState F), (∀ c ∈ hs, lisxdigit c = true) →
      ∃ st1 : StrxState F, strxLoop P (hs ++ rest) st = strxLoop P rest st1 ∧
        st1.hasdot = st.hasdot ∧
        st1.nosigdig + st1.sigdig = st.nosigdig + st.sigdig + hs.length := by
  intro hs
  induction hs with
  | nil => intro st _; exact ⟨st, rfl, rfl, by simp⟩
  | cons c cs ih =>
    intro st hh
    have hc : lisxdigit c = true := hh c (List.mem_cons_self _ _)
    have hcs : ∀ d ∈ cs, lisxdigit d = true := fun d hd => hh d (List.mem_cons_of_mem _ hd)
    have hne : c ≠ P.decpoint := by
      intro h
      rw [h, hdp] at hc
      exact absurd hc (by simp)
    obtain ⟨h2, h3⟩ := strxDigit_spec P st c
    obtain ⟨st1, k1, k2, k3⟩ := ih (strxDigit P st c) hcs
    refine ⟨st1, ?_, k2.trans h2, ?_⟩
    · simp only [List.cons_append, strxLoop, if_neg hne, hc, if_true]
      simpa [List.append_eq] using k1
    · rw [k3, h3]
      simp only [List.length_cons]
      push_cast
      omega

theorem strxLoop_stop {F : Type} (P : Platform F) (ex : List Char) (st : StrxState F)
    (h : ex = [] ∨ (peek ex ≠ P.decpoint ∧ lisxdigit (peek ex) = false)) :
    strxLoop P ex st = (st, ex) := by
  cases ex with
  | nil => rfl
  | cons c cs =>
    rcases h with h | ⟨h1, h2⟩
    · exact absurd h (by simp)
    · simp only [peek_cons] at h1 h2
      simp [strxLoop, h1, h2]

theorem strxLoop_numeral {F : Type} (P : Platform F) (hdp : lisxdigit P.decpoint = false)
    (H dt Fr ex : List Char) (hH : ∀ c ∈ H, lisxdigit c = true)
    (hdt : dt = [] ∨ dt = [P.decpoint]) (hF : ∀ c ∈ Fr, lisxdigit c = true)
    (hex : ex = [] ∨ (peek ex ≠ P.decpoint ∧ lisxdigit (peek ex) = false)) :
    ∃ st1 : StrxState F,
      strxLoop P (H ++ (dt ++ (Fr ++ ex)))
          { r := P.ofInt 0, sigdig := 0, nosigdig := 0, e := 0, hasdot := false } = (st1, ex) ∧
        st1.nosigdig + st1.sigdig = (H.length : Int) + Fr.length := by
  obtain ⟨sa, a1, a2, a3⟩ := strxLoop_hex P hdp (dt ++ (Fr ++ ex)) H
    { r := P.ofInt 0, sigdig := 0, nosigdig := 0, e := 0, hasdot := false } hH
  rcases hdt with rfl | rfl
  · obtain ⟨sb, b1, _, b3⟩ := strxLoop_hex P hdp ex Fr sa hF
    refine ⟨sb, ?_, ?_⟩
    · rw [a1, List.nil_append, b1, strxLoop_stop P ex sb hex]
    · rw [b3, a3]; simp
  · obtain ⟨sb, b1, _, b3⟩ := strxLoop_hex P hdp ex Fr { sa with hasdot := true } hF
    refine ⟨sb, ?_, ?_⟩
    · have hsa : sa.hasdot = false := a2
      rw [a1]
      simp only [List.singleton_append, strxLoop, if_true, hsa, Bool.false_eq_true, if_false]
      rw [← strxLoop_stop P ex sb hex, ← b1]
      rfl
    · rw [b3]
      simp only
      rw [a3]; simp

theorem expLoop_digits : ∀ (ds : List Char) (a : Int), (∀ c ∈ ds, lisdigit c = true) →
    (expLoop ds a).2 = [] := by
  intro ds
  induction ds with
  | nil => intro a _; rfl
  | cons c cs ih =>
    intro a h
    have hc : lisdigit c = true := h c (List.mem_cons_self _ _)
    simp only [expLoop, hc, if_true]
    exact ih _ (fun d hd => h d (List.mem_cons_of_mem _ hd))

theorem hexExponent_stop (dp : Char) (hdp : DecpointOk dp) (ex : List Char)
    (hex : IsHexExponent ex) : ex = [] ∨ (peek ex ≠ dp ∧ lisxdigit (peek ex) = false) := by
  rcases hex with h | ⟨p, sg1, ds, rfl, hp, _, _, _⟩
  · exact Or.inl h
  · refine Or.inr ⟨?_, ?_⟩
    · simp only [peek_cons]
      rcases hp with rfl | rfl
      · exact fun h => hdp.2.1 h.symm
      · exact fun h => hdp.2.2.1 h.symm
    · simp only [peek_cons]
      rcases hp with rfl | rfl <;> decide

theorem lua_strx2number_end {F : Type} (P : Platform F) (hdp : DecpointOk P.decpoint)
    (sg H dt Fr ex : List Char) (x : Char) (hsg : IsSign sg) (hx : x = 'x' ∨ x = 'X')
    (hH : ∀ c ∈ H, lisxdigit c = true) (hdt : dt = [] ∨ dt = [P.decpoint])
    (hF : ∀ c ∈ Fr, lisxdigit c = true) (hex : IsHexExponent ex) (hdig : H ++ Fr ≠ []) :
    (lua_strx2number P (sg ++ '0' :: x :: (H ++ (dt ++ (Fr ++ ex))))).2 =
      (sg ++ '0' :: x :: (H ++ (dt ++ (Fr ++ ex)))).length := by
  have hskip : skipSpaces (sg ++ '0' :: x :: (H ++ (dt ++ (Fr ++ ex)))) =
      sg ++ '0' :: x :: (H ++ (dt ++ (Fr ++ ex))) := by
    apply skipSpaces_of_not_space
    rcases hsg with rfl | rfl | rfl
    · show lisspace '0' = false
      decide
    · show lisspace '+' = false
      decide
    · show lisspace '-' = false
      decide
  have hneg : isneg (sg ++ '0' :: x :: (H ++ (dt ++ (Fr ++ ex)))) =
      (decide (sg = ['-']), '0' :: x :: (H ++ (dt ++ (Fr ++ ex)))) :=
    isneg_sign_append _ _ hsg (by simp only [peek_cons]; decide)
  have hhex : ¬ ¬ (peek ('0' :: x :: (H ++ (dt ++ (Fr ++ ex)))) = '0' ∧
      (peek ('0' :: x :: (H ++ (dt ++ (Fr ++ ex)))).tail = 'x' ∨
        peek ('0' :: x :: (H ++ (dt ++ (Fr ++ ex)))).tail = 'X')) := not_not.mpr ⟨rfl, hx⟩
  obtain ⟨st1, hl, hsum⟩ := strxLoop_numeral P hdp.1 H dt Fr ex hH hdt hF
    (hexExponent_stop _ hdp ex hex)
  have hpos : ¬ (st1.nosigdig + st1.sigdig = 0) := by
    rw [hsum]
    have : 0 < (H ++ Fr).length := List.length_pos.mpr hdig
    rw [List.length_append] at this
    omega
  unfold lua_strx2number
  simp only [hskip, hneg]
  rw [if_neg hhex]
  simp only [List.tail_cons, hl]
  rw [if_neg hpos]
  rcases hex with rfl | ⟨p, sg1, ds, rfl, hp, hsg1, hne, hd⟩
  · have hnp : ¬ (peek ([] : List Char) = 'p' ∨ peek ([] : List Char) = 'P') := by decide
    rw [if_neg hnp]
    simp only [ptrdiff_nil]
  · have hpp : peek (p :: (sg1 ++ ds)) = 'p' ∨ peek (p :: (sg1 ++ ds)) = 'P' := hp
    have hdg : lisdigit (peek ds) = true := hd _ (peek_mem ds hne)
    have hnx := not_x_of_digit_space_NUL (peek ds) (Or.inl hdg)
    have hneg1 : isneg (sg1 ++ ds) = (decide (sg1 = ['-']), ds) :=
      isneg_sign_append _ _ hsg1 ⟨hnx.2.2.1, hnx.2.2.2⟩
    rw [if_pos hpp]
    simp only [List.tail_cons, hneg1, hdg, not_true_eq_false, if_false, expLoop_digits ds 0 hd,
      ptrdiff_nil]

theorem l_str2dloc_hex_float {F : Type} (P : Platform F) (hdp : DecpointOk P.decpoint)
    (sg H dt Fr ex : List Char) (x : Char) (hsg : IsSign sg) (hx : x = 'x' ∨ x = 'X')
    (hH : ∀ c ∈ H, lisxdigit c = true) (hdt : dt = [] ∨ dt = [P.decpoint])
    (hF : ∀ c ∈ Fr, lisxdigit c = true) (hex : IsHexExponent ex) (hdig : H ++ Fr ≠ []) :
    l_str2dloc P (sg ++ '0' :: x :: (H ++ (dt ++ (Fr ++ ex)))) 'x'.toNat =
      some ((lua_strx2number P (sg ++ '0' :: x :: (H ++ (dt ++ (Fr ++ ex))))).1,
        (sg ++ '0' :: x :: (H ++ (dt ++ (Fr ++ ex)))).length) := by
  have hend := lua_strx2number_end P hdp sg H dt Fr ex x hsg hx hH hdt hF hex hdig
  have hlen : (sg ++ '0' :: x :: (H ++ (dt ++ (Fr ++ ex)))).length ≠ 0 := by simp
  unfold l_str2dloc
  simp only [if_true, hend, if_neg hlen, List.drop_length, skipSpaces, peek_nil, ptrdiff_nil]

theorem strpbrk_mode_hex_start (sg body : List Char) (x : Char) (hsg : IsSign sg)
    (hx : x = 'x' ∨ x = 'X') : strpbrk_mode (sg ++ '0' :: x :: body) = some x := by
  have h0 : strpbrk_mode ('0' :: x :: body) = some x := by
    rcases hx with rfl | rfl <;> simp [strpbrk_mode, NUL]
  rcases hsg with rfl | rfl | rfl
  · exact h0
  · have : strpbrk_mode (['+'] ++ '0' :: x :: body) = strpbrk_mode ('0' :: x :: body) := by
      simp [strpbrk_mode, NUL]
    rw [this, h0]
  · have : strpbrk_mode (['-'] ++ '0' :: x :: body) = strpbrk_mode ('0' :: x :: body) := by
      simp [strpbrk_mode, NUL]
    rw [this, h0]

theorem set_append_cons (pre rest : List Char) (a b : Char) :
    (pre ++ a :: rest).set pre.length b = pre ++ b :: rest := by
  induction pre with
  | nil => rfl
  | cons c cs ih => simp [List.set, ih]

theorem strchr_dot_append (pre rest : List Char) (h : ∀ c ∈ pre, c ≠ '.' ∧ c ≠ NUL) :
    strchr_dot (pre ++ '.' :: rest) = some pre.length := by
  induction pre with
  | nil => simp [strchr_dot, NUL]
  | cons c cs ih =>
    have hc := h c (List.mem_cons_self _ _)
    have ih1 := ih (fun d hd => h d (List.mem_cons_of_mem _ hd))
    simp only [List.cons_append, strchr_dot, if_neg hc.1, if_neg hc.2]
    rw [show cs.append ('.' :: rest) = cs ++ '.' :: rest from rfl, ih1]
    rfl

theorem lisxdigit_ne (c : Char) (h : lisxdigit c = true) : c ≠ '.' ∧ c ≠ NUL := by
  have := (lisxdigit_iff c).mp h
  constructor <;> intro hc <;> rw [hc] at this <;> revert this <;> decide

theorem isSign_ne (sg : List Char) (hs : IsSign sg) (c : Char) (h : c ∈ sg) :
    c ≠ '.' ∧ c ≠ NUL := by
  rcases hs with rfl | rfl | rfl
  · simp at h
  · simp only [List.mem_singleton] at h; rw [h]; decide
  · simp only [List.mem_singleton] at h; rw [h]; decide

theorem hexExponent_no_NUL (ex : List Char) (hex : IsHexExponent ex) : NUL ∉ ex := by
  rcases hex with rfl | ⟨p, sg1, ds, rfl, hp, hsg1, _, hd⟩
  · simp
  · intro hm
    simp only [List.mem_cons, List.mem_append] at hm
    rcases hm with hm | hm | hm
    · rcases hp with rfl | rfl <;> exact absurd hm (by decide)
    · exact (isSign_ne sg1 hsg1 NUL hm).2 rfl
    · exact absurd (hd NUL hm) (by decide)

theorem l_str2d_hex_float {F : Type} (P : Platform F) (hdp : DecpointOk P.decpoint)
    (sg H dt Fr ex : List Char) (x : Char) (hsg : IsSign sg) (hx : x = 'x' ∨ x = 'X')
    (hH : ∀ c ∈ H, lisxdigit c = true) (hdt : dt = [] ∨ dt = ['.'])
    (hF : ∀ c ∈ Fr, lisxdigit c = true) (hex : IsHexExponent ex) (hdig : H ++ Fr ≠ [])
    (hloc : P.decpoint = '.' ∨ dt = [] ∨
      (sg ++ '0' :: x :: (H ++ (dt ++ (Fr ++ ex)))).length ≤ L_MAXLENNUM) :
    ∃ n : F, l_str2d P (sg ++ '0' :: x :: (H ++ (dt ++ (Fr ++ ex)))) =
      some (n, (sg ++ '0' :: x :: (H ++ (dt ++ (Fr ++ ex)))).length) := by
  have hmode := strpbrk_mode_hex_start sg (H ++ (dt ++ (Fr ++ ex))) x hsg hx
  have hlow : ltolower x.toNat = 'x'.toNat := by rcases hx with rfl | rfl <;> decide
  have hnn : ¬ ('x'.toNat = 'n'.toNat) := by decide
  unfold l_str2d
  simp only [hmode, hlow, if_neg hnn]
  cases hfirst : l_str2dloc P (sg ++ '0' :: x :: (H ++ (dt ++ (Fr ++ ex)))) 'x'.toNat with
  | some r =>
    obtain ⟨n, off⟩ := r
    have hnul : NUL ∉ sg ++ '0' :: x :: (H ++ (dt ++ (Fr ++ ex))) := by
      intro hm
      simp only [List.mem_append, List.mem_cons] at hm
      rcases hm with hm | hm | hm | hm | hm | hm | hm
      · exact (isSign_ne sg hsg NUL hm).2 rfl
      · exact absurd hm (by decide)
      · rcases hx with rfl | rfl <;> exact absurd hm (by decide)
      · exact (lisxdigit_ne NUL (hH NUL hm)).2 rfl
      · rcases hdt with rfl | rfl
        · simp at hm
        · simp only [List.mem_singleton] at hm; exact absurd hm (by decide)
      · exact (lisxdigit_ne NUL (hF NUL hm)).2 rfl
      · exact hexExponent_no_NUL ex hex hm
    have := l_str2dloc_some_off P _ _ n off hnul hfirst
    exact ⟨n, by rw [this]⟩
  | none =>
    -- the first conversion stopped at the `.`: the locale has another decimal point
    have hdirect : ¬ (dt = [] ∨ dt = [P.decpoint]) := by
      intro hd
      have := l_str2dloc_hex_float P hdp sg H dt Fr ex x hsg hx hH hd hF hex hdig
      rw [this] at hfirst
      exact absurd hfirst (by simp)
    have hdt1 : dt = ['.'] := by
      rcases hdt with h | h
      · exact absurd (Or.inl h) hdirect
      · exact h
    have hpt : P.decpoint ≠ '.' := by
      intro h
      exact hdirect (Or.inr (by rw [hdt1, h]))
    have hshort : (sg ++ '0' :: x :: (H ++ (dt ++ (Fr ++ ex)))).length ≤ L_MAXLENNUM := by
      rcases hloc with h | h | h
      · exact absurd h hpt
      · exact absurd (Or.inl h) hdirect
      · exact h
    subst hdt1
    have hpre : ∀ c ∈ sg ++ '0' :: x :: H, c ≠ '.' ∧ c ≠ NUL := by
      intro c hc
      simp only [List.mem_append, List.mem_cons] at hc
      rcases hc with hc | hc | hc | hc
      · exact isSign_ne sg hsg c hc
      · rw [hc]; decide
      · rw [hc]; rcases hx with rfl | rfl <;> decide
      · exact lisxdigit_ne c (hH c hc)
    have hs : sg ++ '0' :: x :: (H ++ (['.'] ++ (Fr ++ ex))) =
        (sg ++ '0' :: x :: H) ++ '.' :: (Fr ++ ex) := by simp
    have hnul : NUL ∉ sg ++ '0' :: x :: (H ++ (['.'] ++ (Fr ++ ex))) := by
      rw [hs]
      intro hm
      simp only [List.mem_append, List.mem_cons] at hm
      rcases hm with (hm | hm | hm | hm) | hm | hm | hm
      · exact (isSign_ne sg hsg NUL hm).2 rfl
      · exact absurd hm (by decide)
      · rcases hx with rfl | rfl <;> exact absurd hm (by decide)
      · exact (lisxdigit_ne NUL (hH NUL hm)).2 rfl
      · exact absurd hm (by decide)
      · exact (lisxdigit_ne NUL (hF NUL hm)).2 rfl
      · exact hexExponent_no_NUL ex hex hm
    have hstrlen := strlen_eq_length _ hnul
    have hchr : strchr_dot (sg ++ '0' :: x :: (H ++ (['.'] ++ (Fr ++ ex)))) =
        some (sg ++ '0' :: x :: H).length := by
      rw [hs]; exact strchr_dot_append _ _ hpre
    have hnl : ¬ (sg ++ '0' :: x :: (H ++ (['.'] ++ (Fr ++ ex)))).length > L_MAXLENNUM :=
      Nat.not_lt.mpr hshort
    have hbuff : ((sg ++ '0' :: x :: (H ++ (['.'] ++ (Fr ++ ex)))).take
          (sg ++ '0' :: x :: (H ++ (['.'] ++ (Fr ++ ex)))).length).set
          (sg ++ '0' :: x :: H).length P.decpoint =
        sg ++ '0' :: x :: (H ++ ([P.decpoint] ++ (Fr ++ ex))) := by
      rw [List.take_length, hs, set_append_cons]
      simp
    have hsecond := l_str2dloc_hex_float P hdp sg H [P.decpoint] Fr ex x hsg hx hH (Or.inr rfl)
      hF hex hdig
    simp only [hchr, hstrlen, if_neg hnl, hbuff, hsecond]
    exact ⟨(lua_strx2number P (sg ++ '0' :: x :: (H ++ ([P.decpoint] ++ (Fr ++ ex))))).1,
      by simp⟩

theorem hexFloatText_no_NUL (sg H dt Fr ex : List Char) (x : Char) (hsg : IsSign sg)
    (hx : x = 'x' ∨ x = 'X') (hH : ∀ c ∈ H, lisxdigit c = true) (hdt : dt = [] ∨ dt = ['.'])
    (hF : ∀ c ∈ Fr, lisxdigit c = true) (hex : IsHexExponent ex) :
    NUL ∉ sg ++ '0' :: x :: (H ++ (dt ++ (Fr ++ ex))) := by
  intro hm
  simp only [List.mem_append, List.mem_cons] at hm
  rcases hm with hm | hm | hm | hm | hm | hm | hm
  · exact (isSign_ne sg hsg NUL hm).2 rfl
  · exact absurd hm (by decide)
  · rcases hx with rfl | rfl <;> exact absurd hm (by decide)
  · exact (lisxdigit_ne NUL (hH NUL hm)).2 rfl
  · rcases hdt with rfl | rfl
    · simp at hm
    · simp only [List.mem_singleton] at hm; exact absurd hm (by decide)
  · exact (lisxdigit_ne NUL (hF NUL hm)).2 rfl
  · exact hexExponent_no_NUL ex hex hm

/-- C10, as stated, fails: the texts `0x` and `0x.` match the hexadecimal-float format
(both digit runs may be empty there) and `luaO_str2num` rejects them, returning 0 and
leaving `*o` unchanged. -/
theorem hex_float_format_without_digit_rejected :
    IsHexFloatText "0x".toList ∧
      luaO_str2num ratPlatform "0x".toList (nilobject Rat) = (0, nilobject Rat) ∧
      IsHexFloatText "0x.".toList ∧
      luaO_str2num ratPlatform "0x.".toList (nilobject Rat) = (0, nilobject Rat) := by
  refine ⟨⟨[], 'x', [], [], [], [], rfl, Or.inl rfl, Or.inl rfl, by simp, Or.inl rfl, by simp,
    Or.inl rfl⟩, by rfl, ⟨[], 'x', [], ['.'], [], [], rfl, Or.inl rfl, Or.inl rfl, by simp,
    Or.inr rfl, by simp, Or.inl rfl⟩, by rfl⟩

/-- C10, amended: every text of the hexadecimal-float format that has at least one
hexadecimal digit, before or after the point, is accepted by `luaO_str2num`: it returns
the nonzero size of the text and sets an integer- or float-tagged value.  This holds
when the locale's decimal point is `.`, and for another decimal point (no hexadecimal
digit, `p` or `P`) when the text has no `.` or is at most `L_MAXLENNUM` characters
long. -/
theorem luaO_str2num_accepts_hex_float {F : Type} (P : Platform F)
    (sg H dt Fr ex : List Char) (x : Char) (o : TValue F) (hdp : DecpointOk P.decpoint)
    (hsg : IsSign sg) (hx : x = 'x' ∨ x = 'X') (hH : ∀ c ∈ H, lisxdigit c = true)
    (hdt : dt = [] ∨ dt = ['.']) (hF : ∀ c ∈ Fr, lisxdigit c = true)
    (hex : IsHexExponent ex) (hdig : H ++ Fr ≠ [])
    (hloc : P.decpoint = '.' ∨ dt = [] ∨
      (sg ++ '0' :: x :: (H ++ dt ++ Fr ++ ex)).length ≤ L_MAXLENNUM) :
    IsHexFloatText (sg ++ '0' :: x :: (H ++ dt ++ Fr ++ ex)) ∧
      (luaO_str2num P (sg ++ '0' :: x :: (H ++ dt ++ Fr ++ ex)) o).1 =
        (sg ++ '0' :: x :: (H ++ dt ++ Fr ++ ex)).length + 1 ∧
      (luaO_str2num P (sg ++ '0' :: x :: (H ++ dt ++ Fr ++ ex)) o).1 ≠ 0 ∧
      (ttisinteger (luaO_str2num P (sg ++ '0' :: x :: (H ++ dt ++ Fr ++ ex)) o).2 = true ∨
        ttisfloat (luaO_str2num P (sg ++ '0' :: x :: (H ++ dt ++ Fr ++ ex)) o).2 = true) := by
  have hassoc : H ++ dt ++ Fr ++ ex = H ++ (dt ++ (Fr ++ ex)) := by simp
  refine ⟨⟨sg, x, H, dt, Fr, ex, rfl, hsg, hx, hH, hdt, hF, hex⟩, ?_⟩
  rw [hassoc] at hloc ⊢
  have hnul := hexFloatText_no_NUL sg H dt Fr ex x hsg hx hH hdt hF hex
  have hres : (luaO_str2num P (sg ++ '0' :: x :: (H ++ (dt ++ (Fr ++ ex)))) o).1 =
        (sg ++ '0' :: x :: (H ++ (dt ++ (Fr ++ ex)))).length + 1 ∧
      (ttisinteger (luaO_str2num P (sg ++ '0' :: x :: (H ++ (dt ++ (Fr ++ ex)))) o).2 = true ∨
        ttisfloat (luaO_str2num P (sg ++ '0' :: x :: (H ++ (dt ++ (Fr ++ ex)))) o).2 = true) := by
    cases hi : l_str2int (sg ++ '0' :: x :: (H ++ (dt ++ (Fr ++ ex)))) with
    | some r =>
      obtain ⟨v, e⟩ := r
      obtain ⟨pre, hs, hpe, _⟩ := l_str2int_some_chars _ v e hi
      have he : e = [] := by
        apply mem_NUL_of_peek e hpe
        intro hm
        exact hnul (hs ▸ List.mem_append_right _ hm)
      rw [luaO_str2num_of_int P _ o v e hi, he, ptrdiff_nil]
      exact ⟨rfl, Or.inl rfl⟩
    | none =>
      obtain ⟨n, hn⟩ := l_str2d_hex_float P hdp sg H dt Fr ex x hsg hx hH hdt hF hex hdig hloc
      unfold luaO_str2num
      rw [hi, hn]
      exact ⟨rfl, Or.inr rfl⟩
  refine ⟨hres.1, ?_, hres.2⟩
  rw [hres.1]
  exact Nat.succ_ne_zero _

theorem luaO_str2num_accepts_hex_float_witness :
    (luaO_str2num ratPlatform (['-'] ++ '0' :: 'x' :: ("1".toList ++ ['.'] ++ "8".toList ++
        "p+1".toList)) (nilobject Rat)).1 =
      (['-'] ++ '0' :: 'x' :: ("1".toList ++ ['.'] ++ "8".toList ++ "p+1".toList)).length + 1 :=
  (luaO_str2num_accepts_hex_float ratPlatform ['-'] "1".toList ['.'] "8".toList "p+1".toList 'x'
    (nilobject Rat) (by unfold DecpointOk; decide) (Or.inr (Or.inr rfl)) (Or.inl rfl)
    (by decide) (Or.inr rfl) (by decide)
    (Or.inr ⟨'p', ['+'], ['1'], rfl, Or.inl rfl, Or.inr (Or.inl rfl), by decide, by decide⟩)
    (by decide) (Or.inl rfl)).2.1

/-! ## `luaO_ceillog2` -/

set_option maxRecDepth 100000 in
theorem log_2_spec : ∀ y, y < 256 →
    y < 2 ^ log_2.getD y 0 ∧ (0 < log_2.getD y 0 → 2 ^ (log_2.getD y 0 - 1) ≤ y) := by
  decide

theorem ceillog2Loop_spec : ∀ (x l : Nat),
    l ≤ ceillog2Loop l x ∧ x < 2 ^ (ceillog2Loop l x - l) ∧
      (0 < ceillog2Loop l x - l → 2 ^ (ceillog2Loop l x - l - 1) ≤ x) := by
  intro x
  induction x using Nat.strong_induction_on with
  | _ x ih =>
    intro l
    rw [ceillog2Loop]
    split
    · rename_i h
      have hy : x >>> 8 = x / 2 ^ 8 := Nat.shiftRight_eq_div_pow x 8
      have hlt : x / 2 ^ 8 < x := Nat.div_lt_self (by omega) (by norm_num)
      rw [hy]
      obtain ⟨h1, h2, h3⟩ := ih (x / 2 ^ 8) hlt (l + 8)
      generalize ceillog2Loop (l + 8) (x / 2 ^ 8) = e at h1 h2 h3
      obtain ⟨k, rfl⟩ : ∃ k, e = l + 8 + k := ⟨e - (l + 8), by omega⟩
      have e1 : l + 8 + k - (l + 8) = k := by omega
      have e2 : l + 8 + k - l = k + 8 := by omega
      rw [e1] at h2 h3
      rw [e2]
      refine ⟨by omega, ?_, ?_⟩
      · rw [pow_add]
        exact (Nat.div_lt_iff_lt_mul (show 0 < 2 ^ 8 by norm_num)).mp h2
      · intro _
        rcases Nat.eq_zero_or_pos k with hk | hk
        · subst hk
          norm_num
          omega
        · have h3' := h3 hk
          have : k + 8 - 1 = (k - 1) + 8 := by omega
          rw [this, pow_add]
          exact (Nat.le_div_iff_mul_le (show 0 < 2 ^ 8 by norm_num)).mp h3'
    · rename_i h
      have hx : x < 256 := by omega
      obtain ⟨t1, t2⟩ := log_2_spec x hx
      have e1 : l + log_2.getD x 0 - l = log_2.getD x 0 := by omega
      rw [e1]
      exact ⟨by omega, t1, t2⟩

theorem luaO_ceillog2_spec (x : Nat) (h1 : 1 ≤ x) (h2 : x < 2 ^ 32) :
    x ≤ 2 ^ luaO_ceillog2 x ∧ (0 < luaO_ceillog2 x → 2 ^ (luaO_ceillog2 x - 1) < x) := by
  have hx : (x + 2 ^ 32 - 1) % 2 ^ 32 = x - 1 := by
    have : x + 2 ^ 32 - 1 = (x - 1) + 2 ^ 32 := by omega
    rw [this, Nat.add_mod_right]
    exact Nat.mod_eq_of_lt (by omega)
  obtain ⟨_, a2, a3⟩ := ceillog2Loop_spec (x - 1) 0
  unfold luaO_ceillog2
  rw [hx]
  simp only [Nat.sub_zero] at a2 a3
  refine ⟨by omega, fun h => ?_⟩
  have := a3 h
  omega

theorem pow_two_le_unique (x e e1 : Nat) (h2 : 0 < e → 2 ^ (e - 1) < x)
    (h3 : x ≤ 2 ^ e1) : e ≤ e1 := by
  by_contra hlt
  have he : 0 < e := by omega
  have hle : e1 ≤ e - 1 := by omega
  have := Nat.pow_le_pow_right (show 0 < 2 by norm_num) hle
  have := h2 he
  omega

theorem luaO_ceillog2_eq (x e : Nat) (h1 : 1 ≤ x) (h2 : x < 2 ^ 32) (h3 : x ≤ 2 ^ e)
    (h4 : 0 < e → 2 ^ (e - 1) < x) : luaO_ceillog2 x = e := by
  obtain ⟨a1, a2⟩ := luaO_ceillog2_spec x h1 h2
  exact le_antisymm (pow_two_le_unique x _ e a2 h3) (pow_two_le_unique x e _ h4 a1)

/-- C12: for every unsigned 32-bit `x ≥ 1`, `luaO_ceillog2 x` is the smallest `e` with
`2^e ≥ x` (so `2^(e-1) < x` when `e > 0`); `luaO_ceillog2 1 = 0`, `luaO_ceillog2 256 = 8`,
`luaO_ceillog2 257 = 9`, and `luaO_ceillog2 (2^k) = k` for every `k ≤ 31`. -/
theorem luaO_ceillog2_smallest (x : Nat) (h1 : 1 ≤ x) (h2 : x < 2 ^ 32) :
    x ≤ 2 ^ luaO_ceillog2 x ∧ (∀ e : Nat, x ≤ 2 ^ e → luaO_ceillog2 x ≤ e) ∧
      (0 < luaO_ceillog2 x → 2 ^ (luaO_ceillog2 x - 1) < x) ∧
      luaO_ceillog2 1 = 0 ∧ luaO_ceillog2 256 = 8 ∧ luaO_ceillog2 257 = 9 ∧
      (∀ k : Nat, k ≤ 31 → luaO_ceillog2 (2 ^ k) = k) := by
  obtain ⟨a1, a2⟩ := luaO_ceillog2_spec x h1 h2
  refine ⟨a1, fun e he => pow_two_le_unique x _ e a2 he, a2, ?_, ?_, ?_, ?_⟩
  · exact luaO_ceillog2_eq 1 0 (by norm_num) (by norm_num) (by norm_num) (by norm_num)
  · exact luaO_ceillog2_eq 256 8 (by norm_num) (by norm_num) (by norm_num) (by norm_num)
  · exact luaO_ceillog2_eq 257 9 (by norm_num) (by norm_num) (by norm_num) (by norm_num)
  · intro k hk
    have hlt : 2 ^ k < 2 ^ 32 := Nat.pow_lt_pow_right (by norm_num) (by omega)
    refine luaO_ceillog2_eq (2 ^ k) k (Nat.pow_pos (by norm_num)) hlt (le_refl _) (fun h => ?_)
    exact Nat.pow_lt_pow_right (by norm_num) (by omega)

theorem luaO_ceillog2_smallest_witness :
    1000 ≤ 2 ^ luaO_ceillog2 1000 ∧ (∀ e : Nat, 1000 ≤ 2 ^ e → luaO_ceillog2 1000 ≤ e) :=
  ⟨(luaO_ceillog2_smallest 1000 (by norm_num) (by norm_num)).1,
    (luaO_ceillog2_smallest 1000 (by norm_num) (by norm_num)).2.1⟩

/-! ## `luaO_int2fb`, `luaO_fb2int` -/

theorem ceilDivPow_zero (x : Nat) : ceilDivPow x 0 = x := by
  simp [ceilDivPow]

theorem ceilDivPow_add (x a b : Nat) : ceilDivPow (ceilDivPow x a) b = ceilDivPow x (a + b) := by
  unfold ceilDivPow
  have ha : 0 < 2 ^ a := Nat.pow_pos (by norm_num)
  have hb : 0 < 2 ^ b := Nat.pow_pos (by norm_num)
  have h1 : (x + 2 ^ a - 1) / 2 ^ a + 2 ^ b - 1 = (x + 2 ^ a - 1 + (2 ^ b - 1) * 2 ^ a) / 2 ^ a := by
    rw [Nat.add_mul_div_right _ _ ha]
    exact Nat.add_sub_assoc hb _
  rw [h1, Nat.div_div_eq_div_mul, pow_add]
  congr 1
  have : (2 ^ b - 1) * 2 ^ a = 2 ^ a * 2 ^ b - 2 ^ a := by
    rw [Nat.sub_mul, Nat.one_mul, Nat.mul_comm]
  have h3 : 2 ^ a ≤ 2 ^ a * 2 ^ b := Nat.le_mul_of_pos_right _ hb
  omega

theorem ceilDivPow_mul_ge (x k : Nat) : x ≤ ceilDivPow x k * 2 ^ k := by
  unfold ceilDivPow
  have hk : 0 < 2 ^ k := Nat.pow_pos (by norm_num)
  have := Nat.div_add_mod (x + 2 ^ k - 1) (2 ^ k)
  have := Nat.mod_lt (x + 2 ^ k - 1) hk
  rw [Nat.mul_comm]
  omega

theorem ceilDivPow_le_of_le_mul (x k m : Nat) (h : x ≤ m * 2 ^ k) : ceilDivPow x k ≤ m := by
  unfold ceilDivPow
  have hk : 0 < 2 ^ k := Nat.pow_pos (by norm_num)
  apply Nat.le_of_lt_succ
  rw [Nat.div_lt_iff_lt_mul hk, Nat.succ_mul]
  omega

theorem lt_of_ceilDivPow_ge (x k m : Nat) (h : m + 1 ≤ ceilDivPow x k) : m * 2 ^ k < x := by
  by_contra hc
  have := ceilDivPow_le_of_le_mul x k m (by omega)
  omega

theorem ceilDivPow_mul (m j k : Nat) : ceilDivPow (m * 2 ^ (j + k)) k = m * 2 ^ j := by
  unfold ceilDivPow
  have hk : 0 < 2 ^ k := Nat.pow_pos (by norm_num)
  have : m * 2 ^ (j + k) + 2 ^ k - 1 = (2 ^ k - 1) + (m * 2 ^ j) * 2 ^ k := by
    rw [pow_add, Nat.mul_assoc]
    omega
  rw [this, Nat.add_mul_div_right _ _ hk, Nat.div_eq_of_lt (by omega)]
  omega

theorem int2fbCoarse_spec (x0 : Nat) : ∀ (x e : Nat), x + 15 < 2 ^ 32 → FbInv x0 x e →
    FbInv x0 (int2fbCoarse x e).1 (int2fbCoarse x e).2 ∧ (int2fbCoarse x e).1 < 128 := by
  intro x
  induction x using Nat.strong_induction_on with
  | _ x ih =>
    intro e hx hinv
    rw [int2fbCoarse]
    have h1 : 8 <<< 4 = 128 := by decide
    simp only [h1]
    split
    · rename_i h
      have hmod : (x + 15) % 2 ^ 32 = x + 15 := Nat.mod_eq_of_lt hx
      have hsh : (x + 15) >>> 4 = ceilDivPow x 4 := by
        rw [Nat.shiftRight_eq_div_pow]
        rfl
      have hval : ceilDivPow x 4 = (x + 15) / 16 := rfl
      have hval3 : ceilDivPow x 3 = (x + 7) / 8 := rfl
      rw [hmod, hsh]
      have h32 : (2 : Nat) ^ 32 = 4294967296 := by norm_num
      apply ih
      · rw [hval]; omega
      · rw [hval, h32]; rw [h32] at hx; omega
      · obtain ⟨a1, a2, _⟩ := hinv
        refine ⟨?_, ?_, Or.inr ?_⟩
        · rw [a1, ceilDivPow_add]
        · rw [hval]; omega
        · have : e + 4 - 1 = e + 3 := by omega
          rw [this, ← ceilDivPow_add, ← a1, hval3]
          omega
    · rename_i h
      exact ⟨hinv, by omega⟩

theorem int2fbFine_spec (x0 : Nat) : ∀ (x e : Nat), x + 1 < 2 ^ 32 → FbInv x0 x e →
    FbInv x0 (int2fbFine x e).1 (int2fbFine x e).2 ∧ (int2fbFine x e).1 < 16 := by
  intro x
  induction x using Nat.strong_induction_on with
  | _ x ih =>
    intro e hx hinv
    rw [int2fbFine]
    have h1 : 8 <<< 1 = 16 := by decide
    simp only [h1]
    split
    · rename_i h
      have hmod : (x + 1) % 2 ^ 32 = x + 1 := Nat.mod_eq_of_lt hx
      have hsh : (x + 1) >>> 1 = ceilDivPow x 1 := by
        rw [Nat.shiftRight_eq_div_pow]
        rfl
      have hval : ceilDivPow x 1 = (x + 1) / 2 := rfl
      rw [hmod, hsh]
      have h32 : (2 : Nat) ^ 32 = 4294967296 := by norm_num
      apply ih
      · rw [hval]; omega
      · rw [hval, h32]; rw [h32] at hx; omega
      · obtain ⟨a1, a2, _⟩ := hinv
        refine ⟨?_, ?_, Or.inr ?_⟩
        · rw [a1, ceilDivPow_add]
        · rw [hval]; omega
        · have : e + 1 - 1 = e := by omega
          rw [this, ← a1]
          exact h
    · rename_i h
      exact ⟨hinv, by omega⟩

theorem luaO_int2fb_spec (x0 : Nat) (h8 : 8 ≤ x0) (hr : x0 + 15 < 2 ^ 32) :
    ∃ m e, luaO_int2fb x0 = (((e + 1) * 8 + (m - 8) : Nat) : Int) ∧ FbInv x0 m e ∧ m ≤ 15 := by
  have hinv0 : FbInv x0 x0 0 := ⟨(ceilDivPow_zero x0).symm, h8, Or.inl rfl⟩
  obtain ⟨c1, c2⟩ := int2fbCoarse_spec x0 x0 0 hr hinv0
  have h32 : (2 : Nat) ^ 32 = 4294967296 := by norm_num
  obtain ⟨f1, f2⟩ := int2fbFine_spec x0 _ _ (by rw [h32]; omega) c1
  refine ⟨(int2fbFine (int2fbCoarse x0 0).1 (int2fbCoarse x0 0).2).1,
    (int2fbFine (int2fbCoarse x0 0).1 (int2fbCoarse x0 0).2).2, ?_, f1, by omega⟩
  unfold luaO_int2fb
  rw [if_neg (by omega)]
  simp only
  generalize (int2fbFine (int2fbCoarse x0 0).1 (int2fbCoarse x0 0).2).1 = m at f1 f2
  generalize (int2fbFine (int2fbCoarse x0 0).1 (int2fbCoarse x0 0).2).2 = e at f1
  have hm : 8 ≤ m := f1.2.1
  have hsub : (m : Int) - 8 = ((m - 8 : Nat) : Int) := by omega
  rw [hsub]
  show (((e + 1) <<< 3 ||| (m - 8) : Nat) : Int) = _
  congr 1
  rw [Nat.shiftLeft_eq]
  have : (e + 1) * 2 ^ 3 = 2 ^ 3 * (e + 1) := Nat.mul_comm _ _
  rw [this, ← Nat.mul_add_lt_is_or (by norm_num; omega)]
  omega

theorem luaO_fb2int_byte (b : Nat) (h : 8 ≤ b) :
    luaO_fb2int (b : Int) = (((b % 8 + 8) * 2 ^ (b / 8 - 1) : Nat) : Int) := by
  unfold luaO_fb2int
  rw [if_neg (by omega)]
  congr 1
  have h7 : b &&& 7 = b % 8 := Nat.and_pow_two_sub_one_eq_mod b 3
  rw [Int.toNat_natCast, h7, Nat.shiftLeft_eq, Nat.shiftRight_eq_div_pow]

theorem luaO_fb2int_encode (m e : Nat) (h1 : 8 ≤ m) (h2 : m ≤ 15) :
    luaO_fb2int (((e + 1) * 8 + (m - 8) : Nat) : Int) = ((m * 2 ^ e : Nat) : Int) := by
  rw [luaO_fb2int_byte _ (by omega)]
  congr 2
  · omega
  · congr 1
    omega

theorem luaO_int2fb_small (x : Nat) (h : x < 8) : luaO_int2fb x = (x : Int) := by
  unfold luaO_int2fb
  rw [if_pos h]

theorem luaO_fb2int_small (x : Nat) (h : x < 8) : luaO_fb2int (x : Int) = (x : Int) := by
  unfold luaO_fb2int
  rw [if_pos (by omega)]

theorem fbInv_exp_le (x m e : Nat) (hinv : FbInv x m e) (hx : x ≤ 15 * 2 ^ 27) : e ≤ 27 := by
  by_contra hc
  rcases hinv.2.2 with h0 | h16
  · omega
  · have h1 := lt_of_ceilDivPow_ge x (e - 1) 15 h16
    have h2 : 2 ^ 27 ≤ 2 ^ (e - 1) := Nat.pow_le_pow_right (by norm_num) (by omega)
    omega

/-- The round trip of `luaO_int2fb` and `luaO_fb2int` on `x ≥ 8`: the mantissa and
exponent found, and the decoded value. -/
theorem fb_round_trip_value (x : Nat) (h8 : 8 ≤ x) (hx : x ≤ 15 * 2 ^ 27) :
    ∃ m e, FbInv x m e ∧ m ≤ 15 ∧ e ≤ 27 ∧
      luaO_int2fb x = (((e + 1) * 8 + (m - 8) : Nat) : Int) ∧
      luaO_fb2int (luaO_int2fb x) = ((m * 2 ^ e : Nat) : Int) := by
  have h32 : (2 : Nat) ^ 32 = 4294967296 := by norm_num
  obtain ⟨m, e, h1, h2, h3⟩ := luaO_int2fb_spec x h8 (by rw [h32]; omega)
  refine ⟨m, e, h2, h3, fbInv_exp_le x m e h2 hx, h1, ?_⟩
  rw [h1, luaO_fb2int_encode m e h2.2.1 h3]

theorem fb_round_trip_ge (x : Nat) (hx : x ≤ 15 * 2 ^ 27) :
    (x : Int) ≤ luaO_fb2int (luaO_int2fb x) := by
  by_cases h8 : x < 8
  · rw [luaO_int2fb_small x h8, luaO_fb2int_small x h8]
  · obtain ⟨m, e, hinv, _, _, _, hv⟩ := fb_round_trip_value x (by omega) hx
    rw [hv, hinv.1]
    exact_mod_cast ceilDivPow_mul_ge x e

theorem fb_round_trip_isFbValue (x : Nat) (hx : x ≤ 15 * 2 ^ 27) :
    IsFbValue (luaO_fb2int (luaO_int2fb x)) := by
  by_cases h8 : x < 8
  · exact ⟨x, by omega, by rw [luaO_int2fb_small x h8]⟩
  · obtain ⟨m, e, hinv, hm, he, hb, _⟩ := fb_round_trip_value x (by omega) hx
    refine ⟨(e + 1) * 8 + (m - 8), ?_, by rw [hb]⟩
    have := hinv.2.1
    omega

theorem fb_round_trip_least (x : Nat) (hx : x ≤ 15 * 2 ^ 27) (v : Int) (hv : IsFbValue v)
    (hxv : (x : Int) ≤ v) : luaO_fb2int (luaO_int2fb x) ≤ v := by
  by_cases h8 : x < 8
  · rw [luaO_int2fb_small x h8, luaO_fb2int_small x h8]
    exact hxv
  · obtain ⟨m, e, hinv, hm, _, _, hr⟩ := fb_round_trip_value x (by omega) hx
    obtain ⟨b, _, hb⟩ := hv
    by_cases hb8 : b < 8
    · rw [luaO_fb2int_small b hb8] at hb
      omega
    · rw [luaO_fb2int_byte b (by omega)] at hb
      rw [hr, ← hb]
      rw [← hb] at hxv
      have hxv' : x ≤ (b % 8 + 8) * 2 ^ (b / 8 - 1) := by exact_mod_cast hxv
      have hgoal : m * 2 ^ e ≤ (b % 8 + 8) * 2 ^ (b / 8 - 1) := by
        by_cases hek : e ≤ b / 8 - 1
        · obtain ⟨j, hj⟩ : ∃ j, b / 8 - 1 = j + e := ⟨b / 8 - 1 - e, by omega⟩
          rw [hj, pow_add, ← Nat.mul_assoc] at hxv' ⊢
          have := ceilDivPow_le_of_le_mul x e _ hxv'
          rw [← hinv.1] at this
          exact Nat.mul_le_mul_right _ this
        · exfalso
          rcases hinv.2.2 with h0 | h16
          · omega
          · have h1 := lt_of_ceilDivPow_ge x (e - 1) 15 h16
            have h2 : 2 ^ (b / 8 - 1) ≤ 2 ^ (e - 1) :=
              Nat.pow_le_pow_right (by norm_num) (by omega)
            have h3 : (b % 8 + 8) * 2 ^ (b / 8 - 1) ≤ 15 * 2 ^ (e - 1) :=
              Nat.mul_le_mul (by omega) h2
            omega
      exact_mod_cast hgoal

theorem luaO_int2fb_fb2int (b : Nat) (hb : b ≤ 231) :
    luaO_int2fb (luaO_fb2int (b : Int)).toNat = (b : Int) := by
  by_cases hb8 : b < 8
  · rw [luaO_fb2int_small b hb8, Int.toNat_natCast, luaO_int2fb_small b hb8]
  · rw [luaO_fb2int_byte b (by omega), Int.toNat_natCast]
    have hk : b / 8 - 1 ≤ 27 := by omega
    have hpow : 2 ^ (b / 8 - 1) ≤ 2 ^ 27 := Nat.pow_le_pow_right (by norm_num) hk
    have hpos : 1 ≤ 2 ^ (b / 8 - 1) := Nat.pow_pos (by norm_num)
    have hx : (b % 8 + 8) * 2 ^ (b / 8 - 1) ≤ 15 * 2 ^ 27 := Nat.mul_le_mul (by omega) hpow
    have h8 : 8 ≤ (b % 8 + 8) * 2 ^ (b / 8 - 1) :=
      le_trans (by omega) (Nat.mul_le_mul (show 8 ≤ b % 8 + 8 by omega) hpos)
    obtain ⟨m, e, hinv, hm, _, hres, _⟩ := fb_round_trip_value _ h8 hx
    rw [hres]
    have hek : e = b / 8 - 1 := by
      rcases Nat.lt_trichotomy e (b / 8 - 1) with hlt | heq | hgt
      · exfalso
        obtain ⟨j, hj⟩ : ∃ j, b / 8 - 1 = (j + 1) + e := ⟨b / 8 - 1 - e - 1, by omega⟩
        have h1 := hinv.1
        rw [hj, ceilDivPow_mul] at h1
        have : 2 ≤ 2 ^ (j + 1) := by
          rw [pow_succ]
          have : 1 ≤ 2 ^ j := Nat.pow_pos (by norm_num)
          omega
        have : (b % 8 + 8) * 2 ≤ (b % 8 + 8) * 2 ^ (j + 1) := Nat.mul_le_mul_left _ this
        omega
      · exact heq
      · exfalso
        rcases hinv.2.2 with h0 | h16
        · omega
        · have h2 : 2 ^ (b / 8 - 1) ≤ 2 ^ (e - 1) :=
            Nat.pow_le_pow_right (by norm_num) (by omega)
          have := ceilDivPow_le_of_le_mul ((b % 8 + 8) * 2 ^ (b / 8 - 1)) (e - 1) (b % 8 + 8)
            (Nat.mul_le_mul_left _ h2)
          omega
    have hmk : m = b % 8 + 8 := by
      have h1 := hinv.1
      rw [hek] at h1
      have := ceilDivPow_mul (b % 8 + 8) 0 (b / 8 - 1)
      simp only [Nat.zero_add, pow_zero, Nat.mul_one] at this
      rw [this] at h1
      exact h1
    rw [hek, hmk]
    congr 1
    omega

/-- C13, as stated, fails: the round trip of 17 gives 18, which is above 17, although
17 has five significant bits and the value 16 below it is representable. -/
theorem fb_round_trip_17_rounds_up :
    luaO_int2fb 17 = 17 ∧ luaO_fb2int (luaO_int2fb 17) = 18 ∧
      ¬ (luaO_fb2int (luaO_int2fb 17) ≤ 17) ∧ luaO_fb2int 16 = 16 := by
  have h : luaO_int2fb 17 = 17 := by
    simp [luaO_int2fb, int2fbCoarse, int2fbFine]
    decide
  rw [h]
  decide

/-- C13, amended: for every `x` with `0 ≤ x ≤ 15 * 2^27`, `luaO_fb2int (luaO_int2fb x)` is
the nearest value greater than or equal to `x` that is representable in the one-byte
encoding (the least such value); the round trip is exact exactly when `x` itself is
representable, in particular for every `x < 16`. -/
theorem fb_round_trip_rounds_up (x : Nat) (hx : x ≤ 15 * 2 ^ 27) :
    IsFbValue (luaO_fb2int (luaO_int2fb x)) ∧
      (x : Int) ≤ luaO_fb2int (luaO_int2fb x) ∧
      (∀ v : Int, IsFbValue v → (x : Int) ≤ v → luaO_fb2int (luaO_int2fb x) ≤ v) ∧
      (luaO_fb2int (luaO_int2fb x) = (x : Int) ↔ IsFbValue (x : Int)) ∧
      (x < 16 → luaO_fb2int (luaO_int2fb x) = (x : Int)) := by
  have hge := fb_round_trip_ge x hx
  have hfb := fb_round_trip_isFbValue x hx
  have hleast := fb_round_trip_least x hx
  have hiff : luaO_fb2int (luaO_int2fb x) = (x : Int) ↔ IsFbValue (x : Int) := by
    constructor
    · intro h; rw [← h]; exact hfb
    · intro h
      exact le_antisymm (hleast _ h (le_refl _)) hge
  refine ⟨hfb, hge, hleast, hiff, fun h16 => ?_⟩
  apply hiff.mpr
  by_cases h8 : x < 8
  · exact ⟨x, by omega, luaO_fb2int_small x h8⟩
  · refine ⟨x, by omega, ?_⟩
    rw [luaO_fb2int_byte x (by omega)]
    have h1 : x / 8 - 1 = 0 := by omega
    rw [h1]
    congr 1
    omega

theorem fb_round_trip_rounds_up_witness :
    (1000 : Int) ≤ luaO_fb2int (luaO_int2fb 1000) :=
  (fb_round_trip_rounds_up 1000 (by norm_num)).2.1

/-- C14: the one-byte encoding has an exact inverse on encoded bytes: for every byte
`b` with `0 ≤ b ≤ 231`, `luaO_int2fb (luaO_fb2int b) = b`, where `luaO_fb2int b` is `b`
itself when `b < 8` and `(8 + (b & 7)) * 2^((b >> 3) - 1)` otherwise. -/
theorem fb_encode_decode_inverse (b : Nat) (hb : b ≤ 231) :
    luaO_int2fb (luaO_fb2int (b : Int)).toNat = (b : Int) ∧
      (b < 8 → luaO_fb2int (b : Int) = (b : Int)) ∧
      (8 ≤ b → luaO_fb2int (b : Int) = (((8 + (b &&& 7)) * 2 ^ ((b >>> 3) - 1) : Nat) : Int)) := by
  refine ⟨luaO_int2fb_fb2int b hb, luaO_fb2int_small b, fun h8 => ?_⟩
  rw [luaO_fb2int_byte b h8]
  have h7 : b &&& 7 = b % 8 := Nat.and_pow_two_sub_one_eq_mod b 3
  rw [h7, Nat.shiftRight_eq_div_pow, Nat.add_comm]

theorem fb_encode_decode_inverse_witness :
    luaO_int2fb (luaO_fb2int ((231 : Nat) : Int)).toNat = ((231 : Nat) : Int) :=
  (fb_encode_decode_inverse 231 (by norm_num)).1

/-! ## `luaO_utf8esc` -/

theorem utf8_cont_byte (x : Nat) : (0x80 ||| (x &&& 0x3f)) % 256 = 128 + x % 64 := by
  have h1 : x &&& 0x3f = x % 64 := Nat.and_pow_two_sub_one_eq_mod x 6
  have h2 : x % 64 < 2 ^ 7 := by
    have := Nat.mod_lt x (show 0 < 64 by norm_num)
    norm_num
    omega
  have h3 := Nat.mul_add_lt_is_or h2 1
  rw [h1]
  have h4 : (0x80 : Nat) = 2 ^ 7 * 1 := by norm_num
  rw [h4, ← h3]
  have := Nat.mod_lt x (show 0 < 64 by norm_num)
  norm_num
  omega

theorem utf8escLoop_eq (buff : List Nat) (x mfb n : Nat) :
    utf8escLoop buff x mfb n =
      if x / 64 > mfb / 2 then
        utf8escLoop (buff.set (8 - n) (128 + x % 64)) (x / 64) (mfb / 2) (n + 1)
      else (buff.set (8 - n) (128 + x % 64), x / 64, mfb / 2, n + 1) := by
  rw [utf8escLoop]
  simp only [utf8_cont_byte, Nat.shiftRight_eq_div_pow, UTF8BUFFSZ]
  norm_num

theorem utf8_first_byte (mfb x k : Nat) (hk : 1 ≤ k) (hk5 : k ≤ 5) (hm : mfb = 2 ^ k - 1)
    (hx : x ≤ mfb) :
    utf8FirstByte mfb x = 256 - 2 ^ (k + 1) + x := by
  unfold utf8FirstByte
  subst hm
  have hk' : k = 1 ∨ k = 2 ∨ k = 3 ∨ k = 4 ∨ k = 5 := by omega
  rcases hk' with rfl | rfl | rfl | rfl | rfl
  · have e : (((2 ^ 32 - 1 - (2 ^ 1 - 1)) <<< 1) % 2 ^ 32) = 2 ^ 2 * 1073741823 := by decide
    rw [e, ← Nat.mul_add_lt_is_or (by norm_num at hx ⊢; omega)]
    norm_num at hx ⊢
    omega
  · have e : (((2 ^ 32 - 1 - (2 ^ 2 - 1)) <<< 1) % 2 ^ 32) = 2 ^ 3 * 536870911 := by decide
    rw [e, ← Nat.mul_add_lt_is_or (by norm_num at hx ⊢; omega)]
    norm_num at hx ⊢
    omega
  · have e : (((2 ^ 32 - 1 - (2 ^ 3 - 1)) <<< 1) % 2 ^ 32) = 2 ^ 4 * 268435455 := by decide
    rw [e, ← Nat.mul_add_lt_is_or (by norm_num at hx ⊢; omega)]
    norm_num at hx ⊢
    omega
  · have e : (((2 ^ 32 - 1 - (2 ^ 4 - 1)) <<< 1) % 2 ^ 32) = 2 ^ 5 * 134217727 := by decide
    rw [e, ← Nat.mul_add_lt_is_or (by norm_num at hx ⊢; omega)]
    norm_num at hx ⊢
    omega
  · have e : (((2 ^ 32 - 1 - (2 ^ 5 - 1)) <<< 1) % 2 ^ 32) = 2 ^ 6 * 67108863 := by decide
    rw [e, ← Nat.mul_add_lt_is_or (by norm_num at hx ⊢; omega)]
    norm_num at hx ⊢
    omega

theorem list_length_eight (l : List Nat) (h : l.length = 8) :
    ∃ a0 a1 a2 a3 a4 a5 a6 a7, l = [a0, a1, a2, a3, a4, a5, a6, a7] := by
  match l, h with
  | [a0, a1, a2, a3, a4, a5, a6, a7], _ => exact ⟨a0, a1, a2, a3, a4, a5, a6, a7, rfl⟩

theorem utf8escLoop_two (buff : List Nat) (x : Nat) (h : x < 0x800) :
    utf8escLoop buff x 0x3f 1 = (buff.set 7 (128 + x % 64), x / 64, 31, 2) := by
  rw [utf8escLoop_eq, if_neg (by omega)]

theorem utf8escLoop_three (buff : List Nat) (x : Nat) (h1 : 0x800 ≤ x) (h2 : x < 0x10000) :
    utf8escLoop buff x 0x3f 1 =
      ((buff.set 7 (128 + x % 64)).set 6 (128 + x / 64 % 64), x / 4096, 15, 3) := by
  rw [utf8escLoop_eq, if_pos (by omega), utf8escLoop_eq, if_neg (by omega)]
  have : x / 64 / 64 = x / 4096 := by omega
  rw [this]

theorem utf8escLoop_four (buff : List Nat) (x : Nat) (h1 : 0x10000 ≤ x) (h2 : x ≤ 0x10FFFF) :
    utf8escLoop buff x 0x3f 1 =
      (((buff.set 7 (128 + x % 64)).set 6 (128 + x / 64 % 64)).set 5 (128 + x / 4096 % 64),
        x / 262144, 7, 4) := by
  rw [utf8escLoop_eq, if_pos (by omega), utf8escLoop_eq, if_pos (by omega), utf8escLoop_eq,
    if_neg (by omega)]
  have e1 : x / 64 / 64 = x / 4096 := by omega
  have e2 : x / 4096 / 64 = x / 262144 := by omega
  rw [e1, e2]

theorem luaO_utf8esc_eq (buff : List Nat) (x : Nat) (hb : buff.length = 8)
    (hx : x ≤ 0x10FFFF) :
    luaO_utf8esc buff x =
      ((utf8Encode x).length, buff.take (8 - (utf8Encode x).length) ++ utf8Encode x) := by
  obtain ⟨a0, a1, a2, a3, a4, a5, a6, a7, rfl⟩ := list_length_eight buff hb
  unfold luaO_utf8esc utf8Encode
  by_cases h1 : x < 0x80
  · rw [if_pos h1, if_pos h1]
    have : x % 256 = x := Nat.mod_eq_of_lt (by omega)
    rw [this]
    rfl
  · rw [if_neg h1, if_neg h1]
    by_cases h2 : x < 0x800
    · rw [if_pos h2, utf8escLoop_two _ x h2]
      have hf := utf8_first_byte 31 (x / 64) 5 (by norm_num) (by norm_num) (by norm_num)
        (by omega)
      simp only [hf]
      rfl
    · rw [if_neg h2]
      by_cases h3 : x < 0x10000
      · rw [if_pos h3, utf8escLoop_three _ x (by omega) h3]
        have hf := utf8_first_byte 15 (x / 4096) 4 (by norm_num) (by norm_num) (by norm_num)
          (by omega)
        simp only [hf]
        rfl
      · rw [if_neg h3, utf8escLoop_four _ x (by omega) hx]
        have hf := utf8_first_byte 7 (x / 262144) 3 (by norm_num) (by norm_num)
          (by norm_num) (by omega)
        simp only [hf]
        rfl

set_option maxRecDepth 10000 in
theorem utf8Decode_encode (x : Nat) (hx : x ≤ 0x10FFFF) : utf8Decode (utf8Encode x) = some x := by
  unfold utf8Encode
  by_cases h1 : x < 0x80
  · simp [h1, utf8Decode]
  · rw [if_neg h1]
    by_cases h2 : x < 0x800
    · rw [if_pos h2]
      simp only [utf8Decode, isUtf8Cont]
      rw [if_pos (by simp; omega)]
      congr 1
      omega
    · rw [if_neg h2]
      by_cases h3 : x < 0x10000
      · rw [if_pos h3]
        simp only [utf8Decode, isUtf8Cont]
        rw [if_pos (by simp; omega)]
        congr 1
        omega
      · rw [if_neg h3]
        simp only [utf8Decode, isUtf8Cont]
        rw [if_pos (by simp; omega)]
        congr 1
        omega

theorem utf8Encode_length (x : Nat) :
    (utf8Encode x).length =
      if x < 0x80 then 1 else if x < 0x800 then 2 else if x < 0x10000 then 3 else 4 := by
  unfold utf8Encode
  split
  · rfl
  · split
    · rfl
    · split <;> rfl

theorem utf8Encode_shape (x : Nat) (hx : x ≤ 0x10FFFF) (h80 : 0x80 ≤ x) :
    256 - 2 ^ (8 - (utf8Encode x).length) ≤ (utf8Encode x).headD 0 ∧
      (utf8Encode x).headD 0 < 256 - 2 ^ (7 - (utf8Encode x).length) ∧
      ∀ b ∈ (utf8Encode x).tail, isUtf8Cont b = true := by
  unfold utf8Encode
  rw [if_neg (by omega)]
  by_cases h2 : x < 0x800
  · rw [if_pos h2]
    simp only [List.length_cons, List.length_nil, List.headD_cons, List.tail_cons,
      List.mem_singleton, forall_eq, isUtf8Cont]
    refine ⟨by norm_num, by norm_num; omega, by simp; omega⟩
  · rw [if_neg h2]
    by_cases h3 : x < 0x10000
    · rw [if_pos h3]
      simp only [List.length_cons, List.length_nil, List.headD_cons, List.tail_cons,
        List.mem_cons, List.mem_singleton, List.not_mem_nil, or_false, isUtf8Cont]
      refine ⟨by norm_num, by norm_num; omega, ?_⟩
      rintro b (rfl | rfl) <;> simp <;> omega
    · rw [if_neg h3]
      simp only [List.length_cons, List.length_nil, List.headD_cons, List.tail_cons,
        List.mem_cons, List.mem_singleton, List.not_mem_nil, or_false, isUtf8Cont]
      refine ⟨by norm_num, by norm_num; omega, ?_⟩
      rintro b (rfl | rfl | rfl) <;> simp <;> omega

/-- C15: for every code point `x ≤ 0x10FFFF`, `luaO_utf8esc` returns a byte count `n`
(1 to 4, within the 6-byte limit) and writes into the last `n` positions of the 8-byte
buffer exactly the standard UTF-8 encoding of `x`, leaving the other positions as they
were: `n = 1` and the byte `x` for `x < 0x80`, `n = 2` for `x < 0x800`, `n = 3` for
`x < 0x10000`, `n = 4` otherwise, a leading byte of `n` one-bits and a zero bit, then
bytes `10xxxxxx`; decoding the `n` bytes as UTF-8 gives `x` back. -/
theorem luaO_utf8esc_standard (buff : List Nat) (x : Nat) (hb : buff.length = 8)
    (hx : x ≤ 0x10FFFF) :
    (1 ≤ (luaO_utf8esc buff x).1 ∧ (luaO_utf8esc buff x).1 ≤ 6) ∧
      (luaO_utf8esc buff x).1 =
        (if x < 0x80 then 1 else if x < 0x800 then 2 else if x < 0x10000 then 3 else 4) ∧
      (luaO_utf8esc buff x).2.length = 8 ∧
      (luaO_utf8esc buff x).2.drop (8 - (luaO_utf8esc buff x).1) = utf8Encode x ∧
      (luaO_utf8esc buff x).2.take (8 - (luaO_utf8esc buff x).1) =
        buff.take (8 - (luaO_utf8esc buff x).1) ∧
      utf8Decode ((luaO_utf8esc buff x).2.drop (8 - (luaO_utf8esc buff x).1)) = some x ∧
      (x < 0x80 → (luaO_utf8esc buff x).2.drop (8 - (luaO_utf8esc buff x).1) = [x]) ∧
      (0x80 ≤ x →
        256 - 2 ^ (8 - (luaO_utf8esc buff x).1) ≤ (utf8Encode x).headD 0 ∧
        (utf8Encode x).headD 0 < 256 - 2 ^ (7 - (luaO_utf8esc buff x).1) ∧
        ∀ b ∈ (utf8Encode x).tail, isUtf8Cont b = true) := by
  have heq := luaO_utf8esc_eq buff x hb hx
  have hlen := utf8Encode_length x
  have hn : (luaO_utf8esc buff x).1 = (utf8Encode x).length := by rw [heq]
  have hle : (utf8Encode x).length ≤ 4 ∧ 1 ≤ (utf8Encode x).length := by
    rw [hlen]; split
    · omega
    · split
      · omega
      · split <;> omega
  have htl : (buff.take (8 - (utf8Encode x).length)).length = 8 - (utf8Encode x).length := by
    rw [List.length_take, hb]; omega
  have hdrop : (luaO_utf8esc buff x).2.drop (8 - (luaO_utf8esc buff x).1) = utf8Encode x := by
    rw [hn, heq]
    simp only
    rw [List.drop_append_of_le_length (by rw [htl]), List.drop_of_length_le (by rw [htl])]
    rfl
  refine ⟨by rw [hn]; omega, by rw [hn, hlen], ?_, hdrop, ?_, ?_, ?_, ?_⟩
  · rw [heq]
    simp only [List.length_append, htl]
    omega
  · rw [hn, heq]
    simp only
    rw [List.take_append_of_le_length (by rw [htl]), List.take_of_length_le (by rw [htl])]
  · rw [hdrop]; exact utf8Decode_encode x hx
  · intro h
    rw [hdrop]
    unfold utf8Encode
    rw [if_pos h]
  · intro h
    rw [hn]
    exact utf8Encode_shape x hx h

theorem luaO_utf8esc_standard_witness :
    (luaO_utf8esc [0, 0, 0, 0, 0, 0, 0, 0] 0x20AC).2.drop
        (8 - (luaO_utf8esc [0, 0, 0, 0, 0, 0, 0, 0] 0x20AC).1) = utf8Encode 0x20AC :=
  (luaO_utf8esc_standard [0, 0, 0, 0, 0, 0, 0, 0] 0x20AC rfl (by norm_num)).2.2.2.1

/-! ## `luaO_tostring` -/

theorem mem_intChars_iff (c : Char) :
    c ∈ "-0123456789".toList ↔ (c = '-' ∨ lisdigit c = true) := by
  constructor
  · intro h
    have h' : c ∈ ['-', '0', '1', '2', '3', '4', '5', '6', '7', '8', '9'] := h
    simp only [List.mem_cons, List.mem_singleton, List.not_mem_nil, or_false] at h'
    rcases h' with h | h | h | h | h | h | h | h | h | h | h <;> rw [h] <;> decide
  · rintro (h | h)
    · rw [h]; decide
    · have hr := (lisdigit_iff c).mp h
      have hc : c = Char.ofNat c.toNat := (Char.ofNat_toNat c).symm
      rw [hc]
      generalize c.toNat = n at hr
      obtain ⟨h1, h2⟩ := hr
      interval_cases n <;> decide

theorem dropWhile_mem (p : Char → Bool) (l : List Char) (c : Char) (h : c ∈ l.dropWhile p) :
    c ∈ l := by
  rw [← List.takeWhile_append_dropWhile p l]
  exact List.mem_append_right _ h

theorem looksLikeInt_iff (buff : List Char) (hn : NUL ∉ buff) :
    looksLikeInt buff = true ↔ ∀ c ∈ buff, c ∈ "-0123456789".toList := by
  unfold looksLikeInt
  rw [beq_iff_eq]
  constructor
  · intro h
    have hnil : buff.dropWhile (fun c => c = '-' || lisdigit c) = [] := by
      apply mem_NUL_of_peek _ h
      intro hm
      exact hn (dropWhile_mem _ _ _ hm)
    intro c hc
    rw [mem_intChars_iff]
    have := (List.dropWhile_eq_nil_iff.mp hnil) c hc
    simpa using this
  · intro h
    have hnil : buff.dropWhile (fun c => c = '-' || lisdigit c) = [] := by
      rw [List.dropWhile_eq_nil_iff]
      intro c hc
      have := (mem_intChars_iff c).mp (h c hc)
      simpa using this
    rw [hnil]
    rfl

theorem luaO_tostring_float {F : Type} (P : Platform F) (o : TValue F) (x : F) :
    luaO_tostring P (setfltvalue o x) =
      if looksLikeInt (P.number2str x) = true then P.number2str x ++ [P.decpoint, '0']
      else P.number2str x := by
  unfold luaO_tostring
  have h : ttisinteger (setfltvalue o x) = false := rfl
  rw [h]
  rfl

theorem l_str2int_none_of_plain (buff : List Char) (hp : Number2StrPlain buff)
    (hl : looksLikeInt buff = false) : l_str2int buff = none := by
  obtain ⟨hn, hch, hplus⟩ := hp
  cases hi : l_str2int buff with
  | none => rfl
  | some r =>
    exfalso
    obtain ⟨v, e⟩ := r
    obtain ⟨ws1, sg, body, ws2, hs, hpe, h1, hsg, h2, hb⟩ := l_str2int_some_decomp buff v e hi
    have hmem : ∀ c, c ∈ ws1 ∨ c ∈ sg ∨ c ∈ body ∨ c ∈ ws2 → c ∈ buff := by
      intro c hc
      rw [hs]
      simp only [List.mem_append]
      tauto
    have hws1 : ws1 = [] := by
      cases ws1 with
      | nil => rfl
      | cons c cs =>
        have := (hch c (hmem c (Or.inl (List.mem_cons_self _ _)))).1
        rw [h1 c (List.mem_cons_self _ _)] at this
        exact absurd this (by simp)
    have hnot : ¬ (looksLikeInt buff = false) := by
      rw [Bool.not_eq_false, looksLikeInt_iff buff hn]
      intro c hc
      rw [mem_intChars_iff]
      rw [hs] at hc
      simp only [List.mem_append] at hc
      rcases hc with hc | hc | hc | hc | hc
      · rw [hws1] at hc; simp at hc
      · rcases hsg with rfl | rfl | rfl
        · simp at hc
        · exfalso
          apply hplus
          rw [hs, hws1]
          rfl
        · simp only [List.mem_singleton] at hc
          exact Or.inl hc
      · rcases hb with ⟨x, hs', rfl, hx, _, _⟩ | ⟨_, hd, _⟩
        · exfalso
          have := (hch x (hmem x (Or.inr (Or.inr (Or.inl (by simp)))))).2
          rcases hx with hx | hx
          · exact this.1 hx
          · exact this.2 hx
        · exact Or.inr (hd c hc)
      · exfalso
        have := (hch c (hmem c (Or.inr (Or.inr (Or.inr hc))))).1
        rw [h2 c hc] at this
        exact absurd this (by simp)
      · exfalso
        have : e = [] := by
          apply mem_NUL_of_peek e hpe
          intro hm
          apply hn
          rw [hs]
          simp [hm]
        rw [this] at hc
        simp at hc
    exact hnot hl

theorem l_str2int_none_of_decpoint (buff : List Char) (dp : Char) (hdp : DecpointMark dp)
    (hn : NUL ∉ buff) : l_str2int (buff ++ [dp, '0']) = none := by
  cases hi : l_str2int (buff ++ [dp, '0']) with
  | none => rfl
  | some r =>
    exfalso
    obtain ⟨v, e⟩ := r
    obtain ⟨pre, hs, hpe, hpre⟩ := l_str2int_some_chars _ v e hi
    have hnt : NUL ∉ buff ++ [dp, '0'] := by
      intro hm
      simp only [List.mem_append, List.mem_cons, List.mem_singleton, List.not_mem_nil,
        or_false] at hm
      rcases hm with hm | hm | hm
      · exact hn hm
      · exact hdp.1 hm.symm
      · exact absurd hm (by decide)
    have he : e = [] := by
      apply mem_NUL_of_peek e hpe
      intro hm
      apply hnt
      rw [hs]
      exact List.mem_append_right _ hm
    rw [he, List.append_nil] at hs
    apply hdp.2
    apply hpre dp
    rw [← hs]
    simp

/-- C11: on a float value `luaO_tostring` appends the decimal point and `0` to the
rendering `lua_number2str` made exactly when that rendering consists only of characters
from `-0123456789`, and leaves it unchanged otherwise; on an integer value nothing is
appended.  So float 10.0 (rendered `10`) gives `10.0` and integer 10 gives `10`, and the
text of a float (a rendering without whitespace, `x`/`X` or leading `+`) is never
accepted by `l_str2int`. -/
theorem luaO_tostring_float_mark {F : Type} (P : Platform F) (o : TValue F) (x : F) (i : Int)
    (hn : NUL ∉ P.number2str x) :
    ((∀ c ∈ P.number2str x, c ∈ "-0123456789".toList) →
        luaO_tostring P (setfltvalue o x) = P.number2str x ++ [P.decpoint, '0']) ∧
      (¬ (∀ c ∈ P.number2str x, c ∈ "-0123456789".toList) →
        luaO_tostring P (setfltvalue o x) = P.number2str x) ∧
      luaO_tostring P (setivalue o i) = lua_integer2str i ∧
      (P.number2str x = "10".toList → P.decpoint = '.' →
        luaO_tostring P (setfltvalue o x) = "10.0".toList) ∧
      luaO_tostring P (setivalue o 10) = "10".toList ∧
      (DecpointMark P.decpoint → Number2StrPlain (P.number2str x) →
        l_str2int (luaO_tostring P (setfltvalue o x)) = none) := by
  have hfl := luaO_tostring_float P o x
  have hiff := looksLikeInt_iff (P.number2str x) hn
  have hint : ∀ j : Int, luaO_tostring P (setivalue o j) = lua_integer2str j := by
    intro j
    simp [luaO_tostring, setivalue, ttisinteger, checktag, rttype, ivalue]
  refine ⟨fun h => ?_, fun h => ?_, hint i, fun h10 hdot => ?_, ?_, fun hdp hpl => ?_⟩
  · rw [hfl, if_pos (hiff.mpr h)]
  · rw [hfl, if_neg (fun hl => h (hiff.mp hl))]
  · have hl : looksLikeInt (P.number2str x) = true := by rw [h10]; decide
    rw [hfl, if_pos hl, h10, hdot]
    rfl
  · rw [hint 10]; decide
  · rw [hfl]
    split
    · exact l_str2int_none_of_decpoint _ _ hdp hn
    · rename_i hl
      exact l_str2int_none_of_plain _ hpl (by simpa using hl)

theorem luaO_tostring_float_mark_witness :
    luaO_tostring ratPlatform (setfltvalue (nilobject Rat) (10 : Rat)) =
        ratPlatform.number2str (10 : Rat) ++ [ratPlatform.decpoint, '0'] ∧
      l_str2int (luaO_tostring ratPlatform (setfltvalue (nilobject Rat) (10 : Rat))) = none :=
  ⟨(luaO_tostring_float_mark ratPlatform (nilobject Rat) (10 : Rat) 10 (by decide)).1
      (by decide),
    (luaO_tostring_float_mark ratPlatform (nilobject Rat) (10 : Rat) 10
      (by decide)).2.2.2.2.2 (by unfold DecpointMark IsIntChar; decide)
      (by unfold Number2StrPlain; decide)⟩

/-! ## Integer arithmetic -/

theorem castUnsigned_lt (z : Int) : castUnsigned z < 2 ^ 64 := by
  unfold castUnsigned
  have h64 : ((2 : Int) ^ 64) = 18446744073709551616 := by norm_num
  have h64n : ((2 : Nat) ^ 64) = 18446744073709551616 := by norm_num
  rw [h64, h64n]
  omega

theorem castUnsigned_cast (z : Int) : ((castUnsigned z : Nat) : Int) = z % 2 ^ 64 := by
  unfold castUnsigned
  exact Int.toNat_of_nonneg (Int.emod_nonneg _ (by norm_num))

theorem l_castU2S_congr (x y : Nat) (h : x % 2 ^ 64 = y % 2 ^ 64) : l_castU2S x = l_castU2S y := by
  unfold l_castU2S
  rw [h]

theorem castUnsigned_l_castU2S (u : Nat) : castUnsigned (l_castU2S u) = u % 2 ^ 64 := by
  obtain ⟨_, _, h3⟩ := l_castU2S_range u
  have h := castUnsigned_cast (l_castU2S u)
  rw [h3] at h
  have : ((u : Int) % 2 ^ 64) = ((u % 2 ^ 64 : Nat) : Int) := by push_cast; rfl
  rw [this] at h
  exact_mod_cast h

theorem wrapInt64_range (z : Int) : IsInt64 (wrapInt64 z) ∧ wrapInt64 z % 2 ^ 64 = z % 2 ^ 64 := by
  obtain ⟨h1, h2, h3⟩ := l_castU2S_range (castUnsigned z)
  refine ⟨⟨h1, h2⟩, ?_⟩
  unfold wrapInt64
  rw [h3, castUnsigned_cast]
  exact Int.emod_emod_of_dvd _ (dvd_refl _)

theorem wrapInt64_of_isInt64 (z : Int) (h : IsInt64 z) : wrapInt64 z = z := by
  obtain ⟨h1, h2⟩ := h
  unfold wrapInt64 l_castU2S castUnsigned
  have h64 : ((2 : Int) ^ 64) = 18446744073709551616 := by norm_num
  have h63 : ((2 : Int) ^ 63) = 9223372036854775808 := by norm_num
  have h64n : ((2 : Nat) ^ 64) = 18446744073709551616 := by norm_num
  have h63n : ((2 : Nat) ^ 63) = 9223372036854775808 := by norm_num
  rw [h63] at h1 h2
  rw [h64, h64n, h63n]
  split <;> omega

theorem l_castU2S_eq_wrap (u : Nat) (z : Int) (h : (u : Int) % 2 ^ 64 = z % 2 ^ 64) :
    l_castU2S u = wrapInt64 z := by
  unfold wrapInt64
  apply l_castU2S_congr
  have h1 := castUnsigned_cast z
  have h2 : ((castUnsigned z % 2 ^ 64 : Nat) : Int) = ((u % 2 ^ 64 : Nat) : Int) := by
    rw [Nat.mod_eq_of_lt (castUnsigned_lt z), h1, ← h]
    push_cast
    rfl
  exact_mod_cast h2.symm

theorem intop_add_eq (a b : Int) : intop_add a b = wrapInt64 (a + b) := by
  unfold intop_add
  apply l_castU2S_eq_wrap
  push_cast
  rw [castUnsigned_cast, castUnsigned_cast]
  exact (Int.add_emod _ _ _).symm

theorem intop_sub_eq (a b : Int) : intop_sub a b = wrapInt64 (a - b) := by
  unfold intop_sub
  apply l_castU2S_eq_wrap
  have hb := castUnsigned_lt b
  rw [Nat.cast_add, Nat.cast_sub (le_of_lt hb)]
  push_cast
  rw [castUnsigned_cast, castUnsigned_cast]
  have h64 : ((2 : Int) ^ 64) = 18446744073709551616 := by norm_num
  rw [h64]
  omega

theorem intop_mul_eq (a b : Int) : intop_mul a b = wrapInt64 (a * b) := by
  unfold intop_mul
  apply l_castU2S_eq_wrap
  push_cast
  rw [castUnsigned_cast, castUnsigned_cast]
  exact (Int.mul_emod _ _ _).symm

theorem xor_allOnes64 (u : Nat) (h : u < 2 ^ 64) : (2 ^ 64 - 1) ^^^ u = 2 ^ 64 - 1 - u := by
  have h1 := @BitVec.toNat_not 64 (BitVec.ofNat 64 u)
  rw [BitVec.not_def, BitVec.toNat_xor, BitVec.toNat_allOnes, BitVec.toNat_ofNat,
    Nat.mod_eq_of_lt h] at h1
  exact h1

theorem intop_bnot_eq (a : Int) (ha : IsInt64 a) :
    intop_xor ((2 ^ 64 - 1 : Nat) : Int) a = -1 - a := by
  unfold intop_xor
  have hc : castUnsigned ((2 ^ 64 - 1 : Nat) : Int) = 2 ^ 64 - 1 := by
    rw [castUnsigned_natCast]
    exact Nat.mod_eq_of_lt (by norm_num)
  rw [hc, xor_allOnes64 _ (castUnsigned_lt a)]
  have hr : IsInt64 (-1 - a) := by
    obtain ⟨h1, h2⟩ := ha
    constructor <;> omega
  rw [← wrapInt64_of_isInt64 _ hr]
  apply l_castU2S_eq_wrap
  have hlt := castUnsigned_lt a
  rw [Nat.cast_sub (by omega)]
  push_cast
  rw [castUnsigned_cast]
  have h64 : ((2 : Int) ^ 64) = 18446744073709551616 := by norm_num
  rw [h64]
  omega

theorem luaO_arith_int_default {F : Type} (E : ArithEnv F) (op : Nat) (o1 o2 res : TValue F)
    (a b : Int) (hb : isBitwiseOp op = false) (hf : isFloatOp op = false) :
    luaO_arith E op (setivalue o1 a) (setivalue o2 b) res =
      match intarith E op a b with
      | some v => ArithOutcome.done (setivalue res v)
      | none => ArithOutcome.error := by
  unfold luaO_arith
  simp only [hb, hf, Bool.false_eq_true, if_false]
  rfl

theorem luaO_arith_int_bitwise {F : Type} (E : ArithEnv F) (op : Nat) (p1 p2 res : TValue F)
    (a b : Int) (hb : isBitwiseOp op = true) (h1 : E.tointeger p1 = some a)
    (h2 : E.tointeger p2 = some b) :
    luaO_arith E op p1 p2 res =
      match intarith E op a b with
      | some v => ArithOutcome.done (setivalue res v)
      | none => ArithOutcome.error := by
  unfold luaO_arith
  simp only [hb, if_true, h1, h2]

/-- C17: the integer operations of `luaO_arith` wrap around and never fail on overflow.
For all 64-bit `a` and `b`, add, sub and mul give `a op b` reduced modulo `2^64` as a
two's-complement integer, unary minus gives `0 - a` modulo `2^64` (the minimum integer
for the minimum integer), band, bor and bxor give the integer whose 64-bit pattern is
the bitwise result of the operands' patterns, and bitwise-not gives `a` XOR all-ones,
which is `-1 - a`; unary minus and bitwise-not do not depend on the second operand. -/
theorem intarith_wraps {F : Type} (E : ArithEnv F) (a b : Int) (o1 o2 res : TValue F)
    (ha : IsInt64 a) :
    (intarith E LUA_OPADD a b = some (wrapInt64 (a + b)) ∧
        intarith E LUA_OPSUB a b = some (wrapInt64 (a - b)) ∧
        intarith E LUA_OPMUL a b = some (wrapInt64 (a * b)) ∧
        intarith E LUA_OPUNM a b = some (wrapInt64 (0 - a))) ∧
      (∀ z : Int, IsInt64 (wrapInt64 z) ∧ wrapInt64 z % 2 ^ 64 = z % 2 ^ 64) ∧
      intarith E LUA_OPUNM (-(2 : Int) ^ 63) b = some (-(2 : Int) ^ 63) ∧
      (luaO_arith E LUA_OPADD (setivalue o1 a) (setivalue o2 b) res =
          ArithOutcome.done (setivalue res (wrapInt64 (a + b))) ∧
        luaO_arith E LUA_OPSUB (setivalue o1 a) (setivalue o2 b) res =
          ArithOutcome.done (setivalue res (wrapInt64 (a - b))) ∧
        luaO_arith E LUA_OPMUL (setivalue o1 a) (setivalue o2 b) res =
          ArithOutcome.done (setivalue res (wrapInt64 (a * b))) ∧
        luaO_arith E LUA_OPUNM (setivalue o1 a) (setivalue o2 b) res =
          ArithOutcome.done (setivalue res (wrapInt64 (0 - a)))) ∧
      (∃ r : Int, intarith E LUA_OPBAND a b = some r ∧ IsInt64 r ∧
        castUnsigned r = castUnsigned a &&& castUnsigned b) ∧
      (∃ r : Int, intarith E LUA_OPBOR a b = some r ∧ IsInt64 r ∧
        castUnsigned r = castUnsigned a ||| castUnsigned b) ∧
      (∃ r : Int, intarith E LUA_OPBXOR a b = some r ∧ IsInt64 r ∧
        castUnsigned r = castUnsigned a ^^^ castUnsigned b) ∧
      (intarith E LUA_OPBNOT a b = some (-1 - a) ∧
        castUnsigned (-1 - a) = (2 ^ 64 - 1) ^^^ castUnsigned a) ∧
      (E.tointeger (setivalue o1 a) = some a → E.tointeger (setivalue o2 b) = some b →
        luaO_arith E LUA_OPBNOT (setivalue o1 a) (setivalue o2 b) res =
            ArithOutcome.done (setivalue res (-1 - a)) ∧
          luaO_arith E LUA_OPBAND (setivalue o1 a) (setivalue o2 b) res =
            ArithOutcome.done (setivalue res (intop_and a b))) ∧
      (∀ b1 : Int, intarith E LUA_OPUNM a b1 = intarith E LUA_OPUNM a b ∧
        intarith E LUA_OPBNOT a b1 = intarith E LUA_OPBNOT a b) := by
  have hadd : intarith E LUA_OPADD a b = some (wrapInt64 (a + b)) := by
    rw [← intop_add_eq]; rfl
  have hsub : intarith E LUA_OPSUB a b = some (wrapInt64 (a - b)) := by
    rw [← intop_sub_eq]; rfl
  have hmul : intarith E LUA_OPMUL a b = some (wrapInt64 (a * b)) := by
    rw [← intop_mul_eq]; rfl
  have hunm : ∀ c : Int, intarith E LUA_OPUNM a c = some (wrapInt64 (0 - a)) := by
    intro c; rw [← intop_sub_eq]; rfl
  have hbnot : ∀ c : Int, intarith E LUA_OPBNOT a c = some (-1 - a) := by
    intro c; rw [← intop_bnot_eq a ha]; rfl
  have hla := castUnsigned_lt a
  have hlb := castUnsigned_lt b
  have hdef : ∀ op, isBitwiseOp op = false → isFloatOp op = false → ∀ v,
      intarith E op a b = some v →
      luaO_arith E op (setivalue o1 a) (setivalue o2 b) res = ArithOutcome.done (setivalue res v) := by
    intro op h1 h2 v hv
    rw [luaO_arith_int_default E op o1 o2 res a b h1 h2, hv]
  refine ⟨⟨hadd, hsub, hmul, hunm b⟩, wrapInt64_range, ?_,
    ⟨hdef LUA_OPADD rfl rfl _ hadd, hdef LUA_OPSUB rfl rfl _ hsub,
      hdef LUA_OPMUL rfl rfl _ hmul, hdef LUA_OPUNM rfl rfl _ (hunm b)⟩, ?_, ?_, ?_, ⟨hbnot b, ?_⟩, ?_, ?_⟩
  · have : intarith E LUA_OPUNM (-(2 : Int) ^ 63) b = some (intop_sub 0 (-(2 : Int) ^ 63)) := rfl
    rw [this]
    decide
  · refine ⟨intop_and a b, rfl, (l_castU2S_range _).1 |> fun h => ⟨h, (l_castU2S_range _).2.1⟩, ?_⟩
    unfold intop_and
    rw [castUnsigned_l_castU2S]
    exact Nat.mod_eq_of_lt (Nat.and_lt_two_pow _ hlb)
  · refine ⟨intop_or a b, rfl, ⟨(l_castU2S_range _).1, (l_castU2S_range _).2.1⟩, ?_⟩
    unfold intop_or
    rw [castUnsigned_l_castU2S]
    exact Nat.mod_eq_of_lt (Nat.or_lt_two_pow hla hlb)
  · refine ⟨intop_xor a b, rfl, ⟨(l_castU2S_range _).1, (l_castU2S_range _).2.1⟩, ?_⟩
    unfold intop_xor
    rw [castUnsigned_l_castU2S]
    exact Nat.mod_eq_of_lt (Nat.xor_lt_two_pow hla hlb)
  · rw [← intop_bnot_eq a ha]
    unfold intop_xor
    rw [castUnsigned_l_castU2S, castUnsigned_natCast]
    have h1 : (2 ^ 64 - 1) % 2 ^ 64 = 2 ^ 64 - 1 := Nat.mod_eq_of_lt (by norm_num)
    rw [h1]
    exact Nat.mod_eq_of_lt (Nat.xor_lt_two_pow (by norm_num) hla)
  · intro h1 h2
    constructor
    · rw [luaO_arith_int_bitwise E LUA_OPBNOT _ _ res a b rfl h1 h2, hbnot b]
    · rw [luaO_arith_int_bitwise E LUA_OPBAND _ _ res a b rfl h1 h2]
      rfl
  · intro b1
    exact ⟨(hunm b1).trans (hunm b).symm, (hbnot b1).trans (hbnot b).symm⟩

theorem intarith_wraps_witness :
    intarith ratArithEnv LUA_OPADD (2 ^ 63 - 1) 1 = some (wrapInt64 (2 ^ 63 - 1 + 1)) ∧
      luaO_arith ratArithEnv LUA_OPBNOT (setivalue (nilobject Rat) (2 ^ 63 - 1))
          (setivalue (nilobject Rat) 1) (nilobject Rat) =
        ArithOutcome.done (setivalue (nilobject Rat) (-1 - (2 ^ 63 - 1))) :=
  ⟨(intarith_wraps ratArithEnv (2 ^ 63 - 1) 1 (nilobject Rat) (nilobject Rat) (nilobject Rat)
      (by unfold IsInt64; norm_num)).1.1,
    ((intarith_wraps ratArithEnv (2 ^ 63 - 1) 1 (nilobject Rat) (nilobject Rat) (nilobject Rat)
      (by unfold IsInt64; norm_num)).2.2.2.2.2.2.2.2.1 rfl rfl).1⟩

/-! ## Shifts -/

theorem luaV_shiftl_big (x y : Int) (h : 64 ≤ y ∨ y ≤ -64) : luaV_shiftl x y = 0 := by
  unfold luaV_shiftl NBITS
  rcases h with h | h
  · rw [if_neg (by omega), if_pos (by omega)]
  · rw [if_pos (by omega), if_pos (by omega)]

theorem cneg_wrap (b : Int) : cneg b = wrapInt64 (-b) := by
  unfold cneg wrapInt64
  rfl

theorem cneg_eq (b : Int) (hb : IsInt64 b) (hmin : b ≠ -(2 : Int) ^ 63) : cneg b = -b := by
  rw [cneg_wrap]
  apply wrapInt64_of_isInt64
  obtain ⟨h1, h2⟩ := hb
  constructor <;> omega

theorem cneg_min : cneg (-(2 : Int) ^ 63) = -(2 : Int) ^ 63 := by decide

/-- C18: shifts in `luaO_arith`.  For every integer `a` and every signed shift amount
`b`, `shr(a, b)` is `shl(a, -b)` (the negation taken as a `lua_Integer`), and when the
magnitude of `b` is at least 64 both `shl(a, b)` and `shr(a, b)` are 0, for negative `a`
as well; the right shift is logical (`shr(-1, 1)` is the maximum integer). -/
theorem intarith_shifts {F : Type} (E : ArithEnv F) (a b : Int) (hb : IsInt64 b) :
    intarith E LUA_OPSHR a b = intarith E LUA_OPSHL a (wrapInt64 (-b)) ∧
      (b ≠ -(2 : Int) ^ 63 → intarith E LUA_OPSHR a b = intarith E LUA_OPSHL a (-b)) ∧
      (64 ≤ b ∨ b ≤ -64 →
        intarith E LUA_OPSHL a b = some 0 ∧ intarith E LUA_OPSHR a b = some 0) ∧
      intarith E LUA_OPSHR (-1) 1 = some (2 ^ 63 - 1) ∧
      intarith E LUA_OPSHL (-1) (-1) = some (2 ^ 63 - 1) ∧
      intarith E LUA_OPSHR (-1) 64 = some 0 ∧ intarith E LUA_OPSHL (-1) 64 = some 0 ∧
      intarith E LUA_OPSHR (-1) 63 = some 1 := by
  have hshl : ∀ x y : Int, intarith E LUA_OPSHL x y = some (luaV_shiftl x y) := fun _ _ => rfl
  have hshr : ∀ x y : Int, intarith E LUA_OPSHR x y = some (luaV_shiftl x (cneg y)) :=
    fun _ _ => rfl
  refine ⟨?_, fun hmin => ?_, fun hbig => ⟨?_, ?_⟩, ?_, ?_, ?_, ?_, ?_⟩
  · rw [hshr, hshl, cneg_wrap]
  · rw [hshr, hshl, cneg_eq b hb hmin]
  · rw [hshl, luaV_shiftl_big a b hbig]
  · rw [hshr]
    by_cases hmin : b = -(2 : Int) ^ 63
    · rw [hmin, cneg_min, luaV_shiftl_big a _ (Or.inr (by norm_num))]
    · rw [cneg_eq b hb hmin, luaV_shiftl_big a _ (by omega)]
  · rw [hshr]; decide
  · rw [hshl]; decide
  · rw [hshr]; decide
  · rw [hshl]; decide
  · rw [hshr]; decide

theorem intarith_shifts_witness :
    intarith ratArithEnv LUA_OPSHR (-5) 70 = intarith ratArithEnv LUA_OPSHL (-5) (wrapInt64 (-70)) ∧
      intarith ratArithEnv LUA_OPSHL (-5) 70 = some 0 ∧
      intarith ratArithEnv LUA_OPSHR (-5) 70 = some 0 :=
  ⟨(intarith_shifts ratArithEnv (-5) 70 (by unfold IsInt64; norm_num)).1,
    ((intarith_shifts ratArithEnv (-5) 70 (by unfold IsInt64; norm_num)).2.2.1
      (Or.inl (by norm_num))).1,
    ((intarith_shifts ratArithEnv (-5) 70 (by unfold IsInt64; norm_num)).2.2.1
      (Or.inl (by norm_num))).2⟩

/-! ## `luaO_arith`: the kind of the result and the fallback -/

theorem isBitwiseOp_iff (op : Nat) :
    isBitwiseOp op = true ↔ (op = LUA_OPBAND ∨ op = LUA_OPBOR ∨ op = LUA_OPBXOR ∨
      op = LUA_OPSHL ∨ op = LUA_OPSHR ∨ op = LUA_OPBNOT) := by
  simp [isBitwiseOp, or_assoc]

theorem isFloatOp_iff (op : Nat) : isFloatOp op = true ↔ (op = LUA_OPDIV ∨ op = LUA_OPPOW) := by
  simp [isFloatOp]

theorem luaO_arith_done_tag {F : Type} (E : ArithEnv F) (op : Nat) (p1 p2 res r : TValue F)
    (h : luaO_arith E op p1 p2 res = ArithOutcome.done r) :
    (isBitwiseOp op = true → r.tt_ = LUA_TNUMINT) ∧
      (isBitwiseOp op = false → isFloatOp op = true → r.tt_ = LUA_TNUMFLT) ∧
      (isBitwiseOp op = false → isFloatOp op = false →
        r.tt_ = if ttisinteger p1 = true ∧ ttisinteger p2 = true then LUA_TNUMINT
          else LUA_TNUMFLT) := by
  unfold luaO_arith at h
  simp only at h
  by_cases hb : isBitwiseOp op = true
  · rw [if_pos hb] at h
    refine ⟨fun _ => ?_, fun hb' => absurd hb (by rw [hb']; simp), fun hb' =>
      absurd hb (by rw [hb']; simp)⟩
    cases h1 : E.tointeger p1 with
    | none => rw [h1] at h; exact absurd h (by simp)
    | some i1 =>
      cases h2 : E.tointeger p2 with
      | none => rw [h1, h2] at h; exact absurd h (by simp)
      | some i2 =>
        rw [h1, h2] at h
        simp only at h
        cases h3 : intarith E op i1 i2 with
        | none => rw [h3] at h; exact absurd h (by simp)
        | some v =>
          rw [h3] at h
          simp only [ArithOutcome.done.injEq] at h
          rw [← h]; rfl
  · rw [if_neg hb] at h
    by_cases hf : isFloatOp op = true
    · rw [if_pos hf] at h
      refine ⟨fun hb' => absurd hb' hb, fun _ _ => ?_, fun _ hf' =>
        absurd hf (by rw [hf']; simp)⟩
      cases h1 : E.tonumber p1 with
      | none => rw [h1] at h; exact absurd h (by simp)
      | some n1 =>
        cases h2 : E.tonumber p2 with
        | none => rw [h1, h2] at h; exact absurd h (by simp)
        | some n2 =>
          rw [h1, h2] at h
          simp only [ArithOutcome.done.injEq] at h
          rw [← h]; rfl
    · rw [if_neg hf] at h
      refine ⟨fun hb' => absurd hb' hb, fun _ hf' => absurd hf' hf, fun _ _ => ?_⟩
      by_cases hi : (ttisinteger p1 && ttisinteger p2) = true
      · rw [if_pos hi] at h
        have hi' : ttisinteger p1 = true ∧ ttisinteger p2 = true := by simpa using hi
        rw [if_pos hi']
        cases h3 : intarith E op (ivalue p1) (ivalue p2) with
        | none => rw [h3] at h; exact absurd h (by simp)
        | some v =>
          rw [h3] at h
          simp only [ArithOutcome.done.injEq] at h
          rw [← h]; rfl
      · rw [if_neg hi] at h
        have hi' : ¬ (ttisinteger p1 = true ∧ ttisinteger p2 = true) := by simpa using hi
        rw [if_neg hi']
        cases h1 : E.tonumber p1 with
        | none => rw [h1] at h; exact absurd h (by simp)
        | some n1 =>
          cases h2 : E.tonumber p2 with
          | none => rw [h1, h2] at h; exact absurd h (by simp)
          | some n2 =>
            rw [h1, h2] at h
            simp only [ArithOutcome.done.injEq] at h
            rw [← h]; rfl

theorem tag_int_iff {F : Type} (r : TValue F) :
    (r.tt_ = LUA_TNUMINT ↔ ttisinteger r = true) ∧ (r.tt_ = LUA_TNUMFLT ↔ ttisfloat r = true) := by
  simp [ttisinteger, ttisfloat, checktag, rttype]

theorem tag_int_ne_flt : LUA_TNUMINT ≠ LUA_TNUMFLT := by decide

/-- C16: the kind of the result of `luaO_arith`.  Whenever it stores a result, the result
is float-tagged for div and pow (also when both operands are integers), integer-tagged
for the bitwise operators (band, bor, bxor, shl, shr, bnot), and for every other
operator integer-tagged if and only if both operands are integer-tagged, float-tagged
otherwise; div and pow on two integers store a float. -/
theorem luaO_arith_result_kind {F : Type} (E : ArithEnv F) (op : Nat)
    (p1 p2 res r o1 o2 : TValue F) (a b : Int) (n1 n2 : F)
    (h : luaO_arith E op p1 p2 res = ArithOutcome.done r) :
    ((op = LUA_OPDIV ∨ op = LUA_OPPOW) → ttisfloat r = true ∧ ttisinteger r = false) ∧
      ((op = LUA_OPBAND ∨ op = LUA_OPBOR ∨ op = LUA_OPBXOR ∨ op = LUA_OPSHL ∨ op = LUA_OPSHR ∨
          op = LUA_OPBNOT) → ttisinteger r = true ∧ ttisfloat r = false) ∧
      (¬ (op = LUA_OPDIV ∨ op = LUA_OPPOW) →
        ¬ (op = LUA_OPBAND ∨ op = LUA_OPBOR ∨ op = LUA_OPBXOR ∨ op = LUA_OPSHL ∨
          op = LUA_OPSHR ∨ op = LUA_OPBNOT) →
        (ttisinteger r = true ↔ (ttisinteger p1 = true ∧ ttisinteger p2 = true)) ∧
          (ttisfloat r = true ↔ ¬ (ttisinteger p1 = true ∧ ttisinteger p2 = true))) ∧
      (E.tonumber (setivalue o1 a) = some n1 → E.tonumber (setivalue o2 b) = some n2 →
        luaO_arith E LUA_OPDIV (setivalue o1 a) (setivalue o2 b) res =
            ArithOutcome.done (setfltvalue res (E.numdiv n1 n2)) ∧
          luaO_arith E LUA_OPPOW (setivalue o1 a) (setivalue o2 b) res =
            ArithOutcome.done (setfltvalue res (E.numpow n1 n2))) := by
  obtain ⟨t1, t2, t3⟩ := luaO_arith_done_tag E op p1 p2 res r h
  obtain ⟨ti, tf⟩ := tag_int_iff r
  have hne := tag_int_ne_flt
  have hbf : isFloatOp op = true → isBitwiseOp op = false := by
    intro hf
    rcases (isFloatOp_iff op).mp hf with rfl | rfl <;> rfl
  refine ⟨fun hop => ?_, fun hop => ?_, fun hnf hnb => ?_, fun h1 h2 => ⟨?_, ?_⟩⟩
  · have hf := (isFloatOp_iff op).mpr hop
    have ht := t2 (hbf hf) hf
    refine ⟨tf.mp ht, ?_⟩
    cases hti : ttisinteger r with
    | false => rfl
    | true => exact absurd ((ti.mpr hti).symm.trans ht) hne
  · have hb := (isBitwiseOp_iff op).mpr hop
    have ht := t1 hb
    refine ⟨ti.mp ht, ?_⟩
    cases htf : ttisfloat r with
    | false => rfl
    | true => exact absurd (ht.symm.trans (tf.mpr htf)) hne
  · have hf : isFloatOp op = false := by
      cases hx : isFloatOp op with
      | false => rfl
      | true => exact absurd ((isFloatOp_iff op).mp hx) hnf
    have hb : isBitwiseOp op = false := by
      cases hx : isBitwiseOp op with
      | false => rfl
      | true => exact absurd ((isBitwiseOp_iff op).mp hx) hnb
    have ht := t3 hb hf
    by_cases hi : ttisinteger p1 = true ∧ ttisinteger p2 = true
    · rw [if_pos hi] at ht
      refine ⟨⟨fun _ => hi, fun _ => ti.mp ht⟩, ⟨fun hfl => ?_, fun hn => absurd hi hn⟩⟩
      exact absurd (ht.symm.trans (tf.mpr hfl)) hne
    · rw [if_neg hi] at ht
      refine ⟨⟨fun hint => ?_, fun hh => absurd hh hi⟩, ⟨fun _ => hi, fun _ => tf.mp ht⟩⟩
      exact absurd ((ti.mpr hint).symm.trans ht) hne
  · unfold luaO_arith
    have hb : isBitwiseOp LUA_OPDIV = false := rfl
    have hf : isFloatOp LUA_OPDIV = true := rfl
    simp only [hb, hf, Bool.false_eq_true, if_false, if_true, h1, h2]
    rfl
  · unfold luaO_arith
    have hb : isBitwiseOp LUA_OPPOW = false := rfl
    have hf : isFloatOp LUA_OPPOW = true := rfl
    simp only [hb, hf, Bool.false_eq_true, if_false, if_true, h1, h2]
    rfl

theorem luaO_arith_result_kind_witness :
    (ttisinteger (setivalue (nilobject Rat) 3) = true ↔
        (ttisinteger (setivalue (nilobject Rat) 1) = true ∧
          ttisinteger (setivalue (nilobject Rat) 2) = true)) ∧
      luaO_arith ratArithEnv LUA_OPDIV (setivalue (nilobject Rat) 1)
          (setivalue (nilobject Rat) 2) (nilobject Rat) =
        ArithOutcome.done (setfltvalue (nilobject Rat)
          (ratArithEnv.numdiv ((1 : Int) : Rat) ((2 : Int) : Rat))) :=
  ⟨((luaO_arith_result_kind ratArithEnv LUA_OPADD (setivalue (nilobject Rat) 1)
      (setivalue (nilobject Rat) 2) (nilobject Rat) (setivalue (nilobject Rat) 3)
      (nilobject Rat) (nilobject Rat) 1 2 ((1 : Int) : Rat) ((2 : Int) : Rat)
      (by rfl)).2.2.1 (by decide) (by decide)).1,
    ((luaO_arith_result_kind ratArithEnv LUA_OPADD (setivalue (nilobject Rat) 1)
      (setivalue (nilobject Rat) 2) (nilobject Rat) (setivalue (nilobject Rat) 3)
      (nilobject Rat) (nilobject Rat) 1 2 ((1 : Int) : Rat) ((2 : Int) : Rat)
      (by rfl)).2.2.2 rfl rfl).1⟩

theorem luaO_arith_cases {F : Type} (E : ArithEnv F) (op : Nat) (p1 p2 res : TValue F) :
    (ArithCoercible E op p1 p2 ∧ ArithRaw (luaO_arith E op p1 p2 res)) ∨
      (¬ ArithCoercible E op p1 p2 ∧
        luaO_arith E op p1 p2 res =
          ArithOutcome.trybinTM p1 p2 ((op - LUA_OPADD) + E.TM_ADD)) := by
  unfold ArithCoercible luaO_arith ArithRaw
  simp only
  by_cases hb : isBitwiseOp op = true
  · simp only [hb, if_true]
    cases h1 : E.tointeger p1 with
    | none => right; simp
    | some i1 =>
      cases h2 : E.tointeger p2 with
      | none => right; simp
      | some i2 =>
        left
        simp only [Option.isSome_some, and_self, true_and]
        cases h3 : intarith E op i1 i2 with
        | none => right; rfl
        | some v => left; exact ⟨_, rfl⟩
  · simp only [hb, if_false]
    by_cases hf : isFloatOp op = true
    · simp only [hf, if_true]
      cases h1 : E.tonumber p1 with
      | none => right; simp
      | some n1 =>
        cases h2 : E.tonumber p2 with
        | none => right; simp
        | some n2 => left; exact ⟨by simp, Or.inl ⟨_, rfl⟩⟩
    · simp only [hf, if_false]
      by_cases hi : (ttisinteger p1 && ttisinteger p2) = true
      · have hi' : ttisinteger p1 = true ∧ ttisinteger p2 = true := by simpa using hi
        left
        refine ⟨Or.inl hi', ?_⟩
        rw [if_pos hi]
        cases h3 : intarith E op (ivalue p1) (ivalue p2) with
        | none => right; rfl
        | some v => left; exact ⟨_, rfl⟩
      · have hi' : ¬ (ttisinteger p1 = true ∧ ttisinteger p2 = true) := by simpa using hi
        rw [if_neg hi]
        cases h1 : E.tonumber p1 with
        | none =>
          right
          refine ⟨?_, rfl⟩
          rintro (h | h)
          · exact hi' h
          · simp at h
        | some n1 =>
          cases h2 : E.tonumber p2 with
          | none =>
            right
            refine ⟨?_, rfl⟩
            rintro (h | h)
            · exact hi' h
            · simp at h
          | some n2 => left; exact ⟨Or.inr (by simp), Or.inl ⟨_, rfl⟩⟩

theorem arithRaw_not_trybinTM {F : Type} (p1 p2 : TValue F) (ev : Nat) :
    ¬ ArithRaw (ArithOutcome.trybinTM p1 p2 ev) := by
  rintro (⟨r, h⟩ | h) <;> exact absurd h (by simp)

/-- C19: `luaO_arith` performs the raw operation if and only if the operands are
coercible to the kind the operator requires (both convertible to integers for the bitwise
operators, both convertible to floats for div and pow, both integers or both convertible
to floats otherwise).  In every other case it computes nothing and raises nothing: it
ends in one call of the fallback `luaT_trybinTM` with the original operands and the
event `(op - LUA_OPADD) + TM_ADD`.  An operand `tointeger` rejects, as the sample
conversion rejects a float with a fractional part, sends a bitwise operator to the
fallback. -/
theorem luaO_arith_fallback {F : Type} (E : ArithEnv F) (op : Nat) (p1 p2 res : TValue F) :
    (ArithRaw (luaO_arith E op p1 p2 res) ↔ ArithCoercible E op p1 p2) ∧
      (¬ ArithCoercible E op p1 p2 →
        luaO_arith E op p1 p2 res =
          ArithOutcome.trybinTM p1 p2 ((op - LUA_OPADD) + E.TM_ADD)) ∧
      (∀ q1 q2 ev, luaO_arith E op p1 p2 res = ArithOutcome.trybinTM q1 q2 ev →
        q1 = p1 ∧ q2 = p2 ∧ ev = (op - LUA_OPADD) + E.TM_ADD ∧ ¬ ArithCoercible E op p1 p2) ∧
      (isBitwiseOp op = true → (E.tointeger p1 = none ∨ E.tointeger p2 = none) →
        luaO_arith E op p1 p2 res =
          ArithOutcome.trybinTM p1 p2 ((op - LUA_OPADD) + E.TM_ADD)) ∧
      (∀ (q : Rat) (o1 p res1 : TValue Rat), q.den ≠ 1 →
        luaO_arith ratArithEnv LUA_OPBAND (setfltvalue o1 q) p res1 =
          ArithOutcome.trybinTM (setfltvalue o1 q) p
            ((LUA_OPBAND - LUA_OPADD) + ratArithEnv.TM_ADD)) := by
  have hcases := luaO_arith_cases E op p1 p2 res
  have hnc : ¬ ArithCoercible E op p1 p2 →
      luaO_arith E op p1 p2 res =
        ArithOutcome.trybinTM p1 p2 ((op - LUA_OPADD) + E.TM_ADD) := by
    intro hn
    rcases hcases with ⟨hc, _⟩ | ⟨_, h⟩
    · exact absurd hc hn
    · exact h
  refine ⟨⟨fun hraw => ?_, fun hc => ?_⟩, hnc, fun q1 q2 ev hq => ?_, fun hb hnone => ?_,
    fun q o1 p res1 hq => ?_⟩
  · rcases hcases with ⟨hc, _⟩ | ⟨_, h⟩
    · exact hc
    · rw [h] at hraw
      exact absurd hraw (arithRaw_not_trybinTM _ _ _)
  · rcases hcases with ⟨_, hr⟩ | ⟨hn, _⟩
    · exact hr
    · exact absurd hc hn
  · rcases hcases with ⟨_, hr⟩ | ⟨hn, h⟩
    · rw [hq] at hr
      exact absurd hr (arithRaw_not_trybinTM _ _ _)
    · rw [h] at hq
      simp only [ArithOutcome.trybinTM.injEq] at hq
      exact ⟨hq.1.symm, hq.2.1.symm, hq.2.2.symm, hn⟩
  · apply hnc
    unfold ArithCoercible
    rw [if_pos hb]
    rintro ⟨h1, h2⟩
    rcases hnone with h | h
    · rw [h] at h1; simp at h1
    · rw [h] at h2; simp at h2
  · have hti : ratArithEnv.tointeger (setfltvalue o1 q) = none := by
      show ratTointeger (setfltvalue o1 q) = none
      unfold ratTointeger
      have h1 : ttisinteger (setfltvalue o1 q) = false := rfl
      have h2 : ttisfloat (setfltvalue o1 q) = true := rfl
      rw [if_neg (by rw [h1]; exact Bool.false_ne_true), if_pos h2]
      show (if q.den = 1 ∧ LUA_MININTEGER ≤ q.num ∧ q.num ≤ (LUA_MAXINTEGER : Int)
        then some q.num else none) = none
      rw [if_neg (fun h => hq h.1)]
    unfold luaO_arith
    have hb : isBitwiseOp LUA_OPBAND = true := rfl
    simp only [hb, if_true, hti]

theorem luaO_arith_fallback_witness :
    luaO_arith ratArithEnv LUA_OPADD (nilobject Rat) (setivalue (nilobject Rat) 1)
        (nilobject Rat) =
      ArithOutcome.trybinTM (nilobject Rat) (setivalue (nilobject Rat) 1)
        ((LUA_OPADD - LUA_OPADD) + ratArithEnv.TM_ADD) :=
  (luaO_arith_fallback ratArithEnv LUA_OPADD (nilobject Rat) (setivalue (nilobject Rat) 1)
    (nilobject Rat)).2.1 (by unfold ArithCoercible; decide)

/-! ## `luaO_pushvfstring` -/

theorem strchr_percent_length (s e : List Char) (h : strchr_percent s = some e) :
    e.length ≤ s.length ∧ 0 < e.length := by
  induction s with
  | nil => simp [strchr_percent] at h
  | cons c cs ih =>
    unfold strchr_percent at h
    split at h
    · cases h; simp
    · split at h
      · cases h
      · have := ih h
        simp only [List.length_cons]
        omega

theorem pushvfstringLoop_none {F : Type} (P : Platform F) (p2s : Nat → List Char)
    (pfs : List Char → List (VArg F) → PushOutcome)
    (fmt : List Char) (argp : List (VArg F)) (stack : List (List Char)) (n : Nat)
    (h : strchr_percent fmt = none) :
    pushvfstringLoop P p2s pfs fmt argp stack n =
      PushOutcome.pushed (svalueTop
        (if n > 0 then luaV_concat (pushstr stack fmt (strlen fmt)) (n + 1)
          else pushstr stack fmt (strlen fmt))) := by
  rw [pushvfstringLoop]
  split
  · rfl
  · rename_i e he
    rw [h] at he
    cases he

theorem pushvfstringLoop_some {F : Type} (P : Platform F) (p2s : Nat → List Char)
    (pfs : List Char → List (VArg F) → PushOutcome)
    (fmt e : List Char) (argp : List (VArg F)) (stack : List (List Char)) (n : Nat)
    (h : strchr_percent fmt = some e) :
    pushvfstringLoop P p2s pfs fmt argp stack n =
      match pushvfstringSwitch P p2s pfs (peek e.tail) argp
          (pushstr stack fmt (ptrdiff fmt e)) with
      | SwitchOutcome.next stack1 argp1 =>
        pushvfstringLoop P p2s pfs (e.drop 2) argp1 stack1 (n + 2)
      | SwitchOutcome.runerror c => PushOutcome.runerror c
      | SwitchOutcome.undefined => PushOutcome.undefined := by
  rw [pushvfstringLoop]
  split
  · rename_i he
    rw [h] at he
    cases he
  · rename_i e1 he
    rw [h] at he
    cases he
    rfl

theorem strchr_percent_some_decomp (s e : List Char) (h : strchr_percent s = some e) :
    ∃ pre t, s = pre ++ '%' :: t ∧ e = '%' :: t ∧ '%' ∉ pre := by
  induction s with
  | nil => simp [strchr_percent] at h
  | cons c cs ih =>
    unfold strchr_percent at h
    split at h
    · rename_i hc
      cases h
      exact ⟨[], cs, by simp [hc], by simp [hc], by simp⟩
    · split at h
      · cases h
      · rename_i hc _
        obtain ⟨pre, t, h1, h2, h3⟩ := ih h
        refine ⟨c :: pre, t, by simp [h1], h2, ?_⟩
        simp only [List.mem_cons, not_or]
        exact ⟨fun hh => hc hh.symm, h3⟩

theorem strchr_percent_none_not_mem (s : List Char) (hnul : NUL ∉ s)
    (h : strchr_percent s = none) : '%' ∉ s := by
  induction s with
  | nil => simp
  | cons c cs ih =>
    unfold strchr_percent at h
    simp only [List.mem_cons, not_or] at hnul ⊢
    split at h
    · cases h
    · rename_i hc
      split at h
      · rename_i hz
        exact absurd hz.symm hnul.1
      · exact ⟨fun hh => hc hh.symm, ih hnul.2 h⟩

theorem take_strlen (s : List Char) : s.take (strlen s) = s.takeWhile (fun x => x ≠ NUL) := by
  induction s with
  | nil => rfl
  | cons c cs ih =>
    unfold strlen
    by_cases hc : c = NUL
    · simp [hc]
    · simp [hc, ih]

theorem prepend_nil (o : PushOutcome) : o.prepend [] = o := by
  cases o <;> rfl

theorem prepend_prepend (a b : List Char) (o : PushOutcome) :
    (o.prepend b).prepend a = o.prepend (a ++ b) := by
  cases o <;> simp [PushOutcome.prepend]

theorem prepend_eq_undefined (a : List Char) (o : PushOutcome) (h : o = PushOutcome.undefined) :
    o.prepend a = PushOutcome.undefined := by
  rw [h]; rfl

theorem formatSpec_cons_lit {F : Type} (P : Platform F) (p2s : Nat → List Char) (c : Char)
    (s : List Char) (args : List (VArg F)) (hc : c ≠ '%') :
    formatSpec P p2s (c :: s) args = (formatSpec P p2s s args).prepend [c] := by
  cases s with
  | nil => simp [formatSpec, hc, PushOutcome.prepend]
  | cons d rest => simp only [formatSpec, if_neg hc]

theorem formatSpec_append_lit {F : Type} (P : Platform F) (p2s : Nat → List Char)
    (pre rest : List Char) (args : List (VArg F)) (hpre : '%' ∉ pre) :
    formatSpec P p2s (pre ++ rest) args = (formatSpec P p2s rest args).prepend pre := by
  induction pre with
  | nil => simp [prepend_nil]
  | cons c pre ih =>
    simp only [List.mem_cons, not_or] at hpre
    rw [List.cons_append, formatSpec_cons_lit P p2s c _ args (fun h => hpre.1 h.symm),
      ih hpre.2, prepend_prepend]
    rfl

theorem formatSpec_lit {F : Type} (P : Platform F) (p2s : Nat → List Char)
    (s : List Char) (args : List (VArg F)) (hs : '%' ∉ s) :
    formatSpec P p2s s args = PushOutcome.pushed s := by
  have h := formatSpec_append_lit P p2s s [] args hs
  rw [List.append_nil] at h
  rw [h]
  simp [formatSpec, PushOutcome.prepend]

theorem final_top (stack : List (List Char)) (x : List Char) :
    svalueTop (if stack.length > 0 then luaV_concat (stack ++ [x]) (stack.length + 1)
      else stack ++ [x]) = stack.flatten ++ x := by
  by_cases h : stack.length > 0
  · rw [if_pos h]
    unfold luaV_concat svalueTop
    simp
  · rw [if_neg h]
    have : stack = [] := List.length_eq_zero.mp (by omega)
    subst this
    rfl

theorem luaO_tostring_int {F : Type} (P : Platform F) (o : TValue F) (i : Int) :
    luaO_tostring P (setivalue o i) = lua_integer2str i := rfl

theorem pushvfstringSwitch_percent {F : Type} (P : Platform F) (p2s : Nat → List Char)
    (pfs : List Char → List (VArg F) → PushOutcome) (argp : List (VArg F))
    (stack : List (List Char)) :
    pushvfstringSwitch P p2s pfs '%' argp stack = SwitchOutcome.next (stack ++ [['%']]) argp := by
  unfold pushvfstringSwitch
  rw [if_neg (by decide), if_neg (by decide), if_neg (by decide), if_neg (by decide),
    if_neg (by decide), if_neg (by decide), if_neg (by decide), if_pos rfl]
  rfl

theorem pushvfstringSwitch_other {F : Type} (P : Platform F) (p2s : Nat → List Char)
    (pfs : List Char → List (VArg F) → PushOutcome) (d : Char) (argp : List (VArg F))
    (stack : List (List Char))
    (hd : ¬ (d = 's' ∨ d = 'c' ∨ d = 'd' ∨ d = 'I' ∨ d = 'f' ∨ d = 'p' ∨ d = 'U'))
    (hp : d ≠ '%') :
    pushvfstringSwitch P p2s pfs d argp stack = SwitchOutcome.runerror d := by
  simp only [not_or] at hd
  unfold pushvfstringSwitch
  rw [if_neg hd.1, if_neg hd.2.1, if_neg hd.2.2.1, if_neg hd.2.2.2.1, if_neg hd.2.2.2.2.1,
    if_neg hd.2.2.2.2.2.1, if_neg hd.2.2.2.2.2.2, if_neg hp]

theorem utf8esc_text (x : Int) (h0 : 0 ≤ x) (hx : x ≤ 0x10FFFF) :
    (((luaO_utf8esc (List.replicate UTF8BUFFSZ 0) (castUnsigned x)).2.drop
        (UTF8BUFFSZ - (luaO_utf8esc (List.replicate UTF8BUFFSZ 0) (castUnsigned x)).1)).map
          Char.ofNat).take (luaO_utf8esc (List.replicate UTF8BUFFSZ 0) (castUnsigned x)).1 =
      (utf8Encode x.toNat).map Char.ofNat := by
  have hc : castUnsigned x = x.toNat := by
    have := castUnsigned_of_lt x.toNat (by omega)
    rwa [Int.toNat_of_nonneg h0] at this
  rw [hc, luaO_utf8esc_eq (List.replicate UTF8BUFFSZ 0) x.toNat rfl (by omega)]
  have hl := utf8Encode_length x.toNat
  have hlen : (utf8Encode x.toNat).length ≤ 4 := by
    rw [hl]; split
    · omega
    · split
      · omega
      · split <;> omega
  simp only
  rw [List.drop_left']
  · rw [← List.length_map (utf8Encode x.toNat) Char.ofNat, List.take_length]
  · simp only [List.length_take, List.length_replicate, UTF8BUFFSZ]
    omega

theorem pushvfstringSwitch_render {F : Type} (P : Platform F) (p2s : Nat → List Char)
    (pfs : List Char → List (VArg F) → PushOutcome)
    (hpfs : ∀ b : Nat, pfs escapeFormat [VArg.int (b : Int)] =
      PushOutcome.pushed (['<', Char.ofNat 92] ++ Nat.toDigits 10 b ++ ['>']))
    (d : Char) (a : VArg F) (args : List (VArg F)) (stack : List (List Char)) (r : List Char)
    (hr : renderDirective P p2s d a = some r) :
    pushvfstringSwitch P p2s pfs d (a :: args) stack = SwitchOutcome.next (stack ++ [r]) args := by
  unfold renderDirective at hr
  cases a with
  | str s =>
    cases s with
    | none =>
      simp only at hr
      split at hr
      · rename_i hd
        cases hr
        subst hd
        unfold pushvfstringSwitch
        rw [if_pos rfl]
        rfl
      · cases hr
    | some t =>
      simp only at hr
      split at hr
      · rename_i hd
        cases hr
        subst hd
        unfold pushvfstringSwitch
        rw [if_pos rfl]
        simp only [pushstr, take_strlen]
      · cases hr
  | int i =>
    simp only at hr
    split at hr
    · rename_i hd
      cases hr
      subst hd
      unfold pushvfstringSwitch
      rw [if_neg (by decide), if_neg (by decide), if_pos rfl]
      rfl
    · split at hr
      · rename_i hd
        cases hr
        subst hd
        unfold pushvfstringSwitch
        rw [if_neg (by decide), if_pos rfl]
        simp only
        by_cases hp : lisprint (i % 256).toNat = true
        · rw [if_pos hp, if_pos hp]
          rfl
        · rw [if_neg hp, if_neg hp, hpfs]
      · cases hr
  | integer i =>
    simp only at hr
    split at hr
    · rename_i hd
      cases hr
      subst hd
      unfold pushvfstringSwitch
      rw [if_neg (by decide), if_neg (by decide), if_neg (by decide), if_pos rfl]
      rfl
    · cases hr
  | number x =>
    simp only at hr
    split at hr
    · rename_i hd
      cases hr
      subst hd
      unfold pushvfstringSwitch
      rw [if_neg (by decide), if_neg (by decide), if_neg (by decide), if_neg (by decide),
        if_pos rfl]
    · cases hr
  | pointer p =>
    simp only at hr
    split at hr
    · rename_i hd
      cases hr
      subst hd
      unfold pushvfstringSwitch
      rw [if_neg (by decide), if_neg (by decide), if_neg (by decide), if_neg (by decide),
        if_neg (by decide), if_pos rfl]
      simp only [pushstr, List.take_length]
    · cases hr
  | long x =>
    simp only at hr
    split at hr
    · rename_i hd
      cases hr
      obtain ⟨hd, h0, hx⟩ := hd
      subst hd
      unfold pushvfstringSwitch
      rw [if_neg (by decide), if_neg (by decide), if_neg (by decide), if_neg (by decide),
        if_neg (by decide), if_neg (by decide), if_pos rfl]
      simp only [pushstr]
      rw [utf8esc_text x h0 hx]
    · cases hr

theorem pushvfstringLoop_spec {F : Type} (P : Platform F) (p2s : Nat → List Char)
    (pfs : List Char → List (VArg F) → PushOutcome)
    (hpfs : ∀ b : Nat, pfs escapeFormat [VArg.int (b : Int)] =
      PushOutcome.pushed (['<', Char.ofNat 92] ++ Nat.toDigits 10 b ++ ['>'])) :
    ∀ (k : Nat) (fmt : List Char) (argp : List (VArg F)) (stack : List (List Char)),
      fmt.length ≤ k → NUL ∉ fmt →
      formatSpec P p2s fmt argp = PushOutcome.undefined ∨
        pushvfstringLoop P p2s pfs fmt argp stack stack.length =
          (formatSpec P p2s fmt argp).prepend stack.flatten := by
  intro k
  induction k with
  | zero =>
    intro fmt argp stack hk _
    have hf : fmt = [] := List.length_eq_zero.mp (by omega)
    subst hf
    right
    rw [pushvfstringLoop_none P p2s pfs [] argp stack _ rfl]
    simp only [pushstr]
    rw [final_top]
    simp [formatSpec, PushOutcome.prepend, strlen]
  | succ k ih =>
    intro fmt argp stack hk hnul
    cases hs : strchr_percent fmt with
    | none =>
      right
      have hp := strchr_percent_none_not_mem fmt hnul hs
      rw [pushvfstringLoop_none P p2s pfs fmt argp stack _ hs]
      simp only [pushstr]
      rw [final_top, formatSpec_lit P p2s fmt argp hp, strlen_eq_length fmt hnul,
        List.take_length]
      rfl
    | some e =>
      obtain ⟨pre, t, hfmt, he, hpre⟩ := strchr_percent_some_decomp fmt e hs
      subst he
      have hdiff : ptrdiff fmt ('%' :: t) = pre.length := by
        rw [hfmt]; unfold ptrdiff; simp
      have htake : fmt.take pre.length = pre := by
        rw [hfmt]; exact List.take_left' rfl
      have hloop := pushvfstringLoop_some P p2s pfs fmt ('%' :: t) argp stack stack.length hs
      rw [hdiff] at hloop
      simp only [pushstr, htake, List.tail_cons] at hloop
      have hspec : formatSpec P p2s fmt argp =
          (formatSpec P p2s ('%' :: t) argp).prepend pre := by
        rw [hfmt]; exact formatSpec_append_lit P p2s pre _ argp hpre
      rw [hspec, hloop]
      cases t with
      | nil =>
        right
        have hsw : pushvfstringSwitch P p2s pfs (peek []) argp (stack ++ [pre]) =
            SwitchOutcome.runerror NUL :=
          pushvfstringSwitch_other P p2s pfs NUL argp _ (by decide) (by decide)
        rw [hsw]
        simp [formatSpec, PushOutcome.prepend]
      | cons d rest =>
        have hrest : rest.length ≤ k := by
          have : fmt.length = pre.length + (rest.length + 2) := by rw [hfmt]; simp
          omega
        have hnrest : NUL ∉ rest := by
          intro hm
          apply hnul
          rw [hfmt]
          simp [hm]
        have hpk : peek (d :: rest) = d := rfl
        have hdrop : ('%' :: d :: rest).drop 2 = rest := rfl
        rw [hpk, hdrop]
        by_cases hd : d = '%'
        · subst hd
          have hfs : formatSpec P p2s ('%' :: '%' :: rest) argp =
              (formatSpec P p2s rest argp).prepend ['%'] := by
            simp only [formatSpec, if_true]
          rw [hfs, pushvfstringSwitch_percent]
          have hlen : (stack ++ [pre] ++ [['%']]).length = stack.length + 2 := by simp
          rcases ih rest argp (stack ++ [pre] ++ [['%']]) hrest hnrest with hu | hl
          · left
            rw [hu]; rfl
          · right
            rw [hlen] at hl
            simp only [hl, prepend_prepend]
            simp
        · by_cases hdir : d = 's' ∨ d = 'c' ∨ d = 'd' ∨ d = 'I' ∨ d = 'f' ∨ d = 'p' ∨ d = 'U'
          · cases argp with
            | nil =>
              left
              simp only [formatSpec, if_true, if_neg hd, if_pos hdir]
              rfl
            | cons a args1 =>
              cases hr : renderDirective P p2s d a with
              | none =>
                left
                simp only [formatSpec, if_true, if_neg hd, if_pos hdir, hr]
                rfl
              | some r =>
                have hfs : formatSpec P p2s ('%' :: d :: rest) (a :: args1) =
                    (formatSpec P p2s rest args1).prepend r := by
                  simp only [formatSpec, if_true, if_neg hd, if_pos hdir, hr]
                rw [hfs, pushvfstringSwitch_render P p2s pfs hpfs d a args1 _ r hr]
                have hlen : (stack ++ [pre] ++ [r]).length = stack.length + 2 := by simp
                rcases ih rest args1 (stack ++ [pre] ++ [r]) hrest hnrest with hu | hl
                · left
                  rw [hu]; rfl
                · right
                  rw [hlen] at hl
                  simp only [hl, prepend_prepend]
                  simp
          · right
            have hfs : formatSpec P p2s ('%' :: d :: rest) argp = PushOutcome.runerror d := by
              simp only [formatSpec, if_true, if_neg hd, if_neg hdir]
            rw [hfs, pushvfstringSwitch_other P p2s pfs d argp _ hdir hd]
            rfl

theorem pushvfstringLoop_escape {F : Type} (P : Platform F) (p2s : Nat → List Char)
    (pfs : List Char → List (VArg F) → PushOutcome) (b : Nat) :
    pushvfstringLoop P p2s pfs escapeFormat [VArg.int (b : Int)] [] 0 =
      PushOutcome.pushed (['<', Char.ofNat 92] ++ Nat.toDigits 10 b ++ ['>']) := by
  have h1 : strchr_percent escapeFormat = some ['%', 'd', '>'] := by decide
  rw [pushvfstringLoop_some P p2s pfs escapeFormat _ _ [] 0 h1]
  have hsw : pushvfstringSwitch P p2s pfs (peek ['%', 'd', '>'].tail) [VArg.int (b : Int)]
      (pushstr [] escapeFormat (ptrdiff escapeFormat ['%', 'd', '>'])) =
      SwitchOutcome.next [['<', Char.ofNat 92], Nat.toDigits 10 b] [] := by
    have hpk : peek ['%', 'd', '>'].tail = 'd' := rfl
    rw [hpk]
    unfold pushvfstringSwitch
    rw [if_neg (by decide), if_neg (by decide), if_pos rfl]
    simp only [luaO_tostring_int, lua_integer2str_eq, signText]
    have hb : ¬ ((b : Int) < 0) := by omega
    simp only [hb, if_false, Int.natAbs_ofNat]
    rfl
  rw [hsw]
  have h2 : strchr_percent (['%', 'd', '>'].drop 2) = none := by decide
  show pushvfstringLoop P p2s pfs (['%', 'd', '>'].drop 2) []
    [['<', Char.ofNat 92], Nat.toDigits 10 b] (0 + 2) = _
  rw [pushvfstringLoop_none P p2s pfs _ _ _ _ h2]
  simp [luaV_concat, pushstr, svalueTop, strlen, NUL]

theorem luaO_pushvfstring_spec {F : Type} (P : Platform F) (p2s : Nat → List Char)
    (fmt : List Char) (argp : List (VArg F)) (hnul : NUL ∉ fmt) :
    formatSpec P p2s fmt argp = PushOutcome.undefined ∨
      luaO_pushvfstring P p2s fmt argp = formatSpec P p2s fmt argp := by
  have h := pushvfstringLoop_spec P p2s
    (fun fmt1 argp1 =>
      pushvfstringLoop P p2s (fun _ _ => PushOutcome.undefined) fmt1 argp1 [] 0)
    (fun b => pushvfstringLoop_escape P p2s _ b) fmt.length fmt argp [] (le_refl _) hnul
  rcases h with h | h
  · exact Or.inl h
  · right
    have h1 : luaO_pushvfstring P p2s fmt argp = (formatSpec P p2s fmt argp).prepend [] := h
    rw [h1, prepend_nil]

theorem pushvfstringSwitch_congr {F : Type} (P : Platform F) (p2s : Nat → List Char)
    (pfs1 pfs2 : List Char → List (VArg F) → PushOutcome)
    (h : ∀ b : Nat, pfs1 escapeFormat [VArg.int (b : Int)] =
      pfs2 escapeFormat [VArg.int (b : Int)])
    (c : Char) (argp : List (VArg F)) (stack : List (List Char)) :
    pushvfstringSwitch P p2s pfs1 c argp stack = pushvfstringSwitch P p2s pfs2 c argp stack := by
  unfold pushvfstringSwitch
  split
  · rfl
  · split
    · cases argp with
      | nil => rfl
      | cons a t =>
        cases a with
        | int i => simp only [h]
        | str s => rfl
        | integer i => rfl
        | number x => rfl
        | pointer p => rfl
        | long x => rfl
    · rfl

theorem pushvfstringLoop_congr {F : Type} (P : Platform F) (p2s : Nat → List Char)
    (pfs1 pfs2 : List Char → List (VArg F) → PushOutcome)
    (h : ∀ b : Nat, pfs1 escapeFormat [VArg.int (b : Int)] =
      pfs2 escapeFormat [VArg.int (b : Int)]) :
    ∀ (k : Nat) (fmt : List Char) (argp : List (VArg F)) (stack : List (List Char)) (n : Nat),
      fmt.length ≤ k →
      pushvfstringLoop P p2s pfs1 fmt argp stack n =
        pushvfstringLoop P p2s pfs2 fmt argp stack n := by
  intro k
  induction k with
  | zero =>
    intro fmt argp stack n hk
    have hf : fmt = [] := List.length_eq_zero.mp (by omega)
    subst hf
    rw [pushvfstringLoop_none P p2s pfs1 [] argp stack n rfl,
      pushvfstringLoop_none P p2s pfs2 [] argp stack n rfl]
  | succ k ih =>
    intro fmt argp stack n hk
    cases hs : strchr_percent fmt with
    | none =>
      rw [pushvfstringLoop_none P p2s pfs1 fmt argp stack n hs,
        pushvfstringLoop_none P p2s pfs2 fmt argp stack n hs]
    | some e =>
      rw [pushvfstringLoop_some P p2s pfs1 fmt e argp stack n hs,
        pushvfstringLoop_some P p2s pfs2 fmt e argp stack n hs,
        pushvfstringSwitch_congr P p2s pfs1 pfs2 h]
      have hlen := strchr_percent_length fmt e hs
      split
      · apply ih
        simp only [List.length_drop]
        omega
      · rfl
      · rfl

/-- The recursive equation of the source: the function called in the case `'c'` is
`luaO_pushvfstring` itself. -/
theorem luaO_pushvfstring_unfold {F : Type} (P : Platform F) (p2s : Nat → List Char)
    (fmt : List Char) (argp : List (VArg F)) :
    luaO_pushvfstring P p2s fmt argp =
      pushvfstringLoop P p2s (luaO_pushvfstring P p2s) fmt argp [] 0 := by
  have h : ∀ b : Nat,
      (fun fmt1 argp1 =>
          pushvfstringLoop P p2s (fun _ _ => PushOutcome.undefined) fmt1 argp1 [] 0)
        escapeFormat [VArg.int (b : Int)] =
      luaO_pushvfstring P p2s escapeFormat [VArg.int (b : Int)] := by
    intro b
    unfold luaO_pushvfstring
    simp only [pushvfstringLoop_escape]
  exact pushvfstringLoop_congr P p2s _ _ h fmt.length fmt argp [] 0 (le_refl _)

theorem renderDirective_dir {F : Type} (P : Platform F) (p2s : Nat → List Char) (d : Char)
    (a : VArg F) (r : List Char) (hr : renderDirective P p2s d a = some r) :
    (d = 's' ∨ d = 'c' ∨ d = 'd' ∨ d = 'I' ∨ d = 'f' ∨ d = 'p' ∨ d = 'U') ∧ d ≠ '%' := by
  have hdir : d = 's' ∨ d = 'c' ∨ d = 'd' ∨ d = 'I' ∨ d = 'f' ∨ d = 'p' ∨ d = 'U' := by
    unfold renderDirective at hr
    cases a with
    | str s =>
      cases s with
      | none =>
        simp only at hr
        split at hr
        · rename_i hd; exact Or.inl hd
        · cases hr
      | some t =>
        simp only at hr
        split at hr
        · rename_i hd; exact Or.inl hd
        · cases hr
    | int i =>
      simp only at hr
      split at hr
      · rename_i hd; exact Or.inr (Or.inr (Or.inl hd))
      · split at hr
        · rename_i hd; exact Or.inr (Or.inl hd)
        · cases hr
    | integer i =>
      simp only at hr
      split at hr
      · rename_i hd; exact Or.inr (Or.inr (Or.inr (Or.inl hd)))
      · cases hr
    | number x =>
      simp only at hr
      split at hr
      · rename_i hd; exact Or.inr (Or.inr (Or.inr (Or.inr (Or.inl hd))))
      · cases hr
    | pointer p =>
      simp only at hr
      split at hr
      · rename_i hd; exact Or.inr (Or.inr (Or.inr (Or.inr (Or.inr (Or.inl hd)))))
      · cases hr
    | long x =>
      simp only at hr
      split at hr
      · rename_i hd; exact Or.inr (Or.inr (Or.inr (Or.inr (Or.inr (Or.inr hd.1)))))
      · cases hr
  refine ⟨hdir, ?_⟩
  rcases hdir with h | h | h | h | h | h | h <;> rw [h] <;> decide

/-- C20: for a format text (a C string) that the format language accepts with the
arguments given, that is whose directives are all among `%d`, `%I`, `%f`, `%c`, `%s`,
`%p`, `%U` and `%%` and each meet a next argument of their type, `luaO_pushvfstring`
returns the text the language defines: the literal runs as they are and the rendering
of each directive, from left to right, the arguments taken in order and `%%` rendered as
one `'%'`.  A format without `'%'` is returned unchanged, and `"%d and %s"` with the
arguments `(3, "x")` gives `"3 and x"`. -/
theorem luaO_pushvfstring_concat {F : Type} (P : Platform F) (p2s : Nat → List Char)
    (fmt : List Char) (argp : List (VArg F)) (out : List Char) (hnul : NUL ∉ fmt)
    (hspec : formatSpec P p2s fmt argp = PushOutcome.pushed out) :
    luaO_pushvfstring P p2s fmt argp = PushOutcome.pushed out ∧
      ('%' ∉ fmt → out = fmt ∧ luaO_pushvfstring P p2s fmt argp = PushOutcome.pushed fmt) ∧
      luaO_pushvfstring P p2s ['%', 'd', ' ', 'a', 'n', 'd', ' ', '%', 's']
          [VArg.int 3, VArg.str (some ['x'])] =
        PushOutcome.pushed ['3', ' ', 'a', 'n', 'd', ' ', 'x'] ∧
      (∀ (lit rest : List Char) (args : List (VArg F)), '%' ∉ lit →
        formatSpec P p2s (lit ++ rest) args = (formatSpec P p2s rest args).prepend lit) ∧
      (∀ (rest : List Char) (args : List (VArg F)),
        formatSpec P p2s ('%' :: '%' :: rest) args =
          (formatSpec P p2s rest args).prepend ['%']) ∧
      (∀ (d : Char) (a : VArg F) (r rest : List Char) (args : List (VArg F)),
        renderDirective P p2s d a = some r →
        formatSpec P p2s ('%' :: d :: rest) (a :: args) =
          (formatSpec P p2s rest args).prepend r) := by
  have hcode : luaO_pushvfstring P p2s fmt argp = PushOutcome.pushed out := by
    rcases luaO_pushvfstring_spec P p2s fmt argp hnul with h | h
    · rw [hspec] at h
      cases h
    · rw [h, hspec]
  refine ⟨hcode, fun hp => ?_, ?_, fun lit rest args hl => ?_, fun rest args => ?_,
    fun d a r rest args hr => ?_⟩
  · have h := formatSpec_lit P p2s fmt argp hp
    rw [hspec] at h
    cases h
    exact ⟨rfl, hcode⟩
  · have hex : formatSpec P p2s ['%', 'd', ' ', 'a', 'n', 'd', ' ', '%', 's']
        [VArg.int 3, VArg.str (some ['x'])] =
        PushOutcome.pushed ['3', ' ', 'a', 'n', 'd', ' ', 'x'] := rfl
    rcases luaO_pushvfstring_spec P p2s ['%', 'd', ' ', 'a', 'n', 'd', ' ', '%', 's']
        [VArg.int 3, VArg.str (some ['x'])] (by decide) with h | h
    · rw [hex] at h
      cases h
    · rw [h, hex]
  · exact formatSpec_append_lit P p2s lit rest args hl
  · simp only [formatSpec, if_true]
  · obtain ⟨hdir, hd⟩ := renderDirective_dir P p2s d a r hr
    simp only [formatSpec, if_true, if_neg hd, if_pos hdir, hr]

theorem luaO_pushvfstring_concat_witness :
    luaO_pushvfstring ratPlatform (fun _ => ['0', 'x', '0'])
        ['%', 's', ':', ' ', '%', 'c', '%', '%', ' ', '%', 'I']
        [VArg.str none, VArg.int 7, VArg.integer (-12)] =
      PushOutcome.pushed ['(', 'n', 'u', 'l', 'l', ')', ':', ' ', '<', Char.ofNat 92, '7', '>',
        '%', ' ', '-', '1', '2'] :=
  (luaO_pushvfstring_concat ratPlatform (fun _ => ['0', 'x', '0'])
    ['%', 's', ':', ' ', '%', 'c', '%', '%', ' ', '%', 'I']
    [VArg.str none, VArg.int 7, VArg.integer (-12)] _ (by decide) (by rfl)).1

/-! ## `luaO_pushvfstring`: the error and the byte and string directives -/

theorem pushvfstringSwitch_directive {F : Type} (P : Platform F) (p2s : Nat → List Char)
    (pfs : List Char → List (VArg F) → PushOutcome)
    (hpfs : ∀ b : Nat, pfs escapeFormat [VArg.int (b : Int)] =
      PushOutcome.pushed (['<', Char.ofNat 92] ++ Nat.toDigits 10 b ++ ['>']))
    (d : Char) (argp : List (VArg F)) (stack : List (List Char))
    (hd : d = 's' ∨ d = 'c' ∨ d = 'd' ∨ d = 'I' ∨ d = 'f' ∨ d = 'p' ∨ d = 'U' ∨ d = '%') :
    (∃ stack1 argp1, pushvfstringSwitch P p2s pfs d argp stack =
        SwitchOutcome.next stack1 argp1) ∨
      pushvfstringSwitch P p2s pfs d argp stack = SwitchOutcome.undefined := by
  rcases hd with h | h | h | h | h | h | h | h <;> subst h
  · unfold pushvfstringSwitch
    rw [if_pos rfl]
    cases argp with
    | nil => right; rfl
    | cons a t => cases a <;> first | (right; rfl) | (left; exact ⟨_, _, rfl⟩)
  · unfold pushvfstringSwitch
    rw [if_neg (by decide), if_pos rfl]
    cases argp with
    | nil => right; rfl
    | cons a t =>
      cases a with
      | int i =>
        left
        simp only [hpfs]
        split
        · exact ⟨_, _, rfl⟩
        · exact ⟨_, _, rfl⟩
      | str s => right; rfl
      | integer i => right; rfl
      | number x => right; rfl
      | pointer p => right; rfl
      | long x => right; rfl
  · unfold pushvfstringSwitch
    rw [if_neg (by decide), if_neg (by decide), if_pos rfl]
    cases argp with
    | nil => right; rfl
    | cons a t => cases a <;> first | (right; rfl) | (left; exact ⟨_, _, rfl⟩)
  · unfold pushvfstringSwitch
    rw [if_neg (by decide), if_neg (by decide), if_neg (by decide), if_pos rfl]
    cases argp with
    | nil => right; rfl
    | cons a t => cases a <;> first | (right; rfl) | (left; exact ⟨_, _, rfl⟩)
  · unfold pushvfstringSwitch
    rw [if_neg (by decide), if_neg (by decide), if_neg (by decide), if_neg (by decide),
      if_pos rfl]
    cases argp with
    | nil => right; rfl
    | cons a t => cases a <;> first | (right; rfl) | (left; exact ⟨_, _, rfl⟩)
  · unfold pushvfstringSwitch
    rw [if_neg (by decide), if_neg (by decide), if_neg (by decide), if_neg (by decide),
      if_neg (by decide), if_pos rfl]
    cases argp with
    | nil => right; rfl
    | cons a t => cases a <;> first | (right; rfl) | (left; exact ⟨_, _, rfl⟩)
  · unfold pushvfstringSwitch
    rw [if_neg (by decide), if_neg (by decide), if_neg (by decide), if_neg (by decide),
      if_neg (by decide), if_neg (by decide), if_pos rfl]
    cases argp with
    | nil => right; rfl
    | cons a t => cases a <;> first | (right; rfl) | (left; exact ⟨_, _, rfl⟩)
  · left
    exact ⟨_, _, pushvfstringSwitch_percent P p2s pfs argp stack⟩

theorem badDirective_cons_lit (c : Char) (s : List Char) (hc : c ≠ '%') :
    badDirective (c :: s) = badDirective s := by
  cases s with
  | nil => simp [badDirective, hc]
  | cons d rest => simp only [badDirective, if_neg hc]

theorem badDirective_append_lit (pre rest : List Char) (hpre : '%' ∉ pre) :
    badDirective (pre ++ rest) = badDirective rest := by
  induction pre with
  | nil => rfl
  | cons c pre ih =>
    simp only [List.mem_cons, not_or] at hpre
    rw [List.cons_append, badDirective_cons_lit c _ (fun h => hpre.1 h.symm), ih hpre.2]

theorem badDirective_lit (s : List Char) (hs : '%' ∉ s) : badDirective s = none := by
  have h := badDirective_append_lit s [] hs
  rw [List.append_nil] at h
  rw [h]
  rfl

theorem pushvfstringLoop_error {F : Type} (P : Platform F) (p2s : Nat → List Char)
    (pfs : List Char → List (VArg F) → PushOutcome)
    (hpfs : ∀ b : Nat, pfs escapeFormat [VArg.int (b : Int)] =
      PushOutcome.pushed (['<', Char.ofNat 92] ++ Nat.toDigits 10 b ++ ['>'])) :
    ∀ (k : Nat) (fmt : List Char) (argp : List (VArg F)) (stack : List (List Char)) (n : Nat),
      fmt.length ≤ k → NUL ∉ fmt →
      (∀ c, badDirective fmt = some c →
          pushvfstringLoop P p2s pfs fmt argp stack n = PushOutcome.runerror c ∨
            pushvfstringLoop P p2s pfs fmt argp stack n = PushOutcome.undefined) ∧
        (badDirective fmt = none →
          (∃ s, pushvfstringLoop P p2s pfs fmt argp stack n = PushOutcome.pushed s) ∨
            pushvfstringLoop P p2s pfs fmt argp stack n = PushOutcome.undefined) := by
  intro k
  induction k with
  | zero =>
    intro fmt argp stack n hk _
    have hf : fmt = [] := List.length_eq_zero.mp (by omega)
    subst hf
    rw [pushvfstringLoop_none P p2s pfs [] argp stack n rfl]
    exact ⟨fun c hc => by simp [badDirective] at hc, fun _ => Or.inl ⟨_, rfl⟩⟩
  | succ k ih =>
    intro fmt argp stack n hk hnul
    cases hs : strchr_percent fmt with
    | none =>
      have hp := strchr_percent_none_not_mem fmt hnul hs
      rw [pushvfstringLoop_none P p2s pfs fmt argp stack n hs, badDirective_lit fmt hp]
      exact ⟨fun c hc => (by cases hc), fun _ => Or.inl ⟨_, rfl⟩⟩
    | some e =>
      obtain ⟨pre, t, hfmt, he, hpre⟩ := strchr_percent_some_decomp fmt e hs
      subst he
      have hloop := pushvfstringLoop_some P p2s pfs fmt ('%' :: t) argp stack n hs
      simp only [List.tail_cons] at hloop
      have hbad : badDirective fmt = badDirective ('%' :: t) := by
        rw [hfmt]; exact badDirective_append_lit pre _ hpre
      rw [hbad, hloop]
      cases t with
      | nil =>
        have hsw : pushvfstringSwitch P p2s pfs (peek []) argp
            (pushstr stack fmt (ptrdiff fmt ['%'])) = SwitchOutcome.runerror NUL :=
          pushvfstringSwitch_other P p2s pfs NUL argp _ (by decide) (by decide)
        rw [hsw]
        refine ⟨fun c hc => ?_, fun hc => ?_⟩
        · simp only [badDirective, if_true, Option.some.injEq] at hc
          subst hc
          exact Or.inl rfl
        · simp [badDirective] at hc
      | cons d rest =>
        have hrest : rest.length ≤ k := by
          have : fmt.length = pre.length + (rest.length + 2) := by rw [hfmt]; simp
          omega
        have hnrest : NUL ∉ rest := by
          intro hm
          apply hnul
          rw [hfmt]
          simp [hm]
        have hpk : peek (d :: rest) = d := rfl
        have hdrop : ('%' :: d :: rest).drop 2 = rest := rfl
        rw [hpk, hdrop]
        by_cases hd : d = 's' ∨ d = 'c' ∨ d = 'd' ∨ d = 'I' ∨ d = 'f' ∨ d = 'p' ∨ d = 'U' ∨
            d = '%'
        · have hb : badDirective ('%' :: d :: rest) = badDirective rest := by
            simp only [badDirective, if_true, if_pos hd]
          rw [hb]
          rcases pushvfstringSwitch_directive P p2s pfs hpfs d argp
              (pushstr stack fmt (ptrdiff fmt ('%' :: d :: rest))) hd with ⟨s1, a1, hsw⟩ | hsw
          · rw [hsw]
            exact ih rest a1 s1 (n + 2) hrest hnrest
          · rw [hsw]
            exact ⟨fun _ _ => Or.inr rfl, fun _ => Or.inr rfl⟩
        · have hb : badDirective ('%' :: d :: rest) = some d := by
            simp only [badDirective, if_true, if_neg hd]
          have hd1 : ¬ (d = 's' ∨ d = 'c' ∨ d = 'd' ∨ d = 'I' ∨ d = 'f' ∨ d = 'p' ∨ d = 'U') := by
            intro h
            apply hd
            rcases h with h | h | h | h | h | h | h <;> simp [h]
          have hd2 : d ≠ '%' := fun h => hd (by simp [h])
          rw [hb, pushvfstringSwitch_other P p2s pfs d argp _ hd1 hd2]
          refine ⟨fun c hc => ?_, fun hc => (by cases hc)⟩
          cases hc
          exact Or.inl rfl

theorem luaO_pushvfstring_error {F : Type} (P : Platform F) (p2s : Nat → List Char)
    (fmt : List Char) (argp : List (VArg F)) (hnul : NUL ∉ fmt) :
    (∀ c, badDirective fmt = some c →
        luaO_pushvfstring P p2s fmt argp = PushOutcome.runerror c ∨
          luaO_pushvfstring P p2s fmt argp = PushOutcome.undefined) ∧
      (badDirective fmt = none →
        (∃ s, luaO_pushvfstring P p2s fmt argp = PushOutcome.pushed s) ∨
          luaO_pushvfstring P p2s fmt argp = PushOutcome.undefined) :=
  pushvfstringLoop_error P p2s
    (fun fmt1 argp1 =>
      pushvfstringLoop P p2s (fun _ _ => PushOutcome.undefined) fmt1 argp1 [] 0)
    (fun b => pushvfstringLoop_escape P p2s _ b) fmt.length fmt argp [] 0 (le_refl _) hnul

theorem luaO_pushvfstring_runerror {F : Type} (P : Platform F) (p2s : Nat → List Char)
    (fmt : List Char) (argp : List (VArg F)) (hnul : NUL ∉ fmt) (c : Char)
    (h : luaO_pushvfstring P p2s fmt argp = PushOutcome.runerror c) :
    badDirective fmt = some c := by
  obtain ⟨h1, h2⟩ := luaO_pushvfstring_error P p2s fmt argp hnul
  cases hb : badDirective fmt with
  | none =>
    rcases h2 hb with ⟨s, hs⟩ | hu
    · rw [hs] at h; cases h
    · rw [hu] at h; cases h
  | some c1 =>
    rcases h1 c1 hb with hr | hu
    · rw [hr] at h
      cases h
      rfl
    · rw [hu] at h; cases h

theorem luaO_pushvfstring_of_spec {F : Type} (P : Platform F) (p2s : Nat → List Char)
    (fmt : List Char) (argp : List (VArg F)) (hnul : NUL ∉ fmt) (o : PushOutcome)
    (ho : formatSpec P p2s fmt argp = o) (hne : o ≠ PushOutcome.undefined) :
    luaO_pushvfstring P p2s fmt argp = o := by
  rcases luaO_pushvfstring_spec P p2s fmt argp hnul with h | h
  · rw [ho] at h
    exact absurd h hne
  · rw [h, ho]

/-- C21: a call of `luaO_pushvfstring` with defined behaviour (every `va_arg` it makes
finds an argument of its type) fails with the error, returning no text, if and only if
the scan of the format from left to right, two characters for a directive, meets a
`'%'` whose next character is none of `s`, `c`, `d`, `I`, `f`, `p`, `U`, `%`; the error
names that character, which is the terminator when the `'%'` is the last character of
the format.  Whatever the arguments are, the error arises only so.  A format with the
directive `%q` after text without `'%'` fails, and `%%q` does not. -/
theorem luaO_pushvfstring_fails_iff {F : Type} (P : Platform F) (p2s : Nat → List Char)
    (fmt : List Char) (argp : List (VArg F)) (hnul : NUL ∉ fmt)
    (hdef : luaO_pushvfstring P p2s fmt argp ≠ PushOutcome.undefined) :
    ((∃ c, luaO_pushvfstring P p2s fmt argp = PushOutcome.runerror c) ↔
        badDirective fmt ≠ none) ∧
      (∀ c, luaO_pushvfstring P p2s fmt argp = PushOutcome.runerror c ↔
        badDirective fmt = some c) ∧
      ((∃ s, luaO_pushvfstring P p2s fmt argp = PushOutcome.pushed s) ↔
        badDirective fmt = none) ∧
      (∀ (args1 : List (VArg F)) (c : Char),
        luaO_pushvfstring P p2s fmt args1 = PushOutcome.runerror c →
          badDirective fmt = some c) ∧
      (∀ (pre rest : List Char) (args1 : List (VArg F)), '%' ∉ pre → NUL ∉ pre ++ rest →
        luaO_pushvfstring P p2s (pre ++ '%' :: 'q' :: rest) args1 =
          PushOutcome.runerror 'q') ∧
      (∀ (pre : List Char) (args1 : List (VArg F)), '%' ∉ pre → NUL ∉ pre →
        luaO_pushvfstring P p2s (pre ++ ['%']) args1 = PushOutcome.runerror NUL) ∧
      (∀ args1 : List (VArg F),
        luaO_pushvfstring P p2s ['%', '%', 'q'] args1 = PushOutcome.pushed ['%', 'q']) := by
  obtain ⟨h1, h2⟩ := luaO_pushvfstring_error P p2s fmt argp hnul
  have hrun : ∀ c, luaO_pushvfstring P p2s fmt argp = PushOutcome.runerror c ↔
      badDirective fmt = some c := by
    intro c
    constructor
    · exact luaO_pushvfstring_runerror P p2s fmt argp hnul c
    · intro hb
      rcases h1 c hb with h | h
      · exact h
      · exact absurd h hdef
  refine ⟨⟨fun ⟨c, hc⟩ => ?_, fun hb => ?_⟩, hrun, ⟨fun ⟨s, hs⟩ => ?_, fun hb => ?_⟩,
    fun args1 c h => luaO_pushvfstring_runerror P p2s fmt args1 hnul c h,
    fun pre rest args1 hpre hn => ?_, fun pre args1 hpre hn => ?_, fun args1 => ?_⟩
  · rw [(hrun c).mp hc]
    exact Option.some_ne_none c
  · cases hbd : badDirective fmt with
    | none => exact absurd hbd hb
    | some c => exact ⟨c, (hrun c).mpr hbd⟩
  · cases hbd : badDirective fmt with
    | none => rfl
    | some c =>
      rw [(hrun c).mpr hbd] at hs
      cases hs
  · rcases h2 hb with h | h
    · exact h
    · exact absurd h hdef
  · have hsp : formatSpec P p2s (pre ++ '%' :: 'q' :: rest) args1 =
        PushOutcome.runerror 'q' := by
      rw [formatSpec_append_lit P p2s pre _ args1 hpre]
      have : formatSpec P p2s ('%' :: 'q' :: rest) args1 = PushOutcome.runerror 'q' := by
        simp only [formatSpec, if_true]
        rw [if_neg (by decide), if_neg (by decide)]
      rw [this]
      rfl
    have hn2 : NUL ∉ pre ++ '%' :: 'q' :: rest := by
      intro hm
      apply hn
      simp only [List.mem_append, List.mem_cons] at hm ⊢
      rcases hm with h | h | h | h
      · exact Or.inl h
      · exact absurd h (by decide)
      · exact absurd h (by decide)
      · exact Or.inr h
    exact luaO_pushvfstring_of_spec P p2s _ args1 hn2 _ hsp (by intro h; cases h)
  · have hsp : formatSpec P p2s (pre ++ ['%']) args1 = PushOutcome.runerror NUL := by
      rw [formatSpec_append_lit P p2s pre _ args1 hpre]
      rfl
    have hn2 : NUL ∉ pre ++ ['%'] := by
      intro hm
      simp only [List.mem_append, List.mem_singleton] at hm
      rcases hm with h | h
      · exact hn h
      · exact absurd h (by decide)
    exact luaO_pushvfstring_of_spec P p2s _ args1 hn2 _ hsp (by intro h; cases h)
  · exact luaO_pushvfstring_of_spec P p2s _ args1 (by decide) _ rfl (by intro h; cases h)

theorem luaO_pushvfstring_fails_iff_witness :
    luaO_pushvfstring ratPlatform (fun _ => ['0', 'x', '0']) ['n', '=', '%', 'd', '%', 'q']
        [VArg.int 1] = PushOutcome.runerror 'q' :=
  ((luaO_pushvfstring_fails_iff ratPlatform (fun _ => ['0', 'x', '0'])
    ['n', '=', '%', 'd', '%', 'q'] [VArg.int 1] (by decide)
    (by
      rw [luaO_pushvfstring_of_spec ratPlatform (fun _ => ['0', 'x', '0'])
        ['n', '=', '%', 'd', '%', 'q'] [VArg.int 1] (by decide) (PushOutcome.runerror 'q')
        rfl (by intro h; cases h)]
      intro h
      cases h)).2.1 'q').mpr rfl

/-- C22: the byte and string directives of `luaO_pushvfstring`.  For every argument of
`%c`, with `b` its value as an unsigned byte (`0..255`), the rendering is the single
byte `b` when `b` is printable and otherwise `'<'`, a backslash, the decimal digits of
`b` and `'>'`; `%s` with a `NULL` argument renders `(null)`.  This holds for the
directive alone and inside a format, after text without `'%'` and before a rest of the
format that is rendered as `out`. -/
theorem luaO_pushvfstring_byte_string {F : Type} (P : Platform F) (p2s : Nat → List Char)
    (i : Int) (lit rest : List Char) (args : List (VArg F)) (out : List Char)
    (hlit : '%' ∉ lit) (hnul : NUL ∉ lit ++ rest)
    (hrest : formatSpec P p2s rest args = PushOutcome.pushed out) :
    (i % 256).toNat < 256 ∧
      (lisprint (i % 256).toNat = true ↔ 32 ≤ (i % 256).toNat ∧ (i % 256).toNat ≤ 126) ∧
      (lisprint (i % 256).toNat = true →
        luaO_pushvfstring P p2s ['%', 'c'] [VArg.int i] =
          PushOutcome.pushed [Char.ofNat (i % 256).toNat]) ∧
      (lisprint (i % 256).toNat = false →
        luaO_pushvfstring P p2s ['%', 'c'] [VArg.int i] =
          PushOutcome.pushed
            (['<', Char.ofNat 92] ++ Nat.toDigits 10 (i % 256).toNat ++ ['>'])) ∧
      luaO_pushvfstring P p2s ['%', 's'] [VArg.str none] =
        PushOutcome.pushed ['(', 'n', 'u', 'l', 'l', ')'] ∧
      luaO_pushvfstring P p2s (lit ++ '%' :: 'c' :: rest) (VArg.int i :: args) =
        PushOutcome.pushed (lit ++
          (if lisprint (i % 256).toNat = true then [Char.ofNat (i % 256).toNat]
            else ['<', Char.ofNat 92] ++ Nat.toDigits 10 (i % 256).toNat ++ ['>']) ++ out) ∧
      luaO_pushvfstring P p2s (lit ++ '%' :: 's' :: rest) (VArg.str none :: args) =
        PushOutcome.pushed (lit ++ ['(', 'n', 'u', 'l', 'l', ')'] ++ out) := by
  have hb : (i % 256).toNat < 256 := by
    have h1 := Int.emod_lt_of_pos i (show (0 : Int) < 256 by norm_num)
    have h2 := Int.emod_nonneg i (show (256 : Int) ≠ 0 by norm_num)
    omega
  have hc : renderDirective P p2s 'c' (VArg.int i) =
      some (if lisprint (i % 256).toNat = true then [Char.ofNat (i % 256).toNat]
        else ['<', Char.ofNat 92] ++ Nat.toDigits 10 (i % 256).toNat ++ ['>']) := by
    unfold renderDirective
    simp only
    rw [if_neg (by decide), if_pos trivial]
  have hs : renderDirective P p2s 's' (VArg.str none) = some ['(', 'n', 'u', 'l', 'l', ')'] :=
    rfl
  have hfc : ∀ (r2 : List Char) (a2 : List (VArg F)),
      formatSpec P p2s ('%' :: 'c' :: r2) (VArg.int i :: a2) =
        (formatSpec P p2s r2 a2).prepend
          (if lisprint (i % 256).toNat = true then [Char.ofNat (i % 256).toNat]
            else ['<', Char.ofNat 92] ++ Nat.toDigits 10 (i % 256).toNat ++ ['>']) := by
    intro r2 a2
    simp only [formatSpec, if_true, hc]
    rw [if_neg (by decide), if_pos (by decide)]
  have hfs : ∀ (r2 : List Char) (a2 : List (VArg F)),
      formatSpec P p2s ('%' :: 's' :: r2) (VArg.str none :: a2) =
        (formatSpec P p2s r2 a2).prepend ['(', 'n', 'u', 'l', 'l', ')'] := by
    intro r2 a2
    simp only [formatSpec, if_true, hs]
    rw [if_neg (by decide), if_pos (by decide)]
  have hmem : ∀ d : Char, d ≠ NUL → NUL ∉ lit ++ '%' :: d :: rest := by
    intro d hd hm
    apply hnul
    simp only [List.mem_append, List.mem_cons] at hm ⊢
    rcases hm with h | h | h | h
    · exact Or.inl h
    · exact absurd h (by decide)
    · exact absurd h.symm hd
    · exact Or.inr h
  have hone : luaO_pushvfstring P p2s ['%', 'c'] [VArg.int i] =
      PushOutcome.pushed
        (if lisprint (i % 256).toNat = true then [Char.ofNat (i % 256).toNat]
          else ['<', Char.ofNat 92] ++ Nat.toDigits 10 (i % 256).toNat ++ ['>']) := by
    refine luaO_pushvfstring_of_spec P p2s _ _ (by decide) _ ?_ (by intro h; cases h)
    rw [hfc]
    simp [formatSpec, PushOutcome.prepend]
  refine ⟨hb, ?_, fun hp => ?_, fun hp => ?_, ?_, ?_, ?_⟩
  · simp [lisprint]
  · rw [hone, if_pos hp]
  · rw [hone, if_neg (by rw [hp]; exact Bool.false_ne_true)]
  · refine luaO_pushvfstring_of_spec P p2s _ _ (by decide) _ ?_ (by intro h; cases h)
    rw [hfs]
    simp [formatSpec, PushOutcome.prepend]
  · refine luaO_pushvfstring_of_spec P p2s _ _ (hmem 'c' (by decide)) _ ?_
      (by intro h; cases h)
    rw [formatSpec_append_lit P p2s lit _ _ hlit, hfc, hrest]
    simp [PushOutcome.prepend]
  · refine luaO_pushvfstring_of_spec P p2s _ _ (hmem 's' (by decide)) _ ?_
      (by intro h; cases h)
    rw [formatSpec_append_lit P p2s lit _ _ hlit, hfs, hrest]
    simp [PushOutcome.prepend]

theorem luaO_pushvfstring_byte_string_witness :
    luaO_pushvfstring ratPlatform (fun _ => ['0', 'x', '0'])
        (['c', 'h', 'a', 'r', ' '] ++ '%' :: 'c' :: [' ', '%', 's'])
        (VArg.int 263 :: [VArg.str (some ['x'])]) =
      PushOutcome.pushed (['c', 'h', 'a', 'r', ' '] ++
        (if lisprint ((263 : Int) % 256).toNat = true then [Char.ofNat ((263 : Int) % 256).toNat]
          else ['<', Char.ofNat 92] ++ Nat.toDigits 10 ((263 : Int) % 256).toNat ++ ['>']) ++
        [' ', 'x']) :=
  (luaO_pushvfstring_byte_string ratPlatform (fun _ => ['0', 'x', '0']) 263
    ['c', 'h', 'a', 'r', ' '] [' ', '%', 's'] [VArg.str (some ['x'])] [' ', 'x']
    (by decide) (by decide) (by rfl)).2.2.2.2.2.1

/-! ## `luaO_chunkid` -/

theorem sizeSub_eq (a b : Nat) (hb : b ≤ a) (ha : a < 2 ^ 64) : sizeSub a b = a - b := by
  unfold sizeSub SIZE_BITS
  have h64 : (2 : Nat) ^ 64 = 18446744073709551616 := by norm_num
  rw [h64] at ha ⊢
  have h1 : b % 18446744073709551616 = b := Nat.mod_eq_of_lt (by omega)
  rw [h1]
  omega

theorem memBytes_length (src : List Char) (off n : Nat) : (memBytes src off n).length = n := by
  simp [memBytes]

theorem memBytes_succ (src : List Char) (off n : Nat) :
    memBytes src off (n + 1) = memBytes src off n ++ [(src ++ [NUL]).getD (off + n) NUL] := by
  simp [memBytes, List.range_succ]

theorem memBytes_eq (src : List Char) (off n : Nat) (h : off + n ≤ src.length + 1) :
    memBytes src off n = ((src ++ [NUL]).drop off).take n := by
  induction n with
  | zero => simp [memBytes]
  | succ n ih =>
    rw [memBytes_succ, ih (by omega), List.take_succ, List.getElem?_drop]
    have hlt : off + n < (src ++ [NUL]).length := by simp; omega
    rw [List.getD_eq_getElem?_getD, List.getElem?_eq_getElem hlt]
    rfl

theorem memBytes_zero_take (src : List Char) (n : Nat) (h : n ≤ src.length) :
    memBytes src 0 n = src.take n := by
  rw [memBytes_eq src 0 n (by omega), List.drop_zero, List.take_append_of_le_length h]

theorem memBytes_tail (c : Char) (rest : List Char) (n : Nat) (h : n ≤ rest.length + 1) :
    memBytes (c :: rest) 1 n = (rest ++ [NUL]).take n := by
  rw [memBytes_eq (c :: rest) 1 n (by simp; omega)]
  rfl

theorem memBytes_RETS : memBytes RETS 0 (LL RETS) = RETS := by decide

theorem memBytes_PRE : memBytes PRE 0 (LL PRE) = PRE := by decide

theorem memBytes_POS : memBytes POS 0 (LL POS + 1) = POS ++ [NUL] := by decide

theorem cText_append_NUL (t rest : List Char) (h : NUL ∉ t) : cText (t ++ NUL :: rest) = t := by
  unfold cText
  induction t with
  | nil => simp
  | cons c cs ih =>
    simp only [List.mem_cons, not_or] at h
    have hc : c ≠ NUL := fun hh => h.1 hh.symm
    simp [List.takeWhile, hc]
    simpa using ih h.2

theorem strlen_cons_of_ne (c : Char) (rest : List Char) (hc : c ≠ NUL) (h : NUL ∉ rest) :
    strlen (c :: rest) = rest.length + 1 := by
  rw [strlen_eq_length (c :: rest) (by
    simp only [List.mem_cons, not_or]
    exact ⟨fun hh => hc hh.symm, h⟩)]
  rfl

theorem luaO_chunkid_eq_mark (rest : List Char) (bufflen : Nat) (hnul : NUL ∉ rest)
    (h1 : 1 ≤ bufflen) (h64 : bufflen < 2 ^ 64) :
    luaO_chunkid ('=' :: rest) bufflen = rest.take (min rest.length (bufflen - 1)) ++ [NUL] := by
  have hl : strlen ('=' :: rest) = rest.length + 1 :=
    strlen_cons_of_ne '=' rest (by decide) hnul
  unfold luaO_chunkid
  have hpk : peek ('=' :: rest) = '=' := rfl
  simp only [hpk, if_true, hl]
  by_cases hle : rest.length + 1 ≤ bufflen
  · rw [if_pos hle, memBytes_tail '=' rest _ (le_refl _)]
    have hmin : min rest.length (bufflen - 1) = rest.length := by omega
    rw [hmin, List.take_length]
    have : (rest ++ [NUL]).length = rest.length + 1 := by simp
    rw [← this, List.take_length]
  · rw [if_neg hle, sizeSub_eq bufflen 1 h1 h64, memBytes_tail '=' rest _ (by omega)]
    have hmin : min rest.length (bufflen - 1) = bufflen - 1 := by omega
    rw [hmin, List.take_append_of_le_length (by omega)]

/-- C23: `luaO_chunkid` on a source that begins with `'='`, with a limit `bufflen ≥ 1`,
writes the text after the `'='` as it is, cut to the limit, with no ellipsis: the output
is the first `min(strlen(source) - 1, bufflen - 1)` bytes of that text and the
terminator; `"=short"` with the limit 60 gives `"short"`. -/
theorem luaO_chunkid_literal (rest : List Char) (bufflen : Nat) (hnul : NUL ∉ rest)
    (h1 : 1 ≤ bufflen) (h64 : bufflen < 2 ^ 64) :
    luaO_chunkid ('=' :: rest) bufflen =
        rest.take (min (strlen ('=' :: rest) - 1) (bufflen - 1)) ++ [NUL] ∧
      cText (luaO_chunkid ('=' :: rest) bufflen) =
        rest.take (min (strlen ('=' :: rest) - 1) (bufflen - 1)) ∧
      (strlen ('=' :: rest) ≤ bufflen → cText (luaO_chunkid ('=' :: rest) bufflen) = rest) ∧
      (bufflen < strlen ('=' :: rest) →
        cText (luaO_chunkid ('=' :: rest) bufflen) = rest.take (bufflen - 1)) ∧
      cText (luaO_chunkid ['=', 's', 'h', 'o', 'r', 't'] 60) = ['s', 'h', 'o', 'r', 't'] := by
  have hl : strlen ('=' :: rest) = rest.length + 1 :=
    strlen_cons_of_ne '=' rest (by decide) hnul
  have hw := luaO_chunkid_eq_mark rest bufflen hnul h1 h64
  have hsub : rest.length + 1 - 1 = rest.length := by omega
  have hn : NUL ∉ rest.take (min rest.length (bufflen - 1)) :=
    fun hm => hnul (List.mem_of_mem_take hm)
  have ht : cText (luaO_chunkid ('=' :: rest) bufflen) =
      rest.take (min rest.length (bufflen - 1)) := by
    rw [hw]
    exact cText_append_NUL _ [] hn
  rw [hl, hsub]
  refine ⟨hw, ht, fun hle => ?_, fun hlt => ?_, ?_⟩
  · rw [ht]
    have hmin : min rest.length (bufflen - 1) = rest.length := by omega
    rw [hmin, List.take_length]
  · rw [ht]
    have hmin : min rest.length (bufflen - 1) = bufflen - 1 := by omega
    rw [hmin]
  · rw [luaO_chunkid_eq_mark ['s', 'h', 'o', 'r', 't'] 60 (by decide) (by norm_num)
      (by norm_num)]
    decide

theorem luaO_chunkid_literal_witness :
    cText (luaO_chunkid ['=', 's', 't', 'd', 'i', 'n'] 4) = ['s', 't', 'd'] :=
  (luaO_chunkid_literal ['s', 't', 'd', 'i', 'n'] 4 (by decide) (by norm_num)
    (by norm_num)).2.2.2.1 (by decide)

theorem luaO_chunkid_at_small (path : List Char) (bufflen : Nat) (hnul : NUL ∉ path)
    (hle : path.length + 1 ≤ bufflen) :
    luaO_chunkid ('@' :: path) bufflen = path ++ [NUL] := by
  have hl : strlen ('@' :: path) = path.length + 1 :=
    strlen_cons_of_ne '@' path (by decide) hnul
  unfold luaO_chunkid
  have hpk : peek ('@' :: path) = '@' := rfl
  have hne : ¬ (('@' : Char) = '=') := by decide
  simp only [hpk, hl, if_true, if_neg hne, if_pos hle]
  rw [memBytes_tail '@' path _ (le_refl _)]
  exact List.take_of_length_le (by simp)

theorem luaO_chunkid_at_long (path : List Char) (bufflen : Nat) (hnul : NUL ∉ path)
    (h4 : 4 ≤ bufflen) (h64 : bufflen < 2 ^ 64) (hlt : bufflen < path.length + 1) :
    luaO_chunkid ('@' :: path) bufflen =
      ['.', '.', '.'] ++ path.drop (path.length - (bufflen - 4)) ++ [NUL] := by
  have hl : strlen ('@' :: path) = path.length + 1 :=
    strlen_cons_of_ne '@' path (by decide) hnul
  unfold luaO_chunkid
  have hpk : peek ('@' :: path) = '@' := rfl
  have hLL : LL RETS = 3 := rfl
  have hnle : ¬ path.length + 1 ≤ bufflen := by omega
  have hne : ¬ (('@' : Char) = '=') := by decide
  simp only [hpk, hl, if_true, if_neg hne, if_neg hnle]
  rw [memBytes_RETS, hLL, sizeSub_eq bufflen 3 (by omega) h64]
  have hoff : 1 + (path.length + 1) - (bufflen - 3) = (path.length - (bufflen - 4)) + 1 := by
    omega
  rw [hoff, memBytes_eq ('@' :: path) (path.length - (bufflen - 4) + 1) (bufflen - 3)
    (by simp only [List.length_cons]; omega)]
  have hdrop : (('@' :: path) ++ [NUL]).drop (path.length - (bufflen - 4) + 1) =
      path.drop (path.length - (bufflen - 4)) ++ [NUL] := by
    rw [List.cons_append, List.drop_succ_cons, List.drop_append_of_le_length (by omega)]
  rw [hdrop]
  have hlen : (path.drop (path.length - (bufflen - 4)) ++ [NUL]).length = bufflen - 3 := by
    simp only [List.length_append, List.length_drop, List.length_singleton]
    omega
  rw [List.take_of_length_le (by omega)]
  rfl

/-- C24: `luaO_chunkid` on a source that begins with `'@'`, with a limit `bufflen ≥ 4`.
When `strlen(source) ≤ bufflen` the output is the path after the `'@'` unchanged.  When
the source is longer the output is `"..."` followed by the last `bufflen - 4` bytes of
the path: it begins with `"..."`, has the length `bufflen - 1`, and what follows the
dots is an end of the path (the `'@'` is not part of it). -/
theorem luaO_chunkid_file (path : List Char) (bufflen : Nat) (hnul : NUL ∉ path)
    (h4 : 4 ≤ bufflen) (h64 : bufflen < 2 ^ 64) :
    (strlen ('@' :: path) ≤ bufflen →
        luaO_chunkid ('@' :: path) bufflen = path ++ [NUL] ∧
          cText (luaO_chunkid ('@' :: path) bufflen) = path) ∧
      (bufflen < strlen ('@' :: path) →
        luaO_chunkid ('@' :: path) bufflen =
            ['.', '.', '.'] ++ path.drop (path.length - (bufflen - 4)) ++ [NUL] ∧
          cText (luaO_chunkid ('@' :: path) bufflen) =
            ['.', '.', '.'] ++ path.drop (path.length - (bufflen - 4)) ∧
          (path.drop (path.length - (bufflen - 4))).length = bufflen - 4 ∧
          (path.drop (path.length - (bufflen - 4))) <:+ path ∧
          (cText (luaO_chunkid ('@' :: path) bufflen)).length = bufflen - 1 ∧
          (cText (luaO_chunkid ('@' :: path) bufflen)).take 3 = ['.', '.', '.']) := by
  have hl : strlen ('@' :: path) = path.length + 1 :=
    strlen_cons_of_ne '@' path (by decide) hnul
  rw [hl]
  refine ⟨fun hle => ?_, fun hlt => ?_⟩
  · have hw := luaO_chunkid_at_small path bufflen hnul hle
    refine ⟨hw, ?_⟩
    rw [hw]
    exact cText_append_NUL path [] hnul
  · have hw := luaO_chunkid_at_long path bufflen hnul h4 h64 hlt
    have hn : NUL ∉ ['.', '.', '.'] ++ path.drop (path.length - (bufflen - 4)) := by
      intro hm
      simp only [List.mem_append] at hm
      rcases hm with h | h
      · exact absurd h (by decide)
      · exact hnul (List.mem_of_mem_drop h)
    have ht : cText (luaO_chunkid ('@' :: path) bufflen) =
        ['.', '.', '.'] ++ path.drop (path.length - (bufflen - 4)) := by
      rw [hw]
      exact cText_append_NUL _ [] hn
    have hlen : (path.drop (path.length - (bufflen - 4))).length = bufflen - 4 := by
      rw [List.length_drop]
      omega
    refine ⟨hw, ht, hlen, List.drop_suffix _ _, ?_, ?_⟩
    · rw [ht, List.length_append, hlen]
      simp only [List.length_cons, List.length_nil]
      omega
    · rw [ht]
      rfl

theorem luaO_chunkid_file_witness :
    cText (luaO_chunkid ['@', 'v', 'e', 'r', 'y', '/', 'l', 'o', 'n', 'g', '.', 'l', 'u', 'a'] 10) =
      ['.', '.', '.'] ++
        (['v', 'e', 'r', 'y', '/', 'l', 'o', 'n', 'g', '.', 'l', 'u', 'a'].drop
          (['v', 'e', 'r', 'y', '/', 'l', 'o', 'n', 'g', '.', 'l', 'u', 'a'].length - (10 - 4))) :=
  ((luaO_chunkid_file ['v', 'e', 'r', 'y', '/', 'l', 'o', 'n', 'g', '.', 'l', 'u', 'a'] 10
    (by decide) (by norm_num) (by norm_num)).2 (by decide)).2.1

theorem strchr_nl_none (s : List Char) (hnl : NL ∉ s) : strchr_nl s = none := by
  induction s with
  | nil => rfl
  | cons c cs ih =>
    simp only [List.mem_cons, not_or] at hnl
    unfold strchr_nl
    rw [if_neg (fun h => hnl.1 h.symm), ih hnl.2]
    split <;> rfl

theorem strchr_nl_some (s : List Char) (hnul : NUL ∉ s) (hnl : NL ∈ s) :
    strchr_nl s = some (s.takeWhile (fun c => c ≠ NL)).length := by
  induction s with
  | nil => simp at hnl
  | cons c cs ih =>
    simp only [List.mem_cons, not_or] at hnul
    unfold strchr_nl
    by_cases hc : c = NL
    · rw [if_pos hc]
      simp [List.takeWhile, hc]
    · rw [if_neg hc, if_neg (fun h => hnul.1 h.symm)]
      have hmem : NL ∈ cs := by
        rcases List.mem_cons.mp hnl with h | h
        · exact absurd h.symm hc
        · exact h
      rw [ih hnul.2 hmem]
      simp [List.takeWhile, hc]

theorem take_takeWhile_length (s : List Char) (p : Char → Bool) :
    s.take (s.takeWhile p).length = s.takeWhile p :=
  (List.prefix_iff_eq_take.mp (List.takeWhile_prefix p)).symm

theorem takeWhile_of_not_mem (s : List Char) (hnl : NL ∉ s) :
    s.takeWhile (fun c => c ≠ NL) = s := by
  rw [List.takeWhile_eq_self_iff]
  intro x hx
  have hne : x ≠ NL := fun h => hnl (h ▸ hx)
  simpa using hne

theorem luaO_chunkid_string_eq (source : List Char) (bufflen : Nat) (hnul : NUL ∉ source)
    (h1 : peek source ≠ '=') (h2 : peek source ≠ '@') (h15 : 15 ≤ bufflen)
    (h64 : bufflen < 2 ^ 64) :
    luaO_chunkid source bufflen =
      PRE ++ (if source.length < bufflen - 15 ∧ NL ∉ source then source
        else (source.takeWhile (fun c => c ≠ NL)).take (bufflen - 15) ++ RETS) ++
        (POS ++ [NUL]) := by
  have hl : strlen source = source.length := strlen_eq_length source hnul
  have hLL : LL (PRE ++ RETS ++ POS) + 1 = 15 := rfl
  unfold luaO_chunkid
  simp only [if_neg h1, if_neg h2, hl, hLL]
  rw [sizeSub_eq bufflen 15 h15 h64, memBytes_PRE, memBytes_POS, memBytes_RETS]
  congr 2
  by_cases hnl : NL ∈ source
  · have hk := strchr_nl_some source hnul hnl
    rw [hk]
    have hc1 : ¬ (source.length < bufflen - 15 ∧
        some (source.takeWhile (fun c => c ≠ NL)).length = none) := fun h => by
      cases h.2
    have hc2 : ¬ (source.length < bufflen - 15 ∧ NL ∉ source) := fun h => h.2 hnl
    rw [if_neg hc1, if_neg hc2]
    simp only
    have hkle : (source.takeWhile (fun c => c ≠ NL)).length ≤ source.length :=
      (List.takeWhile_prefix _).length_le
    congr 1
    split
    · rename_i hgt
      rw [memBytes_zero_take source _ (by omega)]
      conv_rhs => rw [← take_takeWhile_length source (fun c => c ≠ NL)]
      rw [List.take_take]
      congr 1
      omega
    · rename_i hgt
      rw [memBytes_zero_take source _ hkle, take_takeWhile_length]
      exact (List.take_of_length_le (by omega)).symm
  · have hk := strchr_nl_none source hnl
    rw [hk]
    by_cases hlt : source.length < bufflen - 15
    · rw [if_pos ⟨hlt, rfl⟩, if_pos ⟨hlt, hnl⟩, memBytes_zero_take source _ (le_refl _),
        List.take_length]
    · have hc1 : ¬ (source.length < bufflen - 15 ∧ (none : Option Nat) = none) :=
        fun h => hlt h.1
      have hc2 : ¬ (source.length < bufflen - 15 ∧ NL ∉ source) := fun h => hlt h.1
      rw [if_neg hc1, if_neg hc2, takeWhile_of_not_mem source hnl]
      simp only
      congr 1
      split
      · rw [memBytes_zero_take source _ (by omega)]
      · rw [memBytes_zero_take source _ (le_refl _), List.take_length]
        exact (List.take_of_length_le (by omega)).symm

theorem not_mem_NUL_string_text (body : List Char) (h : NUL ∉ body) :
    NUL ∉ PRE ++ body ++ POS := by
  intro hm
  simp only [List.mem_append] at hm
  rcases hm with (hm | hm) | hm
  · exact absurd hm (by decide)
  · exact h hm
  · exact absurd hm (by decide)

/-- C25: `luaO_chunkid` on a source text that begins with neither `'='` nor `'@'` and
contains a newline, with a limit `bufflen ≥ 15`, gives `[string "`, then the first line
of the text (the bytes before the first newline) cut to at most `bufflen - 15` bytes,
then `...` and the closing quote and bracket.  The output contains no newline; the text
`first line`, newline, `rest` gives `[string "first line..."]`. -/
theorem luaO_chunkid_first_line (source : List Char) (bufflen : Nat) (hnul : NUL ∉ source)
    (h1 : peek source ≠ '=') (h2 : peek source ≠ '@') (hnl : NL ∈ source)
    (h15 : 15 ≤ bufflen) (h64 : bufflen < 2 ^ 64) :
    luaO_chunkid source bufflen =
        PRE ++ ((source.takeWhile (fun c => c ≠ NL)).take (bufflen - 15) ++ RETS) ++ POS ++
          [NUL] ∧
      cText (luaO_chunkid source bufflen) =
        PRE ++ ((source.takeWhile (fun c => c ≠ NL)).take (bufflen - 15) ++ RETS) ++ POS ∧
      ((source.takeWhile (fun c => c ≠ NL)).take (bufflen - 15)).length ≤ bufflen - 15 ∧
      ((source.takeWhile (fun c => c ≠ NL)).length ≤ bufflen - 15 →
        cText (luaO_chunkid source bufflen) =
          PRE ++ (source.takeWhile (fun c => c ≠ NL) ++ RETS) ++ POS) ∧
      NL ∉ cText (luaO_chunkid source bufflen) ∧
      cText (luaO_chunkid
          ['f', 'i', 'r', 's', 't', ' ', 'l', 'i', 'n', 'e', NL, 'r', 'e', 's', 't'] 60) =
        ['[', 's', 't', 'r', 'i', 'n', 'g', ' ', Char.ofNat 34,
          'f', 'i', 'r', 's', 't', ' ', 'l', 'i', 'n', 'e', '.', '.', '.', Char.ofNat 34, ']'] := by
  have hw : luaO_chunkid source bufflen =
      PRE ++ ((source.takeWhile (fun c => c ≠ NL)).take (bufflen - 15) ++ RETS) ++ POS ++
        [NUL] := by
    rw [luaO_chunkid_string_eq source bufflen hnul h1 h2 h15 h64,
      if_neg (fun h => h.2 hnl)]
    simp only [List.append_assoc]
  have hbody : NUL ∉ (source.takeWhile (fun c => c ≠ NL)).take (bufflen - 15) ++ RETS := by
    intro hm
    simp only [List.mem_append] at hm
    rcases hm with hm | hm
    · exact hnul ((List.takeWhile_prefix _).subset (List.mem_of_mem_take hm))
    · exact absurd hm (by decide)
  have ht : cText (luaO_chunkid source bufflen) =
      PRE ++ ((source.takeWhile (fun c => c ≠ NL)).take (bufflen - 15) ++ RETS) ++ POS := by
    rw [hw]
    exact cText_append_NUL _ [] (not_mem_NUL_string_text _ hbody)
  refine ⟨hw, ht, ?_, fun hle => ?_, ?_, ?_⟩
  · rw [List.length_take]
    exact Nat.min_le_left _ _
  · rw [ht, List.take_of_length_le hle]
  · rw [ht]
    intro hm
    simp only [List.mem_append] at hm
    rcases hm with (hm | hm | hm) | hm
    · exact absurd hm (by decide)
    · have h3 := List.mem_takeWhile_imp (List.mem_of_mem_take hm)
      simp at h3
    · exact absurd hm (by decide)
    · exact absurd hm (by decide)
  · decide

theorem luaO_chunkid_first_line_witness :
    cText (luaO_chunkid ['a', 'b', 'c', 'd', 'e', NL, 'x'] 18) =
      PRE ++ ((['a', 'b', 'c', 'd', 'e', NL, 'x'].takeWhile (fun c => c ≠ NL)).take (18 - 15) ++
        RETS) ++ POS :=
  (luaO_chunkid_first_line ['a', 'b', 'c', 'd', 'e', NL, 'x'] 18 (by decide) (by decide)
    (by decide) (by decide) (by norm_num) (by norm_num)).2.1

/-- C30: `luaO_chunkid` on a source text without a newline that begins with neither
`'='` nor `'@'`, of length `l`, with a limit `bufflen ≥ 15`.  When `l < bufflen - 15`
the output is `[string "`, the whole text and the closing quote and bracket, with no
ellipsis; otherwise it is `[string "`, the first `bufflen - 15` bytes of the text, `...`
and the closing quote and bracket, so a text of length exactly `bufflen - 15` is written
in full and followed by the ellipsis.  The bytes taken from the text are followed at
once by the closing quote, with no ellipsis, if and only if `l < bufflen - 15`.  (A text
of length `bufflen - 12` that itself ends in `...` is cut before its own dots, and the
output with the ellipsis reads as the whole text.) -/
theorem luaO_chunkid_single_line (source : List Char) (bufflen : Nat) (hnul : NUL ∉ source)
    (h1 : peek source ≠ '=') (h2 : peek source ≠ '@') (hnl : NL ∉ source)
    (h15 : 15 ≤ bufflen) (h64 : bufflen < 2 ^ 64) :
    (source.length < bufflen - 15 →
        luaO_chunkid source bufflen = PRE ++ source ++ POS ++ [NUL] ∧
          cText (luaO_chunkid source bufflen) = PRE ++ source ++ POS) ∧
      (bufflen - 15 ≤ source.length →
        luaO_chunkid source bufflen =
            PRE ++ (source.take (bufflen - 15) ++ RETS) ++ POS ++ [NUL] ∧
          cText (luaO_chunkid source bufflen) =
            PRE ++ (source.take (bufflen - 15) ++ RETS) ++ POS) ∧
      (source.length = bufflen - 15 →
        cText (luaO_chunkid source bufflen) = PRE ++ (source ++ RETS) ++ POS) ∧
      (¬ (RETS <:+ source ∧ source.length = bufflen - 12) →
        (cText (luaO_chunkid source bufflen) = PRE ++ source ++ POS ↔
          source.length < bufflen - 15)) ∧
      (cText (luaO_chunkid source bufflen) = PRE ++ source.take (bufflen - 15) ++ POS ↔
        source.length < bufflen - 15) ∧
      luaO_chunkid source bufflen =
        PRE ++ (source.take (bufflen - 15) ++
          (if source.length < bufflen - 15 then [] else RETS)) ++ POS ++ [NUL] := by
  have hw := luaO_chunkid_string_eq source bufflen hnul h1 h2 h15 h64
  rw [takeWhile_of_not_mem source hnl] at hw
  have hshort : source.length < bufflen - 15 →
      luaO_chunkid source bufflen = PRE ++ source ++ POS ++ [NUL] ∧
        cText (luaO_chunkid source bufflen) = PRE ++ source ++ POS := by
    intro hlt
    have hw1 : luaO_chunkid source bufflen = PRE ++ source ++ POS ++ [NUL] := by
      rw [hw, if_pos ⟨hlt, hnl⟩]
      simp only [List.append_assoc]
    refine ⟨hw1, ?_⟩
    rw [hw1]
    exact cText_append_NUL _ [] (not_mem_NUL_string_text _ hnul)
  have hlong : bufflen - 15 ≤ source.length →
      luaO_chunkid source bufflen =
          PRE ++ (source.take (bufflen - 15) ++ RETS) ++ POS ++ [NUL] ∧
        cText (luaO_chunkid source bufflen) =
          PRE ++ (source.take (bufflen - 15) ++ RETS) ++ POS := by
    intro hge
    have hw1 : luaO_chunkid source bufflen =
        PRE ++ (source.take (bufflen - 15) ++ RETS) ++ POS ++ [NUL] := by
      rw [hw, if_neg (fun h => absurd h.1 (by omega))]
      simp only [List.append_assoc]
    refine ⟨hw1, ?_⟩
    rw [hw1]
    apply cText_append_NUL _ [] (not_mem_NUL_string_text _ _)
    intro hm
    simp only [List.mem_append] at hm
    rcases hm with hm | hm
    · exact hnul (List.mem_of_mem_take hm)
    · exact absurd hm (by decide)
  refine ⟨hshort, hlong, fun heq => ?_, fun hex => ⟨fun hout => ?_, fun hlt => (hshort hlt).2⟩,
    ⟨fun hout => ?_, fun hlt => ?_⟩, ?_⟩
  · rw [(hlong (by omega)).2, List.take_of_length_le (by omega)]
  · by_contra hnlt
    have hge : bufflen - 15 ≤ source.length := by omega
    rw [(hlong hge).2] at hout
    have h3 : source.take (bufflen - 15) ++ RETS = source := by
      have h4 := List.append_cancel_right hout
      exact List.append_cancel_left h4
    apply hex
    refine ⟨⟨source.take (bufflen - 15), h3⟩, ?_⟩
    have h5 := congrArg List.length h3
    rw [List.length_append, List.length_take] at h5
    have h6 : RETS.length = 3 := rfl
    rw [h6, Nat.min_eq_left hge] at h5
    omega
  · by_contra hnlt
    have hge : bufflen - 15 ≤ source.length := by omega
    rw [(hlong hge).2] at hout
    have h5 := congrArg List.length hout
    simp only [List.length_append] at h5
    have h6 : RETS.length = 3 := rfl
    omega
  · rw [(hshort hlt).2, List.take_of_length_le (by omega)]
  · by_cases hlt : source.length < bufflen - 15
    · rw [(hshort hlt).1, if_pos hlt, List.take_of_length_le (by omega), List.append_nil]
    · rw [(hlong (by omega)).1, if_neg hlt]

theorem luaO_chunkid_single_line_witness :
    cText (luaO_chunkid ['r', 'e', 't', 'u', 'r', 'n', ' ', '1'] 23) =
      PRE ++ (['r', 'e', 't', 'u', 'r', 'n', ' ', '1'] ++ RETS) ++ POS :=
  (luaO_chunkid_single_line ['r', 'e', 't', 'u', 'r', 'n', ' ', '1'] 23 (by decide)
    (by decide) (by decide) (by decide) (by norm_num) (by norm_num)).2.2.1 (by decide)

theorem getD_strlen (s : List Char) : (s ++ [NUL]).getD (strlen s) NUL = NUL := by
  induction s with
  | nil => rfl
  | cons c cs ih =>
    unfold strlen
    by_cases hc : c = NUL
    · rw [if_pos hc]
      simp [hc]
    · rw [if_neg hc]
      simpa using ih

theorem strlen_pos_of_peek (s : List Char) (h : peek s ≠ NUL) : 1 ≤ strlen s := by
  cases s with
  | nil => exact absurd rfl h
  | cons c cs =>
    have hc : c ≠ NUL := h
    unfold strlen
    rw [if_neg hc]
    omega

theorem memBytes_getLast (src : List Char) (off n : Nat) :
    (memBytes src off (n + 1)).getLast? = some ((src ++ [NUL]).getD (off + n) NUL) := by
  rw [memBytes_succ, List.getLast?_append]
  rfl

theorem cText_length_lt (w : List Char) (h : NUL ∈ w) : (cText w).length + 1 ≤ w.length := by
  unfold cText
  induction w with
  | nil => simp at h
  | cons c cs ih =>
    by_cases hc : c = NUL
    · simp [List.takeWhile, hc]
    · have hm : NUL ∈ cs := by
        rcases List.mem_cons.mp h with h1 | h1
        · exact absurd h1.symm hc
        · exact h1
      have h1 := ih hm
      have h2 : (c :: cs).takeWhile (fun c => c ≠ NUL) =
          c :: cs.takeWhile (fun c => c ≠ NUL) := by
        simp [List.takeWhile, hc]
      rw [h2]
      simp only [List.length_cons]
      omega

theorem luaO_chunkid_marked_fits (source : List Char) (bufflen : Nat) (h4 : 4 ≤ bufflen)
    (h64 : bufflen < 2 ^ 64) (hl : 1 ≤ strlen source) :
    ((if strlen source ≤ bufflen then memBytes source 1 (strlen source)
        else memBytes source 1 (sizeSub bufflen 1) ++ [NUL]).length ≤ bufflen ∧
      (if strlen source ≤ bufflen then memBytes source 1 (strlen source)
        else memBytes source 1 (sizeSub bufflen 1) ++ [NUL]).getLast? = some NUL) ∧
    ((if strlen source ≤ bufflen then memBytes source 1 (strlen source)
        else memBytes RETS 0 (LL RETS) ++
          memBytes source (1 + strlen source - sizeSub bufflen (LL RETS))
            (sizeSub bufflen (LL RETS))).length ≤ bufflen ∧
      (if strlen source ≤ bufflen then memBytes source 1 (strlen source)
        else memBytes RETS 0 (LL RETS) ++
          memBytes source (1 + strlen source - sizeSub bufflen (LL RETS))
            (sizeSub bufflen (LL RETS))).getLast? = some NUL) := by
  have hsmall : (memBytes source 1 (strlen source)).getLast? = some NUL := by
    obtain ⟨m, hm⟩ : ∃ m, strlen source = m + 1 := ⟨strlen source - 1, by omega⟩
    rw [hm, memBytes_getLast]
    have : 1 + m = strlen source := by omega
    rw [this, getD_strlen]
  have hLL : LL RETS = 3 := rfl
  by_cases hle : strlen source ≤ bufflen
  · simp only [if_pos hle, memBytes_length]
    exact ⟨⟨hle, hsmall⟩, hle, hsmall⟩
  · simp only [if_neg hle]
    rw [hLL, sizeSub_eq bufflen 1 (by omega) h64, sizeSub_eq bufflen 3 (by omega) h64]
    refine ⟨⟨?_, ?_⟩, ?_, ?_⟩
    · simp only [List.length_append, memBytes_length, List.length_singleton]
      omega
    · simp
    · simp only [List.length_append, memBytes_length]
      omega
    · obtain ⟨m, hm⟩ : ∃ m, bufflen - 3 = m + 1 := ⟨bufflen - 4, by omega⟩
      rw [hm, List.getLast?_append, memBytes_getLast]
      have : 1 + strlen source - (m + 1) + m = strlen source := by omega
      rw [this, getD_strlen]
      rfl

/-- C28: `luaO_chunkid` never writes past its buffer.  For every source text, of any
of the three kinds and of any length, and every limit `bufflen ≥ 15`, the bytes written
to `out` are at most `bufflen`, the last of them is the terminator, and so the length of
the output text plus one for the terminator is at most `bufflen`. -/
theorem luaO_chunkid_fits (source : List Char) (bufflen : Nat) (h15 : 15 ≤ bufflen)
    (h64 : bufflen < 2 ^ 64) :
    (luaO_chunkid source bufflen).length ≤ bufflen ∧
      (luaO_chunkid source bufflen).getLast? = some NUL ∧
      NUL ∈ luaO_chunkid source bufflen ∧
      (cText (luaO_chunkid source bufflen)).length + 1 ≤ bufflen := by
  have hmain : (luaO_chunkid source bufflen).length ≤ bufflen ∧
      (luaO_chunkid source bufflen).getLast? = some NUL := by
    unfold luaO_chunkid
    simp only
    by_cases h1 : peek source = '='
    · rw [if_pos h1]
      have hl : 1 ≤ strlen source :=
        strlen_pos_of_peek source (by rw [h1]; decide)
      exact (luaO_chunkid_marked_fits source bufflen (by omega) h64 hl).1
    · rw [if_neg h1]
      by_cases h2 : peek source = '@'
      · rw [if_pos h2]
        have hl : 1 ≤ strlen source :=
          strlen_pos_of_peek source (by rw [h2]; decide)
        exact (luaO_chunkid_marked_fits source bufflen (by omega) h64 hl).2
      · rw [if_neg h2]
        have hLL : LL (PRE ++ RETS ++ POS) + 1 = 15 := rfl
        rw [hLL, sizeSub_eq bufflen 15 h15 h64, memBytes_PRE, memBytes_POS, memBytes_RETS]
        refine ⟨?_, ?_⟩
        · simp only [List.length_append]
          have hP : PRE.length = 9 := rfl
          have hQ : POS.length = 2 := rfl
          have hR : RETS.length = 3 := rfl
          rw [hP, hQ]
          simp only [List.length_singleton]
          split
          · rename_i hc
            rw [memBytes_length]
            omega
          · rw [List.length_append, memBytes_length, hR]
            split <;> omega
        · rw [List.getLast?_append]
          rfl
  have hmem : NUL ∈ luaO_chunkid source bufflen := List.mem_of_getLast?_eq_some hmain.2
  exact ⟨hmain.1, hmain.2, hmem, le_trans (cText_length_lt _ hmem) hmain.1⟩

theorem luaO_chunkid_fits_witness :
    (cText (luaO_chunkid ['x', '=', '1', NL, 'y', '=', '2'] 15)).length + 1 ≤ 15 :=
  (luaO_chunkid_fits ['x', '=', '1', NL, 'y', '=', '2'] 15 (by norm_num) (by norm_num)).2.2.2

/-! ## Tags -/

theorem ctb_bits : ∀ t : Nat, t < 64 →
    ctb t = t + 64 ∧ ctb t &&& BIT_ISCOLLECTABLE = BIT_ISCOLLECTABLE ∧
      t &&& BIT_ISCOLLECTABLE = 0 ∧ ctb t &&& 0x3F = t ∧ t &&& 0x3F = t ∧
      novariant (ctb t) = novariant t ∧ novariant t = t % 16 ∧ novariant t < 16 ∧
      t = novariant t ||| (((t >>> 4) &&& 3) <<< 4) := by
  decide

/-- C26: the layout of the bits of a tag.  Bits 0-3 hold the base kind (`novariant`
keeps them), bits 4-5 the variant (`ttype` keeps bits 0-5) and bit 6, `0x40`, is the
collectable mark.  For every tag `t < 64`, `ctb t` sets bit 6 and leaves bits 0-5 as they
are: the type and variant of `ctb t` is `t` and its base kind is `novariant t`.  Each
variant tag has its base kind in bits 0-3: float and integer are numbers, short and long
strings are strings, Lua closures, light C functions and C closures are functions.  The
nine base kinds, the prototype tag and the dead-key tag are below 16. -/
theorem tag_bit_layout {F : Type} (o : TValue F) (t : Nat) (ht : t < 64) :
    (BIT_ISCOLLECTABLE = 0x40 ∧ ctb t = t + 64 ∧
        ctb t &&& BIT_ISCOLLECTABLE = BIT_ISCOLLECTABLE ∧ ctb t &&& 0x3F = t ∧
        novariant (ctb t) = novariant t ∧ novariant t = t % 16 ∧
        t = novariant t ||| (((t >>> 4) &&& 3) <<< 4)) ∧
      (ttype (settt_ o (ctb t)) = t ∧ ttnov (settt_ o (ctb t)) = novariant t ∧
        iscollectable (settt_ o (ctb t)) = true ∧ ttype (settt_ o t) = t ∧
        iscollectable (settt_ o t) = false) ∧
      (novariant LUA_TNUMFLT = LUA_TNUMBER ∧ novariant LUA_TNUMINT = LUA_TNUMBER ∧
        novariant LUA_TSHRSTR = LUA_TSTRING ∧ novariant LUA_TLNGSTR = LUA_TSTRING ∧
        novariant LUA_TLCL = LUA_TFUNCTION ∧ novariant LUA_TLCF = LUA_TFUNCTION ∧
        novariant LUA_TCCL = LUA_TFUNCTION) ∧
      (LUA_TNUMFLT ≠ LUA_TNUMINT ∧ LUA_TSHRSTR ≠ LUA_TLNGSTR ∧ LUA_TLCL ≠ LUA_TLCF ∧
        LUA_TLCL ≠ LUA_TCCL ∧ LUA_TLCF ≠ LUA_TCCL) ∧
      (LUA_NUMTAGS = 9 ∧
        [LUA_TNIL, LUA_TBOOLEAN, LUA_TLIGHTUSERDATA, LUA_TNUMBER, LUA_TSTRING, LUA_TTABLE,
          LUA_TFUNCTION, LUA_TUSERDATA, LUA_TTHREAD] = List.range 9 ∧
        LUA_TPROTO < 16 ∧ LUA_TDEADKEY < 16 ∧ novariant LUA_TPROTO = LUA_TPROTO ∧
        novariant LUA_TDEADKEY = LUA_TDEADKEY ∧
        (∀ k ∈ [LUA_TNUMFLT, LUA_TNUMINT, LUA_TSHRSTR, LUA_TLNGSTR, LUA_TLCL, LUA_TLCF,
          LUA_TCCL], k < 64)) := by
  obtain ⟨h1, h2, h3, h4, h5, h6, h7, _, h9⟩ := ctb_bits t ht
  refine ⟨⟨by decide, h1, h2, h4, h6, h7, h9⟩, ⟨h4, h6, ?_, h5, ?_⟩, by decide, by decide,
    by decide⟩
  · show ((ctb t &&& BIT_ISCOLLECTABLE) != 0) = true
    rw [h2]
    decide
  · show ((t &&& BIT_ISCOLLECTABLE) != 0) = false
    rw [h3]
    decide

theorem tag_bit_layout_witness :
    ttype (settt_ (nilobject Rat) (ctb LUA_TLNGSTR)) = LUA_TLNGSTR ∧
      ttnov (settt_ (nilobject Rat) (ctb LUA_TLNGSTR)) = novariant LUA_TLNGSTR :=
  ⟨(tag_bit_layout (nilobject Rat) LUA_TLNGSTR (by decide)).2.1.1,
    (tag_bit_layout (nilobject Rat) LUA_TLNGSTR (by decide)).2.1.2.1⟩

theorem concreteKinds_eq_map {F : Type} (o : TValue F) :
    concreteKinds o = concreteTags.map (fun k => rttype o == k) := rfl

theorem count_true_map_beq (l : List Nat) (t : Nat) :
    (l.map (fun k => t == k)).count true = l.count t := by
  induction l with
  | nil => rfl
  | cons a l ih =>
    rw [List.map_cons, List.count_cons, List.count_cons, ih]
    by_cases h : t = a
    · subst h
      simp
    · have h1 : (t == a) = false := by simpa using h
      have h2 : (a == t) = false := by simpa using fun h3 => h h3.symm
      rw [h1, h2]
      rfl

theorem concreteKinds_of_tag {F : Type} (o : TValue F) :
    ∀ k : Nat, k < 14 → rttype o = concreteTags.getD k 0 → concreteKinds o = onlyAt k := by
  intro k hk ht
  rw [concreteKinds_eq_map, ht]
  interval_cases k <;> rfl

theorem onlyAt_spec : ∀ k : Nat, k < 14 →
    (onlyAt k).length = 14 ∧ (onlyAt k).count true = 1 ∧ (onlyAt k).getD k false = true := by
  decide

theorem concreteTags_collectable : ∀ k : Nat, k < 14 →
    (((concreteTags.getD k 0 &&& BIT_ISCOLLECTABLE) != 0) = true ↔
      k ∈ [5, 6, 7, 8, 10, 11, 12]) := by
  decide

theorem iscollectable_tag {F : Type} (v : Value F) (t : Nat) :
    iscollectable ({ value_ := v, tt_ := t } : TValue F) = ((t &&& BIT_ISCOLLECTABLE) != 0) :=
  rfl

/-- C27: the raw tags of the concrete kinds (nil, boolean, light userdata, float,
integer, short string, long string, table, Lua closure, light C function, C closure,
full userdata, thread, dead key) are pairwise distinct.  On a value built by a
constructor macro exactly the predicate of its kind holds, and on every value at most
one of these predicates holds; a dead key is never nil and is none of the live kinds;
`iscollectable` holds exactly for the strings, tables, Lua and C closures, full
userdata and threads. -/
theorem concrete_kinds_exclusive {F : Type} (o obj : TValue F) (x : Nat) (b i : Int) (n : F) :
    concreteTags.Nodup ∧
      (concreteKinds (setnilvalue obj) = onlyAt 0 ∧
        concreteKinds (setbvalue obj b) = onlyAt 1 ∧
        concreteKinds (setpvalue obj x) = onlyAt 2 ∧
        concreteKinds (setfltvalue obj n) = onlyAt 3 ∧
        concreteKinds (setivalue obj i) = onlyAt 4 ∧
        concreteKinds (setsvalue obj x LUA_TSHRSTR) = onlyAt 5 ∧
        concreteKinds (setsvalue obj x LUA_TLNGSTR) = onlyAt 6 ∧
        concreteKinds (sethvalue obj x) = onlyAt 7 ∧
        concreteKinds (setclLvalue obj x) = onlyAt 8 ∧
        concreteKinds (setfvalue obj x) = onlyAt 9 ∧
        concreteKinds (setclCvalue obj x) = onlyAt 10 ∧
        concreteKinds (setuvalue obj x) = onlyAt 11 ∧
        concreteKinds (setthvalue obj x) = onlyAt 12 ∧
        concreteKinds (setdeadvalue obj) = onlyAt 13) ∧
      (∀ k : Nat, k < 14 →
        (onlyAt k).count true = 1 ∧ (onlyAt k).getD k false = true) ∧
      (concreteKinds o).count true ≤ 1 ∧
      (∀ k : Nat, k < 14 → rttype o = concreteTags.getD k 0 → concreteKinds o = onlyAt k) ∧
      ¬ (ttisdeadkey o = true ∧ ttisnil o = true) ∧
      (ttisdeadkey o = true → concreteKinds o = onlyAt 13) ∧
      (∀ k : Nat, k < 14 → rttype o = concreteTags.getD k 0 →
        (iscollectable o = true ↔ k ∈ [5, 6, 7, 8, 10, 11, 12])) ∧
      (iscollectable (setnilvalue obj) = false ∧ iscollectable (setbvalue obj b) = false ∧
        iscollectable (setpvalue obj x) = false ∧ iscollectable (setfltvalue obj n) = false ∧
        iscollectable (setivalue obj i) = false ∧ iscollectable (setfvalue obj x) = false ∧
        iscollectable (setdeadvalue obj) = false ∧
        iscollectable (setsvalue obj x LUA_TSHRSTR) = true ∧
        iscollectable (setsvalue obj x LUA_TLNGSTR) = true ∧
        iscollectable (sethvalue obj x) = true ∧ iscollectable (setclLvalue obj x) = true ∧
        iscollectable (setclCvalue obj x) = true ∧ iscollectable (setuvalue obj x) = true ∧
        iscollectable (setthvalue obj x) = true) := by
  have hnd : concreteTags.Nodup := by decide
  have hdead : ttisdeadkey o = true → rttype o = concreteTags.getD 13 0 := by
    intro h
    have h1 : (rttype o == LUA_TDEADKEY) = true := h
    exact beq_iff_eq.mp h1
  refine ⟨hnd, ⟨rfl, rfl, rfl, rfl, rfl, rfl, rfl, rfl, rfl, rfl, rfl, rfl, rfl, rfl⟩,
    fun k hk => (onlyAt_spec k hk).2, ?_, concreteKinds_of_tag o, ?_,
    fun h => concreteKinds_of_tag o 13 (by norm_num) (hdead h), fun k hk ht => ?_,
    ⟨(iscollectable_tag _ _).trans (by decide), (iscollectable_tag _ _).trans (by decide),
      (iscollectable_tag _ _).trans (by decide), (iscollectable_tag _ _).trans (by decide),
      (iscollectable_tag _ _).trans (by decide), (iscollectable_tag _ _).trans (by decide),
      (iscollectable_tag _ _).trans (by decide), (iscollectable_tag _ _).trans (by decide),
      (iscollectable_tag _ _).trans (by decide), (iscollectable_tag _ _).trans (by decide),
      (iscollectable_tag _ _).trans (by decide), (iscollectable_tag _ _).trans (by decide),
      (iscollectable_tag _ _).trans (by decide), (iscollectable_tag _ _).trans (by decide)⟩⟩
  · rw [concreteKinds_eq_map, count_true_map_beq]
    exact List.nodup_iff_count_le_one.mp hnd _
  · rintro ⟨h1, h2⟩
    have h3 : rttype o = LUA_TDEADKEY := beq_iff_eq.mp h1
    have h4 : rttype o = LUA_TNIL := beq_iff_eq.mp h2
    rw [h3] at h4
    exact absurd h4 (by decide)
  · have h := concreteTags_collectable k hk
    rw [← ht] at h
    exact h

theorem concrete_kinds_exclusive_witness :
    concreteKinds (setdeadvalue (nilobject Rat)) = onlyAt 13 ∧
      (iscollectable (sethvalue (nilobject Rat) 1) = true ↔ 7 ∈ [5, 6, 7, 8, 10, 11, 12]) :=
  ⟨(concrete_kinds_exclusive (setdeadvalue (nilobject Rat)) (nilobject Rat) 0 0 0 0).2.2.2.2.2.2.1
      rfl,
    (concrete_kinds_exclusive (sethvalue (nilobject Rat) 1) (nilobject Rat) 0 0 0
      0).2.2.2.2.2.2.2.1 7 (by norm_num) rfl⟩

/-! ## The size encoding rounds up -/

theorem luaO_int2fb_byte_range (x : Nat) (hx : x ≤ 15 * 2 ^ 27) :
    0 ≤ luaO_int2fb x ∧ luaO_int2fb x ≤ 231 := by
  by_cases h8 : x < 8
  · rw [luaO_int2fb_small x h8]
    omega
  · obtain ⟨m, e, hinv, hm, he, hb, _⟩ := fb_round_trip_value x (by omega) hx
    rw [hb]
    have := hinv.2.1
    omega

theorem luaO_fb2int_big (b : Nat) (hb : 231 < b) : (15 * 2 ^ 27 : Int) ≤ luaO_fb2int (b : Int) := by
  rw [luaO_fb2int_byte b (by omega)]
  have h1 : 2 ^ 28 ≤ 2 ^ (b / 8 - 1) := Nat.pow_le_pow_right (by norm_num) (by omega)
  have h2 : 8 * 2 ^ 28 ≤ (b % 8 + 8) * 2 ^ (b / 8 - 1) := Nat.mul_le_mul (by omega) h1
  have h3 : (15 * 2 ^ 27 : Nat) ≤ (b % 8 + 8) * 2 ^ (b / 8 - 1) :=
    le_trans (by norm_num) h2
  exact_mod_cast h3

theorem fb_round_trip_le_max (x : Nat) (hx : x ≤ 15 * 2 ^ 27) :
    luaO_fb2int (luaO_int2fb x) ≤ (15 * 2 ^ 27 : Int) := by
  by_cases h8 : x < 8
  · rw [luaO_int2fb_small x h8, luaO_fb2int_small x h8]
    omega
  · obtain ⟨m, e, hinv, hm, he, _, hv⟩ := fb_round_trip_value x (by omega) hx
    rw [hv]
    have h1 : 2 ^ e ≤ 2 ^ 27 := Nat.pow_le_pow_right (by norm_num) he
    have h2 : m * 2 ^ e ≤ 15 * 2 ^ 27 := Nat.mul_le_mul hm h1
    exact_mod_cast h2

/-- C29: the size encoding rounds up, never down.  For every `x` with
`0 ≤ x ≤ 15 * 2^27`, `luaO_int2fb x` is a byte (`0..255`),
`luaO_fb2int (luaO_int2fb x) ≥ x`, and this is the least value greater than or equal to
`x` among the values of `luaO_fb2int`, on every argument; it is `x` for every
`x < 16`. -/
theorem luaO_int2fb_rounds_up (x : Nat) (hx : x ≤ 15 * 2 ^ 27) :
    (0 ≤ luaO_int2fb x ∧ luaO_int2fb x ≤ 255) ∧
      (x : Int) ≤ luaO_fb2int (luaO_int2fb x) ∧
      (∀ b : Int, (x : Int) ≤ luaO_fb2int b →
        luaO_fb2int (luaO_int2fb x) ≤ luaO_fb2int b) ∧
      (x < 16 → luaO_fb2int (luaO_int2fb x) = (x : Int)) := by
  obtain ⟨r1, r2⟩ := luaO_int2fb_byte_range x hx
  have hge := fb_round_trip_ge x hx
  have hleast : ∀ b : Int, (x : Int) ≤ luaO_fb2int b →
      luaO_fb2int (luaO_int2fb x) ≤ luaO_fb2int b := by
    intro b hb
    by_cases hneg : b < 0
    · have h1 : luaO_fb2int b = b := by
        unfold luaO_fb2int
        rw [if_pos (by omega)]
      rw [h1] at hb
      omega
    · obtain ⟨n, hn⟩ : ∃ n : Nat, b = (n : Int) := ⟨b.toNat, by omega⟩
      subst hn
      by_cases h231 : n ≤ 231
      · exact fb_round_trip_least x hx _ ⟨n, h231, rfl⟩ hb
      · exact le_trans (fb_round_trip_le_max x hx) (luaO_fb2int_big n (by omega))
  refine ⟨⟨r1, by omega⟩, hge, hleast, fun h16 => ?_⟩
  have hfix : luaO_fb2int (x : Int) = (x : Int) := by
    by_cases h8 : x < 8
    · rw [luaO_fb2int_small x h8]
    · rw [luaO_fb2int_byte x (by omega)]
      have h1 : x / 8 - 1 = 0 := by omega
      rw [h1]
      have h2 : (x % 8 + 8) * 2 ^ 0 = x := by omega
      rw [h2]
  apply le_antisymm _ hge
  have h3 := hleast (x : Int) (by rw [hfix])
  rw [hfix] at h3
  exact h3

theorem luaO_int2fb_rounds_up_witness :
    luaO_fb2int (luaO_int2fb 100) ≤ luaO_fb2int 49 :=
  (luaO_int2fb_rounds_up 100 (by norm_num)).2.2.1 49 (by decide)

/-! ## Hexadecimal floats: the value `lua_strx2number` computes -/

end LuaObject
